import Mathlib

/-!
# njhale/runtime: image binding, generic maps and the watch graph

A shallow embedding of `pkg/appdefinition/appdefinition.go` and
`pkg/apis/internal.acorn.io/v1/map.go`.

Conventions of the embedding.

* A Go `map[string]V` is a `GoMap V`: the list of its entries in the order in
  which a `range` loop visits them.  Go leaves that order unspecified, so a
  statement about the code quantifies over every list.
* A Go pointer that may be `nil` is an `Option`; a function that writes through
  a pointer argument returns the written record.
* A Go `(value, error)` result keeps both components where the code can set
  both.
* External collaborators (the AML interpreter, the file system, `path/filepath`,
  `strconv.ParseFloat`) are parameters.
-/

namespace AcornRuntime

/-! ## Go maps -/

/-- A Go `map[string]V`, as the sequence of entries a `range` loop visits. -/
abbrev GoMap (V : Type) := List (String × V)

namespace GoMap

variable {V : Type}

/-- The read `m[k]` with its presence flag. -/
def get : GoMap V → String → Option V
  | [], _ => none
  | (k, v) :: rest, key => if k = key then some v else get rest key

/-- The write `m[k] = v`: an existing key keeps its slot, a new key gets one. -/
def set : GoMap V → String → V → GoMap V
  | [], key, val => [(key, val)]
  | (k, v) :: rest, key, val =>
    if k = key then (k, val) :: rest else (k, v) :: set rest key val

/-- The keys of the map, in iteration order. -/
def keys (m : GoMap V) : List String := m.map Prod.fst

/-- Key membership `_, ok := m[k]`. -/
def contains (m : GoMap V) (key : String) : Bool := (get m key).isSome

end GoMap

/-- The helper `typed.Concat(maps...)` of `github.com/acorn-io/baaah`: a new map
that receives every entry of each argument in turn, so later arguments win.
A nil argument counts as empty. -/
def Concat {V : Type} (a b : GoMap V) : GoMap V :=
  b.foldl (fun r kv => GoMap.set r kv.1 kv.2)
    (a.foldl (fun r kv => GoMap.set r kv.1 kv.2) [])

/-! ## Build records (`v1.Build`, `v1.AcornBuild`) -/

/-- The container build record `v1.Build`, with the fields the source reads or
writes. -/
structure Build where
  Context : String
  Dockerfile : String
  BaseImage : String
deriving DecidableEq, Repr, Inhabited

/-- The nested-application build record `v1.AcornBuild`, with the fields the
source reads or writes. -/
structure AcornBuild where
  OriginalImage : String
  Context : String
  Acornfile : String
deriving DecidableEq, Repr, Inhabited

/-- The function `assignAcornImage` (appdefinition.go:132). -/
def assignAcornImage (originalImage : String) (build : Option AcornBuild) (image : String) :
    String × AcornBuild :=
  let build : AcornBuild :=
    match build with
    | none => { OriginalImage := "", Context := "", Acornfile := "" }
    | some b => b
  let build : AcornBuild :=
    if build.OriginalImage = "" then { build with OriginalImage := originalImage } else build
  (image, build)

/-- The function `assignImage` (appdefinition.go:142). -/
def assignImage (originalImage : String) (build : Option Build) (image : String) :
    String × Build :=
  let build : Build :=
    match build with
    | none => { Context := ".", Dockerfile := "Dockerfile", BaseImage := "" }
    | some b => b
  let build : Build :=
    if build.BaseImage = "" then { build with BaseImage := originalImage }
    else if build.BaseImage = originalImage then { build with BaseImage := image }
    else build
  (image, build)

/-- Repeated calls of `assignAcornImage` on the same build record, each with
its own `(originalImage, image)` arguments. -/
def assignAcornImageMany (build : AcornBuild) : List (String × String) → AcornBuild
  | [] => build
  | (o, i) :: rest => assignAcornImageMany (assignAcornImage o (some build) i).2 rest

/-! ## Dynamic values (`any`) and `GenericMap` -/

/-- A finite `float64`, carried by the text that `encoding/json` prints for it
(so the value one is the text `1`). -/
structure Float64 where
  text : String
deriving DecidableEq, Repr, Inhabited

/-- The values held in a `map[string]any`.  `null` is the nil interface, `int`
an `int64`, `float` a finite `float64`, `nonFinite` a `float64` that is NaN or
an infinity, `number` a `json.Number` (the literal a decoder in `UseNumber`
mode keeps as text), `str` a string of valid UTF-8, `rawStr` a string that is
not valid UTF-8 (its bytes, and the text `encoding/json` writes for it, each
invalid byte replaced by U+FFFD), `seq` a non-nil `[]any`, `nilSeq` the nil
`[]any`, `map` a non-nil `map[string]any` and `nilMap` the nil
`map[string]any`. -/
inductive Any where
  | null
  | bool (b : Bool)
  | int (i : Int)
  | float (f : Float64)
  | nonFinite
  | number (lit : String)
  | str (s : String)
  | rawStr (bytes : List UInt8) (written : String)
  | seq (xs : List Any)
  | nilSeq
  | map (m : List (String × Any))
  | nilMap
deriving Repr, Inhabited

/-- The struct `GenericMap` (map.go:14); `Data` may be the nil map. -/
structure GenericMap where
  Data : Option (GoMap Any)
deriving Repr, Inhabited

/-! ## Image data and the application definition -/

/-- The per-workload entry `v1.ContainerData` of an image-data layer. -/
structure ContainerData where
  Image : String
  AcornfileFragment : String
deriving DecidableEq, Repr, Inhabited

/-- A build provenance entry of `ImagesData.Builds`; its contents are not
inspected by the source. -/
structure BuildRecord where
  id : String
deriving DecidableEq, Repr, Inhabited

/-- Modelled from the spec: the declaration of `v1.ImagesData` is not among the
sources; the spec gives it five mappings from workload name to a
`{resolvedImage, optional fragment}` record and a list of provenance entries. -/
structure ImagesData where
  Containers : GoMap ContainerData
  Functions : GoMap ContainerData
  Jobs : GoMap ContainerData
  Images : GoMap ContainerData
  Acorns : GoMap ContainerData
  Builds : List BuildRecord
deriving DecidableEq, Repr, Inhabited

/-- The five mappings of an image-data record. -/
inductive Mapping where
  | containers | functions | jobs | images | acorns
deriving DecidableEq, Repr, Fintype

/-- Selects one of the five mappings. -/
def ImagesData.mapping (d : ImagesData) : Mapping → GoMap ContainerData
  | .containers => d.Containers
  | .functions => d.Functions
  | .jobs => d.Jobs
  | .images => d.Images
  | .acorns => d.Acorns

/-- Every mapping of the record has unique keys, as every Go map has. -/
def ImagesData.WF (d : ImagesData) : Prop :=
  ∀ sel : Mapping, (GoMap.keys (d.mapping sel)).Nodup

instance (d : ImagesData) : Decidable d.WF := by
  unfold ImagesData.WF
  infer_instance

/-- The struct `AppDefinition` (appdefinition.go:75). -/
structure AppDefinition where
  data : List UInt8
  imageDatas : List ImagesData
  hasImageData : Bool
  args : Option (GoMap Any)
  profiles : List String
deriving Repr, Inhabited

/-- The method `AppDefinition.imagesData` (appdefinition.go:208). -/
def imagesData (a : AppDefinition) : ImagesData :=
  a.imageDatas.foldl
    (fun result imageData =>
      { Containers := Concat result.Containers imageData.Containers
        Functions := Concat result.Functions imageData.Functions
        Jobs := Concat result.Jobs imageData.Jobs
        Images := Concat result.Images imageData.Images
        Acorns := Concat result.Acorns imageData.Acorns
        Builds := result.Builds ++ imageData.Builds })
    { Containers := [], Functions := [], Jobs := [], Images := [], Acorns := [], Builds := [] }

/-- The entry for `k` in the last layer, in insertion order, whose selected
mapping contains `k`. -/
def lastLayerEntry (sel : Mapping) (layers : List ImagesData) (k : String) :
    Option ContainerData :=
  layers.reverse.findSome? (fun l => GoMap.get (l.mapping sel) k)

/-! ## `GenericMap.Merge` over a store of `GenericMap` structs -/

/-- The heap of `GenericMap` structs: a `*GenericMap` is `none` (nil) or the
address of a struct in the store. -/
abbrev Store := List GenericMap

/-- The `Data` mapping a pointer denotes; a nil pointer denotes no mapping. -/
def dataOf (st : Store) (p : Option Nat) : Option (GoMap Any) :=
  (p.bind fun addr => st[addr]?).bind GenericMap.Data

/-- The method `GenericMap.Merge` (map.go:60): returns the store after the call
and the returned pointer. -/
def Merge (st : Store) (g frm : Option Nat) : Store × Option Nat :=
  match dataOf st frm with
  | none => (st, g)
  | some fromData =>
    -- `if g == nil { g = &GenericMap{} }`
    let (st1, g1) : Store × Option Nat :=
      match g with
      | none => (st ++ [{ Data := none }], some st.length)
      | some addr => (st, some addr)
    -- `&GenericMap{Data: typed.Concat(g.Data, from.Data)}`
    (st1 ++ [{ Data := some (Concat ((dataOf st1 g1).getD []) fromData) }], some st1.length)

/-! ## Decoding: `UnmarshalJSON`, `translateObject`, `Mapify` -/

/-- Error values, carried by their message. -/
abbrev Err := String

/-- The digit loop of `strconv.ParseUint(s, 10, 64)`. -/
def parseDigits : List Char → Nat → Option Nat
  | [], n => some n
  | c :: cs, n =>
    if '0' ≤ c ∧ c ≤ '9' then parseDigits cs (n * 10 + (c.toNat - '0'.toNat)) else none

/-- The function `strconv.ParseUint(s, 10, 64)`; `none` is an error. -/
def parseUint64 (s : List Char) : Option Nat :=
  match s with
  | [] => none
  | _ =>
    match parseDigits s 0 with
    | none => none
    | some un => if un < 2 ^ 64 then some un else none

/-- The function `strconv.ParseInt(s, 10, 64)`, which is `json.Number.Int64`;
`none` is an error. -/
def parseInt64 (s : String) : Option Int :=
  match s.toList with
  | [] => none
  | c :: rest =>
    if c = '+' then
      match parseUint64 rest with
      | none => none
      | some un => if un ≥ 2 ^ 63 then none else some (Int.ofNat un)
    else if c = '-' then
      match parseUint64 rest with
      | none => none
      | some un => if un > 2 ^ 63 then none else some (-(Int.ofNat un))
    else
      match parseUint64 (c :: rest) with
      | none => none
      | some un => if un ≥ 2 ^ 63 then none else some (Int.ofNat un)

/-- The `json.Number` case of `translateObject` (map.go:103); `parseFloat` is
`strconv.ParseFloat(s, 64)`. -/
def translateNumber (parseFloat : String → Option Float64) (t : String) : Except Err Any :=
  match parseInt64 t with
  | some i => .ok (.int i)
  | none =>
    match parseFloat t with
    | some f => .ok (.float f)
    | none => .error ("strconv.ParseFloat: parsing " ++ t)

mutual
/-- The function `translateObject` (map.go:89); the in-place writes `t[k] = ...`
and `t[i] = ...` give each entry its translated value.  A nil map and a nil
slice have nothing to range over and are returned as they are. -/
def translateObject (parseFloat : String → Option Float64) : Any → Except Err Any
  | .map t =>
    match translateEntries parseFloat t with
    | .error e => .error e
    | .ok t1 => .ok (.map t1)
  | .nilMap => .ok .nilMap
  | .seq t =>
    match translateElems parseFloat t with
    | .error e => .error e
    | .ok t1 => .ok (.seq t1)
  | .nilSeq => .ok .nilSeq
  | .number t => translateNumber parseFloat t
  | .null => .ok .null
  | .bool b => .ok (.bool b)
  | .int i => .ok (.int i)
  | .float f => .ok (.float f)
  | .nonFinite => .ok .nonFinite
  | .str s => .ok (.str s)
  | .rawStr bytes written => .ok (.rawStr bytes written)
/-- The loop `for i, v := range t` of the `[]any` case. -/
def translateElems (parseFloat : String → Option Float64) : List Any → Except Err (List Any)
  | [] => .ok []
  | v :: rest =>
    match translateObject parseFloat v with
    | .error e => .error e
    | .ok v1 =>
      match translateElems parseFloat rest with
      | .error e => .error e
      | .ok rest1 => .ok (v1 :: rest1)
/-- The loop `for k, v := range t` of the `map[string]any` case. -/
def translateEntries (parseFloat : String → Option Float64) :
    List (String × Any) → Except Err (List (String × Any))
  | [] => .ok []
  | (k, v) :: rest =>
    match translateObject parseFloat v with
    | .error e => .error e
    | .ok v1 =>
      match translateEntries parseFloat rest with
      | .error e => .error e
      | .ok rest1 => .ok ((k, v1) :: rest1)
end

/-- The statements `d := map[string]any{}; dec.Decode(&d)` of `UnmarshalJSON`,
on the JSON value the decoder reads: an object fills `d`, `null` leaves it
without entries, any other value is a type error. -/
def decodeIntoMap : Any → Except Err (GoMap Any)
  | .map m => .ok m
  | .null => .ok []
  | _ => .error "json: cannot unmarshal into Go value of type map[string]interface {}"

/-- The method `GenericMap.UnmarshalJSON` (map.go:34).  The argument `data` is
given by what the `UseNumber` decoder reads from the bytes: a syntax error or a
JSON value whose numbers are `json.Number` literals.  The result is the
receiver after the call. -/
def UnmarshalJSON (parseFloat : String → Option Float64) (g : Option GenericMap)
    (data : Except Err Any) : Except Err GenericMap :=
  match g with
  | none => .error "*v1.GenericMap: UnmarshalJSON on nil pointer"
  | some g =>
    match data.bind decodeIntoMap with
    | .error e => .error ("*v1.GenericMap: Failed to decode data: " ++ e)
    | .ok d =>
      match translateObject parseFloat (.map d) with
      | .error e => .error ("*v1.GenericMap: Failed to translate object: " ++ e)
      | .ok (.map d1) => if d1.length > 0 then .ok { Data := some d1 } else .ok g
      | .ok _ => .ok g

/-- The number check `isValidNumber` of `encoding/json`, after the sign. -/
def skipDigits : List Char → List Char
  | [] => []
  | c :: cs => if '0' ≤ c ∧ c ≤ '9' then skipDigits cs else c :: cs

/-- The function `isValidNumber` of `encoding/json`. -/
def isValidNumber (s : String) : Bool :=
  let s := s.toList
  let s := match s with
    | '-' :: rest => rest
    | _ => s
  match s with
  | [] => false
  | c :: rest =>
    if c = '0' ∨ ('1' ≤ c ∧ c ≤ '9') then
      let s := if c = '0' then rest else skipDigits rest
      let s := match s with
        | '.' :: d :: rest1 => if '0' ≤ d ∧ d ≤ '9' then skipDigits rest1 else s
        | _ => s
      match s with
      | [] => true
      | e :: rest2 =>
        if (e = 'e' ∨ e = 'E') ∧ rest2 ≠ [] then
          match rest2 with
          | sign :: rest3 =>
            if sign = '+' ∨ sign = '-' then
              (if rest3 = [] then false else decide (skipDigits rest3 = []))
            else decide (skipDigits rest2 = [])
          | [] => false
        else false
    else false

mutual
/-- What `json.Marshal` writes for a value, given as the JSON value a
`UseNumber` decoder reads back from those bytes: integers and finite floats
become number literals, a non-finite float is an error, a nil slice and a nil
map are written as `null`, a string that is not valid UTF-8 is written with
U+FFFD for its invalid bytes, and the other values keep their shape. -/
def marshalValue : Any → Except Err Any
  | .null => .ok .null
  | .bool b => .ok (.bool b)
  | .int i => .ok (.number (toString i))
  | .float f => .ok (.number f.text)
  | .nonFinite => .error "json: unsupported value"
  | .number lit =>
    let numStr := if lit = "" then "0" else lit
    if isValidNumber numStr then .ok (.number numStr)
    else .error ("json: invalid number literal " ++ numStr)
  | .str s => .ok (.str s)
  | .rawStr _ written => .ok (.str written)
  | .nilSeq => .ok .null
  | .seq xs =>
    match marshalElems xs with
    | .error e => .error e
    | .ok ys => .ok (.seq ys)
  | .nilMap => .ok .null
  | .map m =>
    match marshalEntries m with
    | .error e => .error e
    | .ok m1 => .ok (.map m1)
/-- The elements of a marshalled sequence. -/
def marshalElems : List Any → Except Err (List Any)
  | [] => .ok []
  | v :: rest =>
    match marshalValue v with
    | .error e => .error e
    | .ok v1 =>
      match marshalElems rest with
      | .error e => .error e
      | .ok rest1 => .ok (v1 :: rest1)
/-- The entries of a marshalled mapping. -/
def marshalEntries : List (String × Any) → Except Err (List (String × Any))
  | [] => .ok []
  | (k, v) :: rest =>
    match marshalValue v with
    | .error e => .error e
    | .ok v1 =>
      match marshalEntries rest with
      | .error e => .error e
      | .ok rest1 => .ok ((k, v1) :: rest1)
end

/-- The call `json.Marshal(g.Data)` of `MarshalJSON` (map.go:86) and of
`Mapify`: a nil map is written as `null`. -/
def MarshalJSON (data : Option (GoMap Any)) : Except Err Any :=
  match data with
  | none => .ok .null
  | some m => marshalValue (.map m)

/-- The function `Mapify` (map.go:120), on the `Data` of a `GenericMap`. -/
def Mapify (parseFloat : String → Option Float64) (data : Option (GoMap Any)) :
    Except Err GenericMap :=
  match MarshalJSON data with
  | .error e => .error e
  | .ok marshaled => UnmarshalJSON parseFloat (some { Data := none }) (.ok marshaled)

/-- A step into a value: an index of a sequence or a key of a mapping. -/
inductive Step where
  | idx (i : Nat)
  | key (k : String)
deriving DecidableEq, Repr

/-- The value found by following a path of steps into a value. -/
def Any.follow : Any → List Step → Option Any
  | d, [] => some d
  | .seq xs, .idx i :: p =>
    match xs[i]? with
    | some x => Any.follow x p
    | none => none
  | .map m, .key k :: p =>
    match GoMap.get m k with
    | some x => Any.follow x p
    | none => none
  | _, _ :: _ => none

mutual
/-- Every number literal in the value translates: it is a 64-bit integer
literal or the float parser accepts it. -/
def NumbersOK (parseFloat : String → Option Float64) : Any → Bool
  | .number lit => (parseInt64 lit).isSome || (parseFloat lit).isSome
  | .seq xs => NumbersOKElems parseFloat xs
  | .map m => NumbersOKEntries parseFloat m
  | _ => true
/-- `NumbersOK` for the elements of a sequence. -/
def NumbersOKElems (parseFloat : String → Option Float64) : List Any → Bool
  | [] => true
  | x :: xs => NumbersOK parseFloat x && NumbersOKElems parseFloat xs
/-- `NumbersOK` for the values of a mapping. -/
def NumbersOKEntries (parseFloat : String → Option Float64) : List (String × Any) → Bool
  | [] => true
  | (_, x) :: xs => NumbersOK parseFloat x && NumbersOKEntries parseFloat xs
end

mutual
/-- The values that survive encoding and decoding: null, booleans, strings of
valid UTF-8, integers within 64 bits, finite floats whose printed text is not a
64-bit integer literal and parses back to the same float, and non-nil
sequences and mappings of such values.  A `json.Number`, a non-finite float, a
string that is not valid UTF-8, a nil slice and a nil map are not among
them. -/
def Stable (parseFloat : String → Option Float64) : Any → Bool
  | .null => true
  | .bool _ => true
  | .str _ => true
  | .rawStr _ _ => false
  | .int i => decide (-2 ^ 63 ≤ i ∧ i < 2 ^ 63)
  | .float f => decide (parseInt64 f.text = none ∧ parseFloat f.text = some f)
  | .nonFinite => false
  | .number _ => false
  | .seq xs => StableElems parseFloat xs
  | .nilSeq => false
  | .map m => StableEntries parseFloat m
  | .nilMap => false
/-- `Stable` for the elements of a sequence. -/
def StableElems (parseFloat : String → Option Float64) : List Any → Bool
  | [] => true
  | x :: xs => Stable parseFloat x && StableElems parseFloat xs
/-- `Stable` for the values of a mapping. -/
def StableEntries (parseFloat : String → Option Float64) : List (String × Any) → Bool
  | [] => true
  | (_, x) :: xs => Stable parseFloat x && StableEntries parseFloat xs
end

/-- A float parser for the examples: it knows the literals `3.14`, `1.0` and
`9223372036854775808` and the floats they denote, as Go prints them. -/
def exampleParseFloat (s : String) : Option Float64 :=
  if s = "3.14" then some ⟨"3.14"⟩
  else if s = "1.0" then some ⟨"1"⟩
  else if s = "9223372036854775808" then some ⟨"9223372036854775808"⟩
  else none

/-- A store for the examples: a base at address 0, an incoming map at 1. -/
def exampleStore : Store :=
  [⟨some [("a", .int 1), ("c", .str "x")]⟩, ⟨some [("a", .int 2), ("b", .null)]⟩]

/-- Two image-data layers for the examples; both bind the container `web`. -/
def layerA : ImagesData :=
  { Containers := [("web", ⟨"a", ""⟩)], Functions := [], Jobs := [], Images := [], Acorns := [],
    Builds := [] }

/-- The second example layer. -/
def layerB : ImagesData :=
  { Containers := [("web", ⟨"b", ""⟩)], Functions := [], Jobs := [], Images := [], Acorns := [],
    Builds := [] }

/-! ## The resolved specification (`v1.AppSpec`) -/

/-- The workload record `v1.Container`, with the fields the source reads or
writes; a sidecar is again a `v1.Container`. -/
inductive Container where
  | mk (Image : String) (Build : Option AcornRuntime.Build)
      (Sidecars : List (String × Container))
deriving Repr

/-- The field `Image`. -/
def Container.Image : Container → String
  | .mk i _ _ => i

/-- The field `Build`. -/
def Container.Build : Container → Option AcornRuntime.Build
  | .mk _ b _ => b

/-- The field `Sidecars`. -/
def Container.Sidecars : Container → GoMap Container
  | .mk _ _ s => s

/-- The assignment `con.Image, con.Build = image, build`. -/
def Container.setImageBuild (con : Container) (image : String) (build : AcornRuntime.Build) :
    Container :=
  .mk image (some build) con.Sidecars

/-- The write `con.Sidecars[name] = sidecar`. -/
def Container.setSidecar (con : Container) (name : String) (sidecar : Container) : Container :=
  .mk con.Image con.Build (GoMap.set con.Sidecars name sidecar)

set_option linter.dupNamespace false in
/-- The image definition record `v1.Image`. -/
structure Image where
  Image : String
  Build : Option AcornRuntime.Build
  AcornBuild : Option AcornRuntime.AcornBuild
deriving DecidableEq, Repr, Inhabited

/-- The nested-application record `v1.Acorn`. -/
structure Acorn where
  Image : String
  Build : Option AcornRuntime.AcornBuild
deriving DecidableEq, Repr, Inhabited

/-- The service record `v1.Service`. -/
structure Service where
  Image : String
  Build : Option AcornRuntime.AcornBuild
deriving DecidableEq, Repr, Inhabited

/-- The specification `v1.AppSpec`, with the six collections `AppSpec()`
resolves. -/
structure AppSpec where
  Containers : GoMap Container
  Functions : GoMap Container
  Jobs : GoMap Container
  Images : GoMap AcornRuntime.Image
  Acorns : GoMap Acorn
  Services : GoMap Service
deriving Repr

/-! ## The builder specification (`v1.BuilderSpec`) -/

/-- The record `v1.ContainerImageBuilderSpec`, with the fields the source
reads. -/
inductive ContainerImageBuilderSpec where
  | mk (Build : Option AcornRuntime.Build) (Src : String)
      (Sidecars : List (String × ContainerImageBuilderSpec))
deriving Repr

/-- The record `v1.ImageBuilderSpec`. -/
structure ImageBuilderSpec where
  ContainerBuild : Option AcornRuntime.Build
  AcornBuild : Option AcornRuntime.AcornBuild
deriving DecidableEq, Repr, Inhabited

/-- The record `v1.AcornBuilderSpec`. -/
structure AcornBuilderSpec where
  Build : Option AcornRuntime.AcornBuild
deriving DecidableEq, Repr, Inhabited

/-- The specification `v1.BuilderSpec`. -/
structure BuilderSpec where
  Containers : GoMap ContainerImageBuilderSpec
  Functions : GoMap ContainerImageBuilderSpec
  Jobs : GoMap ContainerImageBuilderSpec
  Images : GoMap ImageBuilderSpec
  Services : GoMap AcornBuilderSpec
  Acorns : GoMap AcornBuilderSpec
deriving Repr

/-! ## External collaborators -/

/-- The code `AppSpec()` and `WatchFiles()` call and this repository's sources
do not contain. -/
structure Collaborators where
  /-- The call `a.decode(spec)` for a `*v1.AppSpec`: the AML interpreter. -/
  decode : AppDefinition → Except Err AcornRuntime.AppSpec
  /-- The call `a.decode(spec)` for a `*v1.BuilderSpec`. -/
  decodeBuilder : AppDefinition → Except Err BuilderSpec
  /-- The binding lookup `GetImageReferenceForServiceName(name, spec, imagesData)`;
  `none` is `ok == false`. -/
  lookup : String → AcornRuntime.AppSpec → ImagesData → Option String
  /-- The statements of `overlayFragment` after the fragment is found:
  `json.Marshal(con)` and `aml.Unmarshal` of the overlay expression built from
  the service name, the record and the fragment, onto the record. -/
  overlay : (serviceName : String) → (con : Container) → (fragment : String) →
    Except Err Container
  /-- The call `v1.AddImpliedResources(spec)`: the specification it leaves and
  the error it returns. -/
  addImplied : AcornRuntime.AppSpec → AcornRuntime.AppSpec × Option Err
  /-- The call `aml.ReadFile(path)`. -/
  readFile : String → Except Err (List UInt8)
  /-- The function `filepath.Join`. -/
  join : List String → String
  /-- The function `filepath.Dir`. -/
  dir : String → String

/-! ## Image binding: `getFragment`, `overlayFragment`, `AppSpec` -/

/-- The constant `messageSuffix` (appdefinition.go:34). -/
def messageSuffix : String :=
  ", you may need to define the image/build in the images section of the Acornfile"

/-- The inner loop `for _, imageData := range check` of `getFragment`; `none`
when the loop ends without returning. -/
def getFragmentIn (imageID : String) : List (String × ContainerData) → Option String
  | [] => none
  | (_, imageData) :: rest =>
    if imageData.Image = imageID ∧ imageData.AcornfileFragment ≠ "" then
      some imageData.AcornfileFragment
    else getFragmentIn imageID rest

/-- The outer loop `for _, check := range []map[string]v1.ContainerData{...}`. -/
def getFragmentOver (imageID : String) : List (GoMap ContainerData) → String
  | [] => ""
  | check :: rest =>
    match getFragmentIn imageID check with
    | some fragment => fragment
    | none => getFragmentOver imageID rest

/-- The function `getFragment` (appdefinition.go:220). -/
def getFragment (imagesData : ImagesData) (imageID : String) : String :=
  getFragmentOver imageID [imagesData.Containers, imagesData.Functions, imagesData.Jobs]

/-- The function `overlayFragment` (appdefinition.go:235): the record after the
call, or the error. -/
def overlayFragment (c : Collaborators) (con : Container) (imagesData : ImagesData)
    (imageID serviceName : String) : Except Err Container :=
  let fragment := getFragment imagesData imageID
  if fragment = "" then .ok con
  else c.overlay serviceName con fragment

/-- The three container-style collections, which `AppSpec()` resolves by three
loops that differ in the collection and in the word of the message. -/
inductive Kind where
  | container | function | job
deriving DecidableEq, Repr

/-- The word for the kind in the error messages. -/
def Kind.word : Kind → String
  | .container => "container"
  | .function => "function"
  | .job => "job"

/-- The collection of the kind: `spec.Containers`, `spec.Functions`, `spec.Jobs`. -/
def Kind.collection (spec : AcornRuntime.AppSpec) : Kind → GoMap Container
  | .container => spec.Containers
  | .function => spec.Functions
  | .job => spec.Jobs

/-- The write `spec.Containers[name] = conSpec` (or `Functions`, `Jobs`). -/
def Kind.store (spec : AcornRuntime.AppSpec) (kind : Kind) (name : String) (conSpec : Container) :
    AcornRuntime.AppSpec :=
  match kind with
  | .container => { spec with Containers := GoMap.set spec.Containers name conSpec }
  | .function => { spec with Functions := GoMap.set spec.Functions name conSpec }
  | .job => { spec with Jobs := GoMap.set spec.Jobs name conSpec }

/-- The loop `for sidecarName, sidecarSpec := range conSpec.Sidecars`
(appdefinition.go:275, 295, 315) over the entries still to visit; the lookup
is given the specification as last stored. -/
def resolveSidecars (c : Collaborators) (imagesData : ImagesData) (kind : Kind)
    (containerName : String) (spec : AcornRuntime.AppSpec) :
    List (String × Container) → Container → Except Err Container
  | [], conSpec => .ok conSpec
  | (sidecarName, sidecarSpec) :: rest, conSpec =>
    match c.lookup (containerName ++ "." ++ sidecarName) spec imagesData with
    | some image =>
      let r := assignImage sidecarSpec.Image sidecarSpec.Build image
      let sidecarSpec := sidecarSpec.setImageBuild r.1 r.2
      resolveSidecars c imagesData kind containerName spec rest
        (conSpec.setSidecar sidecarName sidecarSpec)
    | none =>
      .error ("failed to find image for sidecar [" ++ sidecarName ++ "] in " ++ kind.word ++ " ["
        ++ containerName ++ "] in Acornfile" ++ messageSuffix)

/-- The loops `for containerName, conSpec := range spec.Containers` (and
`Functions`, `Jobs`; appdefinition.go:266, 286, 306) over the entries still to
visit. -/
def resolveWorkloads (c : Collaborators) (imagesData : ImagesData) (kind : Kind) :
    List (String × Container) → AcornRuntime.AppSpec → Except Err AcornRuntime.AppSpec
  | [], spec => .ok spec
  | (containerName, conSpec) :: rest, spec =>
    match c.lookup containerName spec imagesData with
    | some image =>
      match overlayFragment c conSpec imagesData image containerName with
      | .error err => .error err
      | .ok conSpec =>
        let r := assignImage conSpec.Image conSpec.Build image
        let conSpec := conSpec.setImageBuild r.1 r.2
        match resolveSidecars c imagesData kind containerName spec conSpec.Sidecars conSpec with
        | .error err => .error err
        | .ok conSpec =>
          resolveWorkloads c imagesData kind rest (kind.store spec containerName conSpec)
    | none =>
      .error ("failed to find image for " ++ kind.word ++ " [" ++ containerName
        ++ "] in Acornfile" ++ messageSuffix)

/-- The loop `for imageName, imgSpec := range spec.Images`
(appdefinition.go:326). -/
def resolveImages (c : Collaborators) (imagesData : ImagesData) :
    List (String × AcornRuntime.Image) → AcornRuntime.AppSpec →
      Except Err AcornRuntime.AppSpec
  | [], spec => .ok spec
  | (imageName, imgSpec) :: rest, spec =>
    match c.lookup imageName spec imagesData with
    | some image =>
      let imgSpec : AcornRuntime.Image :=
        match imgSpec.AcornBuild with
        | some acornBuild =>
          let r := assignAcornImage imgSpec.Image (some acornBuild) image
          { imgSpec with Image := r.1, AcornBuild := some r.2 }
        | none =>
          let r := assignImage imgSpec.Image imgSpec.Build image
          { imgSpec with Image := r.1, Build := some r.2 }
      resolveImages c imagesData rest { spec with Images := GoMap.set spec.Images imageName imgSpec }
    | none =>
      .error ("failed to find image for image definition [" ++ imageName ++ "] in Acornfile"
        ++ messageSuffix)

/-- The loop `for acornName, acornSpec := range spec.Acorns`
(appdefinition.go:339). -/
def resolveAcorns (c : Collaborators) (imagesData : ImagesData) :
    List (String × Acorn) → AcornRuntime.AppSpec → Except Err AcornRuntime.AppSpec
  | [], spec => .ok spec
  | (acornName, acornSpec) :: rest, spec =>
    match c.lookup acornName spec imagesData with
    | some image =>
      let r := assignAcornImage acornSpec.Image acornSpec.Build image
      let acornSpec : Acorn := { Image := r.1, Build := some r.2 }
      resolveAcorns c imagesData rest { spec with Acorns := GoMap.set spec.Acorns acornName acornSpec }
    | none =>
      .error ("failed to find image for acorn [" ++ acornName ++ "] in Acornfile" ++ messageSuffix)

/-- The loop `for serviceName, serviceSpec := range spec.Services`
(appdefinition.go:348). -/
def resolveServices (c : Collaborators) (imagesData : ImagesData) :
    List (String × Service) → AcornRuntime.AppSpec → Except Err AcornRuntime.AppSpec
  | [], spec => .ok spec
  | (serviceName, serviceSpec) :: rest, spec =>
    if serviceSpec.Image = "" ∧ serviceSpec.Build = none then
      resolveServices c imagesData rest spec
    else
      match c.lookup serviceName spec imagesData with
      | some image =>
        let r := assignAcornImage serviceSpec.Image serviceSpec.Build image
        let serviceSpec : Service := { Image := r.1, Build := some r.2 }
        resolveServices c imagesData rest
          { spec with Services := GoMap.set spec.Services serviceName serviceSpec }
      | none =>
        .error ("failed to find image for service [" ++ serviceName ++ "] in Acornfile"
          ++ messageSuffix)

/-- The six loops of `AppSpec()` one after the other, each over the collection
as the loops before it left the specification. -/
def resolveAll (c : Collaborators) (imagesData : ImagesData) (spec : AcornRuntime.AppSpec) :
    Except Err AcornRuntime.AppSpec :=
  match resolveWorkloads c imagesData .container spec.Containers spec with
  | .error err => .error err
  | .ok spec =>
  match resolveWorkloads c imagesData .function spec.Functions spec with
  | .error err => .error err
  | .ok spec =>
  match resolveWorkloads c imagesData .job spec.Jobs spec with
  | .error err => .error err
  | .ok spec =>
  match resolveImages c imagesData spec.Images spec with
  | .error err => .error err
  | .ok spec =>
  match resolveAcorns c imagesData spec.Acorns spec with
  | .error err => .error err
  | .ok spec => resolveServices c imagesData spec.Services spec

/-- The method `AppDefinition.AppSpec` (appdefinition.go:254): the returned
pointer (`none` is nil) and the returned error. -/
def AppDefinition.AppSpec (c : Collaborators) (a : AppDefinition) :
    Option AcornRuntime.AppSpec × Option Err :=
  match c.decode a with
  | .error err => (none, some err)
  | .ok spec =>
    if !a.hasImageData then (some spec, none)
    else
      match resolveAll c (imagesData a) spec with
      | .error err => (none, some err)
      | .ok spec =>
        let r := c.addImplied spec
        (some r.1, r.2)

/-- The function `NewAppDefinition` (appdefinition.go:121). -/
def NewAppDefinition (c : Collaborators) (data : List UInt8) : Except Err AppDefinition :=
  let appDef : AppDefinition :=
    { data := data, imageDatas := [], hasImageData := false, args := none, profiles := [] }
  match (appDef.AppSpec c).2 with
  | some err => .error err
  | none => .ok appDef

/-! ## The watch graph: `WatchFiles` -/

/-- The field `Build` of a `v1.ContainerImageBuilderSpec`. -/
def ContainerImageBuilderSpec.Build : ContainerImageBuilderSpec → Option AcornRuntime.Build
  | .mk b _ _ => b

/-- The field `Src`. -/
def ContainerImageBuilderSpec.Src : ContainerImageBuilderSpec → String
  | .mk _ s _ => s

/-- The field `Sidecars`. -/
def ContainerImageBuilderSpec.Sidecars :
    ContainerImageBuilderSpec → GoMap ContainerImageBuilderSpec
  | .mk _ _ s => s

mutual
/-- The function `addContainerFiles` (appdefinition.go:375): the file set after
the loop over the entries still to visit. -/
def addContainerFiles (c : Collaborators) (cwd : String) :
    GoMap Bool → List (String × ContainerImageBuilderSpec) → GoMap Bool
  | fileSet, [] => fileSet
  | fileSet, (_, build) :: rest =>
    addContainerFiles c cwd (addContainerFilesBody c cwd fileSet build) rest
/-- The body of the loop of `addContainerFiles` for one entry. -/
def addContainerFilesBody (c : Collaborators) (cwd : String) :
    GoMap Bool → ContainerImageBuilderSpec → GoMap Bool
  | fileSet, .mk build _ sidecars =>
    let fileSet := addContainerFiles c cwd fileSet sidecars
    match build with
    | none => fileSet
    | some b =>
      if b.BaseImage ≠ "" then fileSet
      else
        let fileSet := GoMap.set fileSet (c.join [cwd, b.Dockerfile]) true
        GoMap.set fileSet (c.join [c.dir (c.join [cwd, b.Dockerfile]), ".dockerignore"]) true
end

/-- The function `addFunctionFiles` (appdefinition.go:363). -/
def addFunctionFiles (c : Collaborators) (cwd : String) :
    GoMap Bool → List (String × ContainerImageBuilderSpec) → GoMap Bool
  | fileSet, [] => fileSet
  | fileSet, (key, build) :: rest =>
    let fileSet := addContainerFiles c cwd fileSet build.Sidecars
    let context := if build.Src = "" then key else build.Src
    let fileSet := GoMap.set fileSet (c.join [cwd, context, "build.acorn"]) true
    let fileSet := GoMap.set fileSet (c.join [cwd, context, ".dockerignore"]) true
    addFunctionFiles c cwd fileSet rest

/-- The function `addFiles` (appdefinition.go:412). -/
def addFiles (c : Collaborators) (cwd : String) :
    GoMap Bool → List (String × ImageBuilderSpec) → GoMap Bool
  | fileSet, [] => fileSet
  | fileSet, (_, build) :: rest =>
    match build.ContainerBuild with
    | none =>
      match build.AcornBuild with
      | some acornBuild =>
        addFiles c cwd (GoMap.set fileSet (c.join [cwd, acornBuild.Acornfile]) true) rest
      | none => addFiles c cwd fileSet rest
    | some containerBuild =>
      addFiles c cwd (GoMap.set fileSet (c.join [cwd, containerBuild.Dockerfile]) true) rest

/-- The function `addAcorns` (appdefinition.go:386) over the entries still to
visit.  `watch` is the recursive call `appDef.WatchFiles(...)`, which is `none`
when the recursion does not come back within the fuel. -/
def addAcorns (c : Collaborators)
    (watch : AppDefinition → String → Option (Except Err (List String))) (cwd : String) :
    GoMap Bool → List (String × AcornBuilderSpec) → Option (GoMap Bool)
  | fileSet, [] => some fileSet
  | fileSet, (_, build) :: rest =>
    match build.Build with
    | none => addAcorns c watch cwd fileSet rest
    | some b =>
      match c.readFile (c.join [cwd, b.Acornfile]) with
      | .error _ => some fileSet
      | .ok data =>
        let fileSet := GoMap.set fileSet (c.join [cwd, b.Acornfile]) true
        match NewAppDefinition c data with
        | .error _ => some fileSet
        | .ok appDef =>
          match watch appDef (c.join [cwd, b.Context]) with
          | none => none
          | some (.error _) => some fileSet
          | some (.ok files) =>
            addAcorns c watch cwd (files.foldl (fun fs f => GoMap.set fs f true) fileSet) rest

/-- The order of `sort.Strings`: lexicographic on the characters. -/
def strLE (a b : String) : Prop := a.toList ≤ b.toList

instance : DecidableRel strLE := fun a b => inferInstanceAs (Decidable (a.toList ≤ b.toList))

/-- The call `sort.Strings(result)`. -/
def sortStrings (result : List String) : List String := result.insertionSort strLE

/-- The method `AppDefinition.BuilderSpec` (appdefinition.go:445). -/
def AppDefinition.BuilderSpec (c : Collaborators) (a : AppDefinition) :
    Except Err AcornRuntime.BuilderSpec :=
  c.decodeBuilder a

/-- The method `AppDefinition.WatchFiles` (appdefinition.go:424), with fuel for
the recursion through nested documents: `none` when the fuel runs out. -/
def AppDefinition.WatchFiles (c : Collaborators) :
    Nat → AppDefinition → String → Option (Except Err (List String))
  | 0, _, _ => none
  | fuel + 1, a, cwd =>
    match a.BuilderSpec c with
    | .error err => some (.error err)
    | .ok spec =>
      let fileSet : GoMap Bool := []
      let fileSet := addContainerFiles c cwd fileSet spec.Containers
      let fileSet := addFunctionFiles c cwd fileSet spec.Functions
      let fileSet := addContainerFiles c cwd fileSet spec.Jobs
      let fileSet := addFiles c cwd fileSet spec.Images
      match addAcorns c (AppDefinition.WatchFiles c fuel) cwd fileSet spec.Services with
      | none => none
      | some fileSet =>
        match addAcorns c (AppDefinition.WatchFiles c fuel) cwd fileSet spec.Acorns with
        | none => none
        | some fileSet => some (.ok (sortStrings (GoMap.keys fileSet)))

/-! ## Predicates for the claims on `AppSpec` -/

/-- The form of a missing-binding message: one of the six kind words and a
name, or a sidecar and its parent, for which some lookup returned none. -/
inductive MissingBinding (c : Collaborators) (imagesData : ImagesData) : Err → Prop
  | workload (word name : String) (spec : AppSpec)
      (hword : word ∈ ["container", "function", "job", "image definition", "acorn", "service"])
      (h : c.lookup name spec imagesData = none) :
      MissingBinding c imagesData
        ("failed to find image for " ++ word ++ " [" ++ name ++ "] in Acornfile" ++ messageSuffix)
  | sidecar (kind : Kind) (parent sidecar : String) (spec : AppSpec)
      (h : c.lookup (parent ++ "." ++ sidecar) spec imagesData = none) :
      MissingBinding c imagesData
        ("failed to find image for sidecar [" ++ sidecar ++ "] in " ++ kind.word ++ " ["
          ++ parent ++ "] in Acornfile" ++ messageSuffix)

/-- One entry of the six collections of a specification: a container,
function or job with its record, an image definition, a nested application or
a service. -/
inductive Entry where
  | workload (kind : Kind) (name : String) (con : Container)
  | image (name : String) (img : Image)
  | acorn (name : String) (acorn : Acorn)
  | service (name : String) (svc : Service)
deriving Repr

/-- The entries a specification declares, in the order in which `AppSpec()`
visits them: containers, functions, jobs, image definitions, nested
applications, services, each collection in its iteration order. -/
def entries (spec : AppSpec) : List Entry :=
  spec.Containers.map (fun e => Entry.workload .container e.1 e.2) ++
    (spec.Functions.map (fun e => Entry.workload .function e.1 e.2) ++
      (spec.Jobs.map (fun e => Entry.workload .job e.1 e.2) ++
        (spec.Images.map (fun e => Entry.image e.1 e.2) ++
          (spec.Acorns.map (fun e => Entry.acorn e.1 e.2) ++
            spec.Services.map (fun e => Entry.service e.1 e.2)))))

/-- The visit of one entry: the loop of its collection over that entry
alone. -/
def resolveEntry (c : Collaborators) (imagesData : ImagesData) :
    Entry → AppSpec → Except Err AppSpec
  | .workload kind name con, spec => resolveWorkloads c imagesData kind [(name, con)] spec
  | .image name img, spec => resolveImages c imagesData [(name, img)] spec
  | .acorn name acorn, spec => resolveAcorns c imagesData [(name, acorn)] spec
  | .service name svc, spec => resolveServices c imagesData [(name, svc)] spec

/-- The visits of a list of entries one after the other, each from the
specification the visits before it left, up to the first error. -/
def resolveEntries (c : Collaborators) (imagesData : ImagesData) :
    List Entry → AppSpec → Except Err AppSpec
  | [], spec => .ok spec
  | x :: rest, spec =>
    match resolveEntry c imagesData x spec with
    | .error err => .error err
    | .ok spec => resolveEntries c imagesData rest spec

/-- The visit of the entry, made when the specification is `s`, fails with the
error `e`.  For a container, function or job: its lookup returns none and `e`
is the missing-binding message with its kind and name; or its lookup returns
an image and the overlay of its fragment fails with `e`; or lookup and overlay
succeed and `e` is the missing-binding message of the first sidecar, in the
iteration over the overlaid record, whose lookup under the compound name
returns none.  For an image definition, a nested application, or a service
that declares an image or a build: its lookup returns none and `e` is the
missing-binding message with its kind and name. -/
inductive EntryFails (c : Collaborators) (imagesData : ImagesData) (s : AppSpec) :
    Entry → Err → Prop
  | workload (kind : Kind) (name : String) (con : Container)
      (h : c.lookup name s imagesData = none) :
      EntryFails c imagesData s (.workload kind name con)
        ("failed to find image for " ++ kind.word ++ " [" ++ name ++ "] in Acornfile"
          ++ messageSuffix)
  | overlay (kind : Kind) (name : String) (con : Container) (image : String) (e : Err)
      (h : c.lookup name s imagesData = some image)
      (ho : overlayFragment c con imagesData image name = .error e) :
      EntryFails c imagesData s (.workload kind name con) e
  | sidecar (kind : Kind) (name : String) (con : Container) (image : String)
      (con1 : Container) (before : List (String × Container)) (sidecar : String)
      (sidecarSpec : Container) (after : List (String × Container))
      (h : c.lookup name s imagesData = some image)
      (ho : overlayFragment c con imagesData image name = .ok con1)
      (hs : con1.Sidecars = before ++ (sidecar, sidecarSpec) :: after)
      (hb : ∀ x ∈ GoMap.keys before, c.lookup (name ++ "." ++ x) s imagesData ≠ none)
      (hl : c.lookup (name ++ "." ++ sidecar) s imagesData = none) :
      EntryFails c imagesData s (.workload kind name con)
        ("failed to find image for sidecar [" ++ sidecar ++ "] in " ++ kind.word ++ " ["
          ++ name ++ "] in Acornfile" ++ messageSuffix)
  | image (name : String) (img : Image) (h : c.lookup name s imagesData = none) :
      EntryFails c imagesData s (.image name img)
        ("failed to find image for image definition [" ++ name ++ "] in Acornfile"
          ++ messageSuffix)
  | acorn (name : String) (acorn : Acorn) (h : c.lookup name s imagesData = none) :
      EntryFails c imagesData s (.acorn name acorn)
        ("failed to find image for acorn [" ++ name ++ "] in Acornfile" ++ messageSuffix)
  | service (name : String) (svc : Service) (hdecl : svc.Image ≠ "" ∨ svc.Build ≠ none)
      (h : c.lookup name s imagesData = none) :
      EntryFails c imagesData s (.service name svc)
        ("failed to find image for service [" ++ name ++ "] in Acornfile" ++ messageSuffix)

/-- The binding lookup made for the entry when the specification is `s` returns
none: the lookup of a container, function, job, image definition or nested
application under its name; the lookup of a sidecar under the compound name
`parent.sidecar`, for a sidecar that is on the record of its parent once the
parent is looked up and overlaid; the lookup of a service that declares an
image or a build. -/
inductive Unbound (c : Collaborators) (imagesData : ImagesData) (s : AppSpec) : Entry → Prop
  | workload (kind : Kind) (name : String) (con : Container)
      (h : c.lookup name s imagesData = none) :
      Unbound c imagesData s (.workload kind name con)
  | sidecar (kind : Kind) (name : String) (con : Container) (sidecar : String)
      (hkeep : ∀ image con1, c.lookup name s imagesData = some image →
        overlayFragment c con imagesData image name = .ok con1 →
        sidecar ∈ GoMap.keys con1.Sidecars)
      (hl : c.lookup (name ++ "." ++ sidecar) s imagesData = none) :
      Unbound c imagesData s (.workload kind name con)
  | image (name : String) (img : Image) (h : c.lookup name s imagesData = none) :
      Unbound c imagesData s (.image name img)
  | acorn (name : String) (acorn : Acorn) (h : c.lookup name s imagesData = none) :
      Unbound c imagesData s (.acorn name acorn)
  | service (name : String) (svc : Service) (hdecl : svc.Image ≠ "" ∨ svc.Build ≠ none)
      (h : c.lookup name s imagesData = none) :
      Unbound c imagesData s (.service name svc)

/-- The resolution of the specification stops with the error `e` at the entry
`x` it declares, visited after the entries `before`: the visits of `before`
all succeed and leave the specification at which the visit of `x` fails with
`e`. -/
def StopsAt (c : Collaborators) (imagesData : ImagesData) (spec : AppSpec)
    (before : List Entry) (x : Entry) (e : Err) : Prop :=
  ∃ after s, entries spec = before ++ x :: after ∧
    resolveEntries c imagesData before spec = .ok s ∧ EntryFails c imagesData s x e

/-- The scan of the spec for `findFragment`: the three mappings in declared
order, each in ascending order of the workload names. -/
def getFragmentAscending (imagesData : ImagesData) (imageID : String) : String :=
  getFragmentOver imageID
    [imagesData.Containers.insertionSort (fun x y => strLE x.1 y.1),
     imagesData.Functions.insertionSort (fun x y => strLE x.1 y.1),
     imagesData.Jobs.insertionSort (fun x y => strLE x.1 y.1)]

/-- An entry that `getFragment` returns from: its image is the one asked for
and its fragment is not empty. -/
def fragmentMatch (imageID : String) (e : String × ContainerData) : Bool :=
  decide (e.2.Image = imageID ∧ e.2.AcornfileFragment ≠ "")

/-! ## Examples -/

/-- An image-data record whose containers `a` and `b` were built to the same
image with different fragments; the iteration visits `b` first. -/
def fragmentsBA : ImagesData :=
  { Containers := [("b", ⟨"img", "f2"⟩), ("a", ⟨"img", "f1"⟩)], Functions := [], Jobs := [],
    Images := [], Acorns := [], Builds := [] }

/-- The same record; the iteration visits `a` first. -/
def fragmentsAB : ImagesData :=
  { Containers := [("a", ⟨"img", "f1"⟩), ("b", ⟨"img", "f2"⟩)], Functions := [], Jobs := [],
    Images := [], Acorns := [], Builds := [] }

/-- An image-data record in which the fragment follows from the image. -/
def fragmentsAgree : ImagesData :=
  { Containers := [("b", ⟨"img", "f"⟩), ("a", ⟨"img", "f"⟩), ("c", ⟨"other", "g"⟩)],
    Functions := [], Jobs := [], Images := [], Acorns := [], Builds := [] }

/-- The record `fragmentsAgree` with its containers in ascending order. -/
def fragmentsAgreeSorted : ImagesData :=
  { Containers := [("a", ⟨"img", "f"⟩), ("b", ⟨"img", "f"⟩), ("c", ⟨"other", "g"⟩)],
    Functions := [], Jobs := [], Images := [], Acorns := [], Builds := [] }

/-- A specification with the containers `a` and `b`, neither with a build. -/
def specAB : AppSpec :=
  { Containers := [("a", .mk "nginx" none []), ("b", .mk "redis" none [])], Functions := [],
    Jobs := [], Images := [], Acorns := [], Services := [] }

/-- An image-data layer that binds only the container `a`, with a fragment. -/
def layerOnlyA : ImagesData :=
  { Containers := [("a", ⟨"sha-a", "broken fragment"⟩)], Functions := [], Jobs := [],
    Images := [], Acorns := [], Builds := [] }

/-- The builder specification of the example document: two nested
applications; the iteration visits `broken` first. -/
def builderBrokenFirst : BuilderSpec :=
  { Containers := [], Functions := [], Jobs := [], Images := [], Services := [],
    Acorns := [("broken", ⟨some ⟨"", "broken", "broken/Acornfile"⟩⟩),
      ("good", ⟨some ⟨"", "good", "good/Acornfile"⟩⟩)] }

/-- The same builder specification; the iteration visits `good` first. -/
def builderGoodFirst : BuilderSpec :=
  { Containers := [], Functions := [], Jobs := [], Images := [], Services := [],
    Acorns := [("good", ⟨some ⟨"", "good", "good/Acornfile"⟩⟩),
      ("broken", ⟨some ⟨"", "broken", "broken/Acornfile"⟩⟩)] }

/-- Collaborators for the examples.  Every document decodes to `specAB`; the
lookup reads the container entry of the image data; every overlay fails; the
only file is `/app/good/Acornfile`, whose document declares no builds; the
document with first byte 1 has the builds of `builderBrokenFirst`, the one with
first byte 2 those of `builderGoodFirst`; paths are joined with a slash. -/
def exampleCollaborators : Collaborators :=
  { decode := fun _ => .ok specAB
    decodeBuilder := fun a =>
      if a.data = [1] then .ok builderBrokenFirst
      else if a.data = [2] then .ok builderGoodFirst
      else .ok { Containers := [], Functions := [], Jobs := [], Images := [], Services := [],
                 Acorns := [] }
    lookup := fun name _ imagesData => (GoMap.get imagesData.Containers name).map (·.Image)
    overlay := fun _ _ _ => .error "aml: cannot evaluate the fragment"
    addImplied := fun spec => (spec, none)
    readFile := fun path =>
      if path = "/app/good/Acornfile" then .ok [] else .error "no such file or directory"
    join := fun parts => "/".intercalate parts
    dir := fun path => path }

/-- An image-data layer that binds only the container `a`, without a
fragment. -/
def layerPlainA : ImagesData :=
  { Containers := [("a", ⟨"sha-a", ""⟩)], Functions := [], Jobs := [], Images := [],
    Acorns := [], Builds := [] }

/-- A definition with the layer `layerOnlyA`. -/
def definitionOnlyA : AppDefinition :=
  { data := [], imageDatas := [layerOnlyA], hasImageData := true, args := none, profiles := [] }

/-- A definition with the layer `layerPlainA`. -/
def definitionPlainA : AppDefinition :=
  { data := [], imageDatas := [layerPlainA], hasImageData := true, args := none, profiles := [] }

/-- The example document whose builder specification is `builderBrokenFirst`. -/
def documentBrokenFirst : AppDefinition :=
  { data := [1], imageDatas := [], hasImageData := false, args := none, profiles := [] }

/-- The example document whose builder specification is `builderGoodFirst`. -/
def documentGoodFirst : AppDefinition :=
  { data := [2], imageDatas := [], hasImageData := false, args := none, profiles := [] }

/-! ## The builder methods of `AppDefinition` -/

/-- The method `AppDefinition.clone` (appdefinition.go:93). -/
def AppDefinition.clone (a : AppDefinition) : AppDefinition :=
  { data := a.data
    imageDatas := a.imageDatas
    hasImageData := a.hasImageData
    args := a.args
    profiles := a.profiles }

/-- The method `AppDefinition.ClearImageData` (appdefinition.go:103): the
returned definition and the returned `*v1.ImagesData` (`none` is nil). -/
def AppDefinition.ClearImageData (a : AppDefinition) : AppDefinition × Option ImagesData :=
  let images : Option ImagesData := if a.hasImageData then some (imagesData a) else none
  let result := a.clone
  let result := { result with hasImageData := false }
  let result := { result with imageDatas := [] }
  (result, images)

/-- The method `AppDefinition.WithImageData` (appdefinition.go:114), on the
layer list as a value. -/
def AppDefinition.WithImageData (a : AppDefinition) (imageData : ImagesData) : AppDefinition :=
  let result := a.clone
  let result := { result with hasImageData := true }
  { result with imageDatas := result.imageDatas ++ [imageData] }

/-- The method `AppDefinition.WithArgs` (appdefinition.go:157). -/
def AppDefinition.WithArgs (a : AppDefinition) (args : Option (GoMap Any))
    (profiles : List String) : AppDefinition :=
  let result := a.clone
  let result := { result with args := args }
  { result with profiles := profiles }

/-- The definitions obtained from a freshly created one (`&AppDefinition{data:
data}`, as `NewAppDefinition` returns it) by `WithImageData`, `WithArgs` and
`ClearImageData`. -/
inductive Reachable : AppDefinition → Prop
  | fresh (data : List UInt8) :
      Reachable { data := data, imageDatas := [], hasImageData := false, args := none,
                  profiles := [] }
  | withImageData (a : AppDefinition) (imageData : ImagesData) :
      Reachable a → Reachable (a.WithImageData imageData)
  | withArgs (a : AppDefinition) (args : Option (GoMap Any)) (profiles : List String) :
      Reachable a → Reachable (a.WithArgs args profiles)
  | clearImageData (a : AppDefinition) : Reachable a → Reachable a.ClearImageData.1

/-! ## `WithImageData` in memory: slices and backing arrays -/

/-- The header of a Go slice `[]v1.ImagesData`: the address of its backing
array (`none` for the nil slice), its length and its capacity. -/
structure Slice where
  array : Option Nat
  len : Nat
  cap : Nat
deriving DecidableEq, Repr

/-- The backing arrays in memory, by address. -/
abbrev Arrays := List (List ImagesData)

/-- The struct `AppDefinition` as it lies in memory: `imageDatas` is a slice
header. -/
structure AppDefinitionMem where
  data : List UInt8
  imageDatas : Slice
  hasImageData : Bool
  args : Option (GoMap Any)
  profiles : List String
deriving Repr

/-- The elements of a slice: the first `len` slots of its backing array. -/
def Slice.elems (mem : Arrays) (s : Slice) : List ImagesData :=
  match s.array with
  | none => []
  | some addr => ((mem[addr]?).getD []).take s.len

/-- The header is sound: the nil slice is empty, any other slice lies within
its backing array. -/
def Slice.WF (mem : Arrays) (s : Slice) : Prop :=
  match s.array with
  | none => s.len = 0 ∧ s.cap = 0
  | some addr => s.len ≤ s.cap ∧ s.cap ≤ ((mem[addr]?).getD []).length ∧ addr < mem.length

instance (mem : Arrays) (s : Slice) : Decidable (s.WF mem) := by
  unfold Slice.WF
  cases s.array <;> infer_instance

/-- The zero value of `v1.ImagesData`. -/
def ImagesData.zero : ImagesData :=
  { Containers := [], Functions := [], Jobs := [], Images := [], Acorns := [], Builds := [] }

/-- The built-in `append(s, x)`: with spare capacity it writes the slot after
the last element of the shared backing array; without, it allocates an array
for the elements, `x` and `spare s.len` further slots, which the runtime
chooses. -/
def appendSlice (spare : Nat → Nat) (mem : Arrays) (s : Slice) (x : ImagesData) :
    Arrays × Slice :=
  match s.array with
  | some addr =>
    if s.len < s.cap then
      (mem.set addr (((mem[addr]?).getD []).set s.len x), { s with len := s.len + 1 })
    else
      (mem ++ [s.elems mem ++ [x] ++ List.replicate (spare s.len) ImagesData.zero],
        { array := some mem.length, len := s.len + 1, cap := s.len + 1 + spare s.len })
  | none =>
    (mem ++ [s.elems mem ++ [x] ++ List.replicate (spare s.len) ImagesData.zero],
      { array := some mem.length, len := s.len + 1, cap := s.len + 1 + spare s.len })

/-- The method `AppDefinition.clone` on the struct in memory: the slice header
is copied, the backing array is shared. -/
def AppDefinitionMem.clone (a : AppDefinitionMem) : AppDefinitionMem :=
  { data := a.data
    imageDatas := a.imageDatas
    hasImageData := a.hasImageData
    args := a.args
    profiles := a.profiles }

/-- The method `AppDefinition.WithImageData` (appdefinition.go:114) on the
struct in memory: the memory after the call and the struct returned. -/
def AppDefinitionMem.WithImageData (spare : Nat → Nat) (mem : Arrays) (a : AppDefinitionMem)
    (imageData : ImagesData) : Arrays × AppDefinitionMem :=
  let result := a.clone
  let result := { result with hasImageData := true }
  let r := appendSlice spare mem result.imageDatas imageData
  (r.1, { result with imageDatas := r.2 })

/-- The definition a struct in memory stands for: its layer list is read off
the backing array. -/
def AppDefinitionMem.view (mem : Arrays) (a : AppDefinitionMem) : AppDefinition :=
  { data := a.data
    imageDatas := a.imageDatas.elems mem
    hasImageData := a.hasImageData
    args := a.args
    profiles := a.profiles }

/-! ## Examples for the end-to-end scenario and for sidecars -/

/-- A specification with the one container `web`, which declares the image
`nginx`, no build and no sidecars. -/
def specWeb : AppSpec :=
  { Containers := [("web", .mk "nginx" none [])], Functions := [], Jobs := [], Images := [],
    Acorns := [], Services := [] }

/-- The image data of the scenario: `web` is bound to `registry/app:v1`,
without a fragment. -/
def layerWeb : ImagesData :=
  { Containers := [("web", ⟨"registry/app:v1", ""⟩)], Functions := [], Jobs := [],
    Images := [], Acorns := [], Builds := [] }

/-- The collaborators of the examples, with every document decoding to
`specWeb`. -/
def webCollaborators : Collaborators :=
  { exampleCollaborators with decode := fun _ => .ok specWeb }

/-- A definition with the layer `layerWeb`. -/
def definitionWeb : AppDefinition :=
  { data := [], imageDatas := [layerWeb], hasImageData := true, args := none, profiles := [] }

/-- A specification with the container `p`, which has the sidecar `s`. -/
def specSidecar : AppSpec :=
  { Containers := [("p", .mk "nginx" none [("s", .mk "busybox" none [])])], Functions := [],
    Jobs := [], Images := [], Acorns := [], Services := [] }

/-- Image data that binds `p` without a fragment and `p.s` to an image that
carries a fragment. -/
def layerSidecar : ImagesData :=
  { Containers := [("p", ⟨"sha-p", ""⟩), ("p.s", ⟨"sha-s", "from-fragment"⟩)], Functions := [],
    Jobs := [], Images := [], Acorns := [], Builds := [] }

/-- The collaborators of the examples, with every document decoding to
`specSidecar` and an overlay that lets the fragment replace the image of the
record. -/
def sidecarCollaborators : Collaborators :=
  { exampleCollaborators with
    decode := fun _ => .ok specSidecar
    overlay := fun _ con fragment => .ok (.mk fragment con.Build con.Sidecars) }

/-- A definition with the layer `layerSidecar`. -/
def definitionSidecar : AppDefinition :=
  { data := [], imageDatas := [layerSidecar], hasImageData := true, args := none,
    profiles := [] }

/-! ## The watch rules, as the claims state them -/

/-- The workloads of a mapping of builder specs and, recursively, their
sidecars. -/
inductive Nested : List (String × ContainerImageBuilderSpec) → ContainerImageBuilderSpec → Prop
  | here (builds : List (String × ContainerImageBuilderSpec)) (name : String)
      (w : ContainerImageBuilderSpec) : (name, w) ∈ builds → Nested builds w
  | inside (builds : List (String × ContainerImageBuilderSpec)) (name : String)
      (w w1 : ContainerImageBuilderSpec) :
      (name, w) ∈ builds → Nested w.Sidecars w1 → Nested builds w1

/-- The container watch rule: the path is the dockerfile, or the ignore file
next to the dockerfile, of a workload or nested sidecar that has a build record
without a base image. -/
def ContainerRulePath (c : Collaborators) (cwd : String)
    (builds : List (String × ContainerImageBuilderSpec)) (p : String) : Prop :=
  ∃ w b, Nested builds w ∧ w.Build = some b ∧ b.BaseImage = "" ∧
    (p = c.join [cwd, b.Dockerfile] ∨
      p = c.join [c.dir (c.join [cwd, b.Dockerfile]), ".dockerignore"])

/-- The function watch rule: the path is the build manifest or the ignore file
in the context of a function, which is its declared source directory or, when
that is empty, its name. -/
def FunctionRulePath (c : Collaborators) (cwd : String)
    (builds : List (String × ContainerImageBuilderSpec)) (p : String) : Prop :=
  ∃ key w, (key, w) ∈ builds ∧
    (p = c.join [cwd, if w.Src = "" then key else w.Src, "build.acorn"] ∨
      p = c.join [cwd, if w.Src = "" then key else w.Src, ".dockerignore"] ∨
      ContainerRulePath c cwd w.Sidecars p)

/-- The file set `WatchFiles` has collected before it turns to the services and
acorns: the container, function, job and image rules on the empty set. -/
def watchedBuildFiles (c : Collaborators) (cwd : String) (spec : BuilderSpec) : GoMap Bool :=
  addFiles c cwd
    (addContainerFiles c cwd
      (addFunctionFiles c cwd (addContainerFiles c cwd [] spec.Containers) spec.Functions)
      spec.Jobs)
    spec.Images

/-- A builder specification with a container, one of its sidecars and a
function, for the examples. -/
def builderRules : BuilderSpec :=
  { Containers :=
      [("web", .mk (some ⟨".", "web/Dockerfile", ""⟩) ""
        [("log", .mk (some ⟨".", "log/Dockerfile", ""⟩) "" [])]),
       ("db", .mk (some ⟨".", "db/Dockerfile", "postgres"⟩) "" [])]
    Functions := [("hello", .mk none "" []), ("bye", .mk none "src/bye" [])]
    Jobs := [], Images := [], Services := [], Acorns := [] }

/-- The example document whose builder specification is `builderRules`. -/
def documentRules : AppDefinition :=
  { data := [3], imageDatas := [], hasImageData := false, args := none, profiles := [] }

/-- The collaborators of the examples, with the document of first byte 3
decoding to `builderRules` and the directories of its two dockerfiles. -/
def rulesCollaborators : Collaborators :=
  { exampleCollaborators with
    decodeBuilder := fun a =>
      if a.data = [3] then .ok builderRules else exampleCollaborators.decodeBuilder a
    dir := fun path =>
      if path = "/app/web/Dockerfile" then "/app/web"
      else if path = "/app/log/Dockerfile" then "/app/log"
      else "/app" }

/-- The image watch rule: the path is the dockerfile of an image definition
with a container build, or the source document of one that has no container
build and a nested-application build. -/
def ImageRulePath (c : Collaborators) (cwd : String)
    (builds : List (String × ImageBuilderSpec)) (p : String) : Prop :=
  ∃ key build, (key, build) ∈ builds ∧
    ((∃ b, build.ContainerBuild = some b ∧ p = c.join [cwd, b.Dockerfile]) ∨
      (build.ContainerBuild = none ∧
        ∃ ab, build.AcornBuild = some ab ∧ p = c.join [cwd, ab.Acornfile]))

/-! ## Theorems -/

/-- C1: `assignImage` returns the resolved image as the workload image; an
absent build becomes the default record with `originalImage` as base image; a
present build keeps context and dockerfile, and its base image becomes
`originalImage` when empty, the resolved image when equal to `originalImage`,
and is kept otherwise. -/
theorem assignImage_contract (originalImage resolvedImage : String) (build : Option Build) :
    (assignImage originalImage build resolvedImage).1 = resolvedImage ∧
    (assignImage originalImage build resolvedImage).2 =
      match build with
      | none => { Context := ".", Dockerfile := "Dockerfile", BaseImage := originalImage }
      | some b =>
        { Context := b.Context
          Dockerfile := b.Dockerfile
          BaseImage :=
            if b.BaseImage = "" then originalImage
            else if b.BaseImage = originalImage then resolvedImage
            else b.BaseImage } := by
  refine ⟨rfl, ?_⟩
  cases build with
  | none => simp [assignImage]
  | some b =>
    simp only [assignImage]
    split_ifs <;> rfl

/-- C2 (counterexample): with no initial build, original image `x` and
resolved images `y` then `z`, the second pass leaves the base image at `x`,
which is not the second resolved image `z`. -/
theorem assignImage_propagation_counterexample :
    (assignImage (assignImage "x" none "y").1 (some (assignImage "x" none "y").2) "z").2.BaseImage
        = "x" ∧
      (assignImage (assignImage "x" none "y").1 (some (assignImage "x" none "y").2)
        "z").2.BaseImage ≠ "z" := by
  decide

/-- C2 (amended): after two passes, the second taking the first pass's resolved
image as its original image, the base image is the first resolved image when
the first pass left it empty, the second resolved image when the first pass
left it non-empty and equal to the first resolved image, and what the first
pass left otherwise; so it is the second resolved image whenever the initial
build has a non-empty base image equal to the original image and the first
resolved image is non-empty. -/
theorem assignImage_propagation (build : Option Build) (o1 r1 r2 : String) :
    ((assignImage (assignImage o1 build r1).1 (some (assignImage o1 build r1).2) r2).2.BaseImage =
      if (assignImage o1 build r1).2.BaseImage = "" then r1
      else if (assignImage o1 build r1).2.BaseImage = r1 then r2
      else (assignImage o1 build r1).2.BaseImage) ∧
    (∀ b : Build, build = some b → b.BaseImage = o1 → o1 ≠ "" → r1 ≠ "" →
      (assignImage (assignImage o1 build r1).1 (some (assignImage o1 build r1).2) r2).2.BaseImage
        = r2) := by
  have key : ∀ (c : Build) (o r : String),
      (assignImage o (some c) r).2.BaseImage =
        if c.BaseImage = "" then o else if c.BaseImage = o then r else c.BaseImage := by
    intro c o r
    simp only [assignImage]
    split_ifs <;> rfl
  refine ⟨?_, ?_⟩
  · rw [key]
    rfl
  · intro b hb hbase ho hr
    subst hb
    rw [key, key]
    have h1 : (assignImage o1 (some b) r1).1 = r1 := rfl
    rw [h1]
    simp [hbase, ho, hr]

/-- C2 (witness): a build based on `nginx`, resolved to `sha1` and then to
`sha2`, ends with base image `sha2`. -/
theorem assignImage_propagation_witness :
    (assignImage (assignImage "nginx" (some ⟨".", "Dockerfile", "nginx"⟩) "sha1").1
      (some (assignImage "nginx" (some ⟨".", "Dockerfile", "nginx"⟩) "sha1").2)
      "sha2").2.BaseImage = "sha2" :=
  (assignImage_propagation (some ⟨".", "Dockerfile", "nginx"⟩) "nginx" "sha1" "sha2").2
    ⟨".", "Dockerfile", "nginx"⟩ rfl rfl (by decide) (by decide)

/-- Helper: one call of `assignAcornImage` on a present build. -/
theorem assignAcornImage_some (o i : String) (b : AcornBuild) :
    (assignAcornImage o (some b) i).2 =
      { OriginalImage := if b.OriginalImage = "" then o else b.OriginalImage
        Context := b.Context
        Acornfile := b.Acornfile } := by
  simp only [assignAcornImage]
  split_ifs <;> rfl

/-- Helper: a non-empty `OriginalImage` survives any sequence of calls, which
leave the whole record as it is. -/
theorem assignAcornImageMany_fixed (calls : List (String × String)) (b : AcornBuild)
    (h : b.OriginalImage ≠ "") : assignAcornImageMany b calls = b := by
  induction calls with
  | nil => rfl
  | cons c rest ih =>
    obtain ⟨o, i⟩ := c
    have hb : (assignAcornImage o (some b) i).2 = b := by
      rw [assignAcornImage_some]
      simp [h]
    simp only [assignAcornImageMany, hb]
    exact ih

/-- C3: `assignAcornImage` returns the resolved image as the workload image; an
absent build becomes a fresh record whose only set field is `OriginalImage`; a
present build gets `originalImage` as `OriginalImage` when that was empty and
keeps it otherwise, with context and source path unchanged; and a build whose
`OriginalImage` is non-empty is left as it is by every later sequence of calls,
whatever their arguments. -/
theorem assignAcornImage_contract (originalImage image : String) (build : Option AcornBuild) :
    (assignAcornImage originalImage build image).1 = image ∧
    ((assignAcornImage originalImage build image).2 =
      match build with
      | none => { OriginalImage := originalImage, Context := "", Acornfile := "" }
      | some b =>
        { OriginalImage := if b.OriginalImage = "" then originalImage else b.OriginalImage
          Context := b.Context
          Acornfile := b.Acornfile }) ∧
    (∀ (b : AcornBuild) (calls : List (String × String)), b.OriginalImage ≠ "" →
      assignAcornImageMany b calls = b) := by
  refine ⟨rfl, ?_, ?_⟩
  · cases build with
    | none => simp [assignAcornImage]
    | some b => exact assignAcornImage_some originalImage image b
  · intro b calls h
    exact assignAcornImageMany_fixed calls b h

/-- C3 (witness): a record that already names `app:v0` keeps it through two
further calls. -/
theorem assignAcornImage_contract_witness :
    assignAcornImageMany ⟨"app:v0", "ctx", "Acornfile"⟩ [("app:v1", "sha1"), ("", "sha2")] =
      ⟨"app:v0", "ctx", "Acornfile"⟩ :=
  (assignAcornImage_contract "app:v0" "sha0" none).2.2 ⟨"app:v0", "ctx", "Acornfile"⟩
    [("app:v1", "sha1"), ("", "sha2")] (by decide)

/-! ### Go maps and `typed.Concat` -/

/-- Helper: reading after a write. -/
theorem GoMap.get_set {V : Type} (m : GoMap V) (k : String) (v : V) (key : String) :
    GoMap.get (GoMap.set m k v) key = if k = key then some v else GoMap.get m key := by
  induction m with
  | nil => simp [GoMap.set, GoMap.get]
  | cons e rest ih =>
    obtain ⟨k0, v0⟩ := e
    by_cases h0 : k0 = k
    · subst h0
      by_cases h1 : k0 = key <;> simp [GoMap.set, GoMap.get, h1]
    · by_cases h1 : k0 = key
      · subst h1
        simp [GoMap.set, GoMap.get, h0, Ne.symm h0]
      · simp [GoMap.set, GoMap.get, h0, h1, ih]

/-- Helper: a key that is not among the keys reads as absent. -/
theorem GoMap.get_eq_none_of_not_mem {V : Type} (m : GoMap V) (key : String)
    (h : key ∉ GoMap.keys m) : GoMap.get m key = none := by
  induction m with
  | nil => rfl
  | cons e rest ih =>
    obtain ⟨k0, v0⟩ := e
    simp only [GoMap.keys, List.map_cons, List.mem_cons, not_or] at h
    have h0 : ¬ k0 = key := fun hk => h.1 hk.symm
    simp only [GoMap.get, h0, if_false]
    exact ih h.2

/-- Helper: writing all entries of a map with unique keys, one after the
other, lets each of its keys read as in that map and leaves the others. -/
theorem GoMap.get_foldl_set {V : Type} (b : GoMap V) (hb : (GoMap.keys b).Nodup)
    (r : GoMap V) (key : String) :
    GoMap.get (b.foldl (fun r kv => GoMap.set r kv.1 kv.2) r) key =
      (GoMap.get b key).or (GoMap.get r key) := by
  induction b generalizing r with
  | nil => simp [GoMap.get]
  | cons e rest ih =>
    obtain ⟨k0, v0⟩ := e
    simp only [GoMap.keys, List.map_cons, List.nodup_cons] at hb
    rw [List.foldl_cons, ih hb.2, GoMap.get_set]
    by_cases h0 : k0 = key
    · subst h0
      have hnone : GoMap.get rest k0 = none := GoMap.get_eq_none_of_not_mem rest k0 hb.1
      simp [GoMap.get, hnone]
    · simp [GoMap.get, h0]

/-- Helper: `typed.Concat` reads as its second argument where that has the
key, and as its first argument elsewhere. -/
theorem get_Concat {V : Type} (a b : GoMap V) (ha : (GoMap.keys a).Nodup)
    (hb : (GoMap.keys b).Nodup) (key : String) :
    GoMap.get (Concat a b) key = (GoMap.get b key).or (GoMap.get a key) := by
  unfold Concat
  rw [GoMap.get_foldl_set b hb, GoMap.get_foldl_set a ha]
  simp [GoMap.get]

/-- Helper: the keys after a write. -/
theorem GoMap.keys_set {V : Type} (m : GoMap V) (k : String) (v : V) :
    GoMap.keys (GoMap.set m k v) = if k ∈ GoMap.keys m then GoMap.keys m else GoMap.keys m ++ [k] := by
  induction m with
  | nil => simp [GoMap.set, GoMap.keys]
  | cons e rest ih =>
    obtain ⟨k0, v0⟩ := e
    by_cases h0 : k0 = k
    · subst h0
      simp [GoMap.set, GoMap.keys]
    · have h0' : ¬ k = k0 := fun h => h0 h.symm
      simp only [GoMap.keys] at ih
      simp only [GoMap.set, h0, if_false, GoMap.keys, List.map_cons, List.mem_cons, h0',
        false_or, ih]
      split_ifs <;> simp

/-- Helper: a write keeps the keys unique. -/
theorem GoMap.nodup_set {V : Type} (m : GoMap V) (k : String) (v : V)
    (h : (GoMap.keys m).Nodup) : (GoMap.keys (GoMap.set m k v)).Nodup := by
  rw [GoMap.keys_set]
  split_ifs with hk
  · exact h
  · exact List.Nodup.append h (List.nodup_singleton k) (by simpa using hk)

/-- Helper: a sequence of writes keeps the keys unique. -/
theorem GoMap.nodup_foldl_set {V : Type} (b r : GoMap V) (h : (GoMap.keys r).Nodup) :
    (GoMap.keys (b.foldl (fun r kv => GoMap.set r kv.1 kv.2) r)).Nodup := by
  induction b generalizing r with
  | nil => exact h
  | cons e rest ih => exact ih _ (GoMap.nodup_set r e.1 e.2 h)

/-- Helper: the result of `typed.Concat` has unique keys. -/
theorem nodup_Concat {V : Type} (a b : GoMap V) : (GoMap.keys (Concat a b)).Nodup := by
  unfold Concat
  exact GoMap.nodup_foldl_set b _ (GoMap.nodup_foldl_set a [] List.nodup_nil)

/-! ### Aggregation of image-data layers -/

/-- Helper: the aggregation loop, started from any accumulator with unique
keys, reads as the last layer that has the key, else as the accumulator. -/
theorem imagesData_fold_get (layers : List ImagesData) (hwf : ∀ l ∈ layers, l.WF)
    (acc : ImagesData) (hacc : acc.WF) (sel : Mapping) (k : String) :
    GoMap.get
        ((layers.foldl
          (fun result imageData =>
            ({ Containers := Concat result.Containers imageData.Containers
               Functions := Concat result.Functions imageData.Functions
               Jobs := Concat result.Jobs imageData.Jobs
               Images := Concat result.Images imageData.Images
               Acorns := Concat result.Acorns imageData.Acorns
               Builds := result.Builds ++ imageData.Builds } : ImagesData))
          acc).mapping sel) k =
      (lastLayerEntry sel layers k).or (GoMap.get (acc.mapping sel) k) := by
  induction layers generalizing acc with
  | nil => simp [lastLayerEntry]
  | cons l rest ih =>
    have hl : l.WF := hwf l (List.mem_cons_self _ _)
    have hrest : ∀ x ∈ rest, x.WF := fun x hx => hwf x (List.mem_cons_of_mem _ hx)
    rw [List.foldl_cons, ih hrest]
    · have hstep : GoMap.get
          (({ Containers := Concat acc.Containers l.Containers
              Functions := Concat acc.Functions l.Functions
              Jobs := Concat acc.Jobs l.Jobs
              Images := Concat acc.Images l.Images
              Acorns := Concat acc.Acorns l.Acorns
              Builds := acc.Builds ++ l.Builds } : ImagesData).mapping sel) k =
            (GoMap.get (l.mapping sel) k).or (GoMap.get (acc.mapping sel) k) := by
        have ha := hacc sel
        have hb := hl sel
        cases sel <;> exact get_Concat _ _ ha hb k
      rw [hstep]
      simp only [lastLayerEntry, List.reverse_cons, List.findSome?_append, List.findSome?_cons,
        List.findSome?_nil]
      rw [Option.or_assoc]
      congr 1
      cases GoMap.get (l.mapping sel) k <;> rfl
    · intro sel'
      cases sel' <;> exact nodup_Concat _ _

/-- C4: for layers whose mappings have unique keys, each of the five aggregated
mappings reads, at every workload name, as the last layer in insertion order
whose mapping contains the name, and contains the name exactly when some layer
does. -/
theorem imagesData_layer_override (a : AppDefinition) (hwf : ∀ l ∈ a.imageDatas, l.WF)
    (sel : Mapping) (k : String) :
    GoMap.get ((imagesData a).mapping sel) k = lastLayerEntry sel a.imageDatas k ∧
    (GoMap.contains ((imagesData a).mapping sel) k = true ↔
      ∃ l ∈ a.imageDatas, GoMap.contains (l.mapping sel) k = true) := by
  have hget : GoMap.get ((imagesData a).mapping sel) k = lastLayerEntry sel a.imageDatas k := by
    unfold imagesData
    rw [imagesData_fold_get a.imageDatas hwf]
    · cases sel <;> simp [ImagesData.mapping, GoMap.get]
    · intro sel'
      cases sel' <;> simp [ImagesData.mapping, GoMap.keys]
  refine ⟨hget, ?_⟩
  simp only [GoMap.contains, hget, lastLayerEntry, List.findSome?_isSome_iff, List.mem_reverse]

/-! ### `GenericMap.Merge` -/

/-- Helper: a write of a new key adds the entry at the end. -/
theorem GoMap.set_of_not_mem {V : Type} (m : GoMap V) (k : String) (v : V)
    (h : k ∉ GoMap.keys m) : GoMap.set m k v = m ++ [(k, v)] := by
  induction m with
  | nil => rfl
  | cons e rest ih =>
    obtain ⟨k0, v0⟩ := e
    simp only [GoMap.keys, List.map_cons, List.mem_cons, not_or] at h
    have h0 : ¬ k0 = k := fun hk => h.1 hk.symm
    simp only [GoMap.set, h0, if_false, List.cons_append]
    rw [ih h.2]

/-- Helper: writing the entries of a map with unique keys into a map that has
none of them appends them in order. -/
theorem GoMap.foldl_set_append {V : Type} (b r : GoMap V) (hb : (GoMap.keys b).Nodup)
    (hdis : ∀ k ∈ GoMap.keys b, k ∉ GoMap.keys r) :
    b.foldl (fun r kv => GoMap.set r kv.1 kv.2) r = r ++ b := by
  induction b generalizing r with
  | nil => simp
  | cons e rest ih =>
    obtain ⟨k0, v0⟩ := e
    simp only [GoMap.keys, List.map_cons, List.nodup_cons] at hb
    have hk0 : k0 ∉ GoMap.keys r := hdis k0 (by simp [GoMap.keys])
    rw [List.foldl_cons, GoMap.set_of_not_mem r k0 v0 hk0, ih _ hb.2]
    · simp
    · intro k hk
      have h1 : k ∉ GoMap.keys r := hdis k (by
        simp only [GoMap.keys, List.map_cons, List.mem_cons]
        exact Or.inr hk)
      have h2 : k ≠ k0 := fun h => hb.1 (h ▸ hk)
      simp only [GoMap.keys, List.map_append, List.map_cons, List.map_nil, List.mem_append,
        List.mem_singleton, not_or]
      exact ⟨h1, h2⟩

/-- Helper: `typed.Concat` of the nil map and a map with unique keys is that
map. -/
theorem Concat_nil_left {V : Type} (b : GoMap V) (hb : (GoMap.keys b).Nodup) :
    Concat [] b = b := by
  unfold Concat
  simpa using GoMap.foldl_set_append b [] hb (by simp [GoMap.keys])

/-- Helper: the struct allocated last is found at the old length of the store. -/
theorem dataOf_append_length (st : Store) (x : GenericMap) :
    dataOf (st ++ [x]) (some st.length) = x.Data := by
  simp [dataOf]

/-- Helper: an allocation leaves what the old pointers denote. -/
theorem dataOf_append_of_lt (st : Store) (x : GenericMap) (addr : Nat) (h : addr < st.length) :
    dataOf (st ++ [x]) (some addr) = dataOf st (some addr) := by
  simp [dataOf, List.getElem?_append_left h]

/-- C7: `Merge` returns a mapping that reads every key as the incoming mapping
where that has the key and as the base elsewhere (so it has no other key);
with an absent incoming mapping it returns the base pointer itself, with an
absent base it returns a mapping equal to the incoming one; and every struct
that was in the store before the call, the base and the incoming one among
them, is the same after it. -/
theorem Merge_right_biased_union (st : Store) (g frm : Option Nat)
    (hwf : ∀ p d, dataOf st p = some d → (GoMap.keys d).Nodup) :
    (∀ k, GoMap.get ((dataOf (Merge st g frm).1 (Merge st g frm).2).getD []) k =
      (GoMap.get ((dataOf st frm).getD []) k).or (GoMap.get ((dataOf st g).getD []) k)) ∧
    (dataOf st frm = none → Merge st g frm = (st, g)) ∧
    (dataOf st g = none →
      dataOf (Merge st g frm).1 (Merge st g frm).2 = dataOf st frm) ∧
    (∀ addr, addr < st.length → (Merge st g frm).1[addr]? = st[addr]?) := by
  cases hf : dataOf st frm with
  | none =>
    have hm : Merge st g frm = (st, g) := by simp [Merge, hf]
    refine ⟨?_, fun _ => hm, ?_, ?_⟩
    · intro k
      simp [hm, GoMap.get]
    · intro hg
      simp [hm, hg]
    · intro addr _
      simp [hm]
  | some fd =>
    have hfd : (GoMap.keys fd).Nodup := hwf frm fd hf
    cases g with
    | none =>
      have hm : Merge st none frm =
          ((st ++ [GenericMap.mk none]) ++
            [GenericMap.mk (some (Concat
              ((dataOf (st ++ [GenericMap.mk none]) (some st.length)).getD []) fd))],
            some (st ++ [GenericMap.mk none]).length) := by
        simp [Merge, hf]
      rw [hm]
      simp only []
      rw [dataOf_append_length (st ++ [GenericMap.mk none]), dataOf_append_length st]
      simp only [Option.getD_none, Concat_nil_left fd hfd]
      refine ⟨?_, ?_, ?_, ?_⟩
      · intro k
        simp [dataOf, GoMap.get]
      · intro h
        cases h
      · intro _
        trivial
      · intro addr h
        rw [List.append_assoc, List.getElem?_append_left h]
    | some a =>
      have hm : Merge st (some a) frm =
          (st ++ [GenericMap.mk (some (Concat ((dataOf st (some a)).getD []) fd))],
            some st.length) := by
        simp [Merge, hf]
      rw [hm, dataOf_append_length]
      have hga : (GoMap.keys ((dataOf st (some a)).getD [])).Nodup := by
        cases hd : dataOf st (some a) with
        | none => simp [GoMap.keys]
        | some d => exact hwf (some a) d hd
      refine ⟨?_, ?_, ?_, ?_⟩
      · intro k
        simp only [Option.getD_some]
        exact get_Concat _ _ hga hfd k
      · intro h
        cases h
      · intro hg
        simp only [hg, Option.getD_none, Concat_nil_left fd hfd]
      · intro addr h
        exact List.getElem?_append_left h

/-! ### Integer literals -/

/-- Helper: the decimal digit characters and their values. -/
theorem digitChar_spec (k : Nat) (h : k < 10) :
    '0' ≤ Nat.digitChar k ∧ Nat.digitChar k ≤ '9' ∧
      (Nat.digitChar k).toNat - '0'.toNat = k := by
  interval_cases k <;> decide

/-- Helper: the digit loop reads back what `Nat.toDigitsCore` prints in front
of the remaining characters. -/
theorem parseDigits_toDigitsCore (fuel n : Nat) (ds : List Char) (h : n < fuel) :
    parseDigits (Nat.toDigitsCore 10 fuel n ds) 0 = parseDigits ds n := by
  induction fuel generalizing n ds with
  | zero => omega
  | succ fuel ih =>
    obtain ⟨h1, h2, h3⟩ := digitChar_spec (n % 10) (Nat.mod_lt _ (by decide))
    unfold Nat.toDigitsCore
    simp only []
    split_ifs with hz
    · simp only [parseDigits, h1, h2, and_self, if_true, h3, Nat.zero_mul, Nat.zero_add]
      congr 1
      exact Nat.mod_eq_of_lt (by omega)
    · rw [ih (n / 10) _ (by omega)]
      simp only [parseDigits, h1, h2, and_self, if_true, h3]
      congr 1
      omega

/-- Helper: printing in front of a non-empty tail gives a non-empty text. -/
theorem toDigitsCore_cons_ne_nil (fuel n : Nat) (c : Char) (ds : List Char) :
    Nat.toDigitsCore 10 fuel n (c :: ds) ≠ [] := by
  induction fuel generalizing n c ds with
  | zero => simp [Nat.toDigitsCore]
  | succ fuel ih =>
    unfold Nat.toDigitsCore
    simp only []
    split_ifs with hz
    · simp
    · exact ih _ _ _

/-- Helper: the decimal text of a natural number is not empty. -/
theorem toDigits_ne_nil (n : Nat) : Nat.toDigits 10 n ≠ [] := by
  unfold Nat.toDigits Nat.toDigitsCore
  simp only []
  split_ifs with hz
  · simp
  · exact toDigitsCore_cons_ne_nil _ _ _ _

/-- Helper: `ParseUint` reads back the decimal text of a number below `2^64`. -/
theorem parseUint64_toDigits (n : Nat) (h : n < 2 ^ 64) :
    parseUint64 (Nat.toDigits 10 n) = some n := by
  have hd : parseDigits (Nat.toDigits 10 n) 0 = some n := by
    have := parseDigits_toDigitsCore (n + 1) n [] (by omega)
    simpa [Nat.toDigits, parseDigits] using this
  unfold parseUint64
  split
  · rename_i heq
    exact absurd heq (toDigits_ne_nil n)
  · simp only [hd]
    rw [if_pos h]

/-- Helper: a text the digit loop accepts starts with a digit, not a sign. -/
theorem parseDigits_head (c : Char) (cs : List Char) (acc n : Nat)
    (h : parseDigits (c :: cs) acc = some n) : c ≠ '+' ∧ c ≠ '-' := by
  simp only [parseDigits] at h
  split_ifs at h with hc
  refine ⟨?_, ?_⟩
  · rintro rfl
    exact absurd hc.1 (by decide)
  · rintro rfl
    exact absurd hc.1 (by decide)

/-- Helper: `ParseInt` reads back the decimal text of every 64-bit integer. -/
theorem parseInt64_toString (n : Int) (hlo : -2 ^ 63 ≤ n) (hhi : n < 2 ^ 63) :
    parseInt64 (toString n) = some n := by
  cases n with
  | ofNat m =>
    have hm : m < 2 ^ 63 := by
      have h1 : (m : Int) < 2 ^ 63 := hhi
      omega
    have hu : parseUint64 (Nat.toDigits 10 m) = some m := parseUint64_toDigits m (by omega)
    have hstr : (toString (Int.ofNat m)).toList = Nat.toDigits 10 m := by
      show (Nat.repr m).toList = _
      simp [Nat.repr, List.asString]
    unfold parseInt64
    rw [hstr]
    cases hds : Nat.toDigits 10 m with
    | nil => exact absurd hds (toDigits_ne_nil m)
    | cons c rest =>
      have hpd : parseDigits (c :: rest) 0 = some m := by
        rw [← hds]
        have := parseDigits_toDigitsCore (m + 1) m [] (by omega)
        simpa [Nat.toDigits, parseDigits] using this
      obtain ⟨hp, hmn⟩ := parseDigits_head c rest 0 m hpd
      rw [hds] at hu
      simp only [hp, hmn, if_false, hu]
      have hge : ¬ m ≥ 2 ^ 63 := by omega
      rw [if_neg hge]
  | negSucc m =>
    have hm : m + 1 ≤ 2 ^ 63 := by
      have : (Int.negSucc m) = -((m : Int) + 1) := rfl
      rw [this] at hlo
      omega
    have hu : parseUint64 (Nat.toDigits 10 (m + 1)) = some (m + 1) :=
      parseUint64_toDigits (m + 1) (by omega)
    have hstr : (toString (Int.negSucc m)).toList = '-' :: Nat.toDigits 10 (m + 1) := by
      show ("-" ++ Nat.repr (m + 1)).toList = _
      simp [Nat.repr, List.asString]
    unfold parseInt64
    rw [hstr]
    have h1 : ¬ ('-' = '+') := by decide
    simp only [h1, if_false, if_true, hu]
    have : ¬ m + 1 > 2 ^ 63 := by omega
    simp only [this, if_false]
    rfl

/-- Helper: a text the digit loop accepts has digits only. -/
theorem parseDigits_all_digits (cs : List Char) (acc n : Nat)
    (h : parseDigits cs acc = some n) : ∀ c ∈ cs, '0' ≤ c ∧ c ≤ '9' := by
  induction cs generalizing acc with
  | nil => simp
  | cons c rest ih =>
    simp only [parseDigits] at h
    split_ifs at h with hc
    intro x hx
    rcases List.mem_cons.mp hx with rfl | hx
    · exact hc
    · exact ih _ h x hx

/-- Helper: a text `ParseUint` accepts has digits only. -/
theorem parseUint64_all_digits (cs : List Char) (n : Nat)
    (h : parseUint64 cs = some n) : ∀ c ∈ cs, '0' ≤ c ∧ c ≤ '9' := by
  unfold parseUint64 at h
  split at h
  · cases h
  · split at h
    · cases h
    · rename_i un hun
      exact parseDigits_all_digits _ _ _ hun

/-- Helper: a literal `ParseInt` accepts denotes a 64-bit integer and is made
of a sign and digits only. -/
theorem parseInt64_some (s : String) (n : Int) (h : parseInt64 s = some n) :
    (-2 ^ 63 ≤ n ∧ n < 2 ^ 63) ∧
      ∀ c ∈ s.toList, c = '+' ∨ c = '-' ∨ ('0' ≤ c ∧ c ≤ '9') := by
  unfold parseInt64 at h
  cases hs : s.toList with
  | nil =>
    rw [hs] at h
    cases h
  | cons c rest =>
    rw [hs] at h
    simp only [] at h
    split_ifs at h with hplus hminus
    · cases hu : parseUint64 rest with
      | none => simp [hu] at h
      | some un =>
        simp only [hu] at h
        split_ifs at h with hr
        cases h
        refine ⟨⟨by simp only [Int.ofNat_eq_coe]; omega, by simp only [Int.ofNat_eq_coe]; omega⟩, ?_⟩
        intro x hx
        rcases List.mem_cons.mp hx with rfl | hx
        · exact Or.inl hplus
        · exact Or.inr (Or.inr (parseUint64_all_digits rest un hu x hx))
    · cases hu : parseUint64 rest with
      | none => simp [hu] at h
      | some un =>
        simp only [hu] at h
        split_ifs at h with hr
        cases h
        refine ⟨⟨by simp only [Int.ofNat_eq_coe]; omega, by simp only [Int.ofNat_eq_coe]; omega⟩, ?_⟩
        intro x hx
        rcases List.mem_cons.mp hx with rfl | hx
        · exact Or.inr (Or.inl hminus)
        · exact Or.inr (Or.inr (parseUint64_all_digits rest un hu x hx))
    · cases hu : parseUint64 (c :: rest) with
      | none => simp [hu] at h
      | some un =>
        simp only [hu] at h
        split_ifs at h with hr
        cases h
        refine ⟨⟨by simp only [Int.ofNat_eq_coe]; omega, by simp only [Int.ofNat_eq_coe]; omega⟩, ?_⟩
        intro x hx
        exact Or.inr (Or.inr (parseUint64_all_digits (c :: rest) un hu x hx))

/-! ### `translateObject` -/

/-- Helper: the sequence loop translates element by element. -/
theorem translateElems_getElem (pf : String → Option Float64) (xs ys : List Any)
    (h : translateElems pf xs = .ok ys) (i : Nat) (x : Any) (hx : xs[i]? = some x) :
    ∃ y, ys[i]? = some y ∧ translateObject pf x = .ok y := by
  induction xs generalizing ys i with
  | nil => simp at hx
  | cons x0 rest ih =>
    simp only [translateElems] at h
    cases h0 : translateObject pf x0 with
    | error e => simp [h0] at h
    | ok y0 =>
      cases h1 : translateElems pf rest with
      | error e => simp [h0, h1] at h
      | ok rest1 =>
        simp only [h0, h1, Except.ok.injEq] at h
        subst h
        cases i with
        | zero =>
          simp only [List.getElem?_cons_zero, Option.some.injEq] at hx
          subst hx
          exact ⟨y0, by simp, h0⟩
        | succ j =>
          simp only [List.getElem?_cons_succ] at hx
          obtain ⟨y, hy, hty⟩ := ih rest1 h1 j hx
          exact ⟨y, by simpa using hy, hty⟩

/-- Helper: the mapping loop translates value by value and keeps the keys. -/
theorem translateEntries_get (pf : String → Option Float64) (m m1 : List (String × Any))
    (h : translateEntries pf m = .ok m1) (k : String) (x : Any) (hx : GoMap.get m k = some x) :
    ∃ y, GoMap.get m1 k = some y ∧ translateObject pf x = .ok y := by
  induction m generalizing m1 with
  | nil => simp [GoMap.get] at hx
  | cons e rest ih =>
    obtain ⟨k0, x0⟩ := e
    simp only [translateEntries] at h
    cases h0 : translateObject pf x0 with
    | error e => simp [h0] at h
    | ok y0 =>
      cases h1 : translateEntries pf rest with
      | error e => simp [h0, h1] at h
      | ok rest1 =>
        simp only [h0, h1, Except.ok.injEq] at h
        subst h
        by_cases hk : k0 = k
        · simp only [GoMap.get, hk, if_true, Option.some.injEq] at hx
          subst hx
          exact ⟨y0, by simp [GoMap.get, hk], h0⟩
        · simp only [GoMap.get, hk, if_false] at hx
          obtain ⟨y, hy, hty⟩ := ih rest1 h1 hx
          exact ⟨y, by simpa [GoMap.get, hk] using hy, hty⟩

/-- Helper: translation commutes with following a path: what sits at a path of
the input is translated to what sits at the same path of the output. -/
theorem translateObject_follow (pf : String → Option Float64) (p : List Step) (d v d1 : Any)
    (h : translateObject pf d = .ok v) (hp : d.follow p = some d1) :
    ∃ v1, v.follow p = some v1 ∧ translateObject pf d1 = .ok v1 := by
  induction p generalizing d v with
  | nil =>
    simp only [Any.follow, Option.some.injEq] at hp
    subst hp
    exact ⟨v, by simp [Any.follow], h⟩
  | cons s p ih =>
    cases d with
    | seq xs =>
      cases s with
      | idx i =>
        simp only [Any.follow] at hp
        cases hx : xs[i]? with
        | none => simp [hx] at hp
        | some x =>
          simp only [hx] at hp
          simp only [translateObject] at h
          cases ht : translateElems pf xs with
          | error e => simp [ht] at h
          | ok ys =>
            simp only [ht, Except.ok.injEq] at h
            subst h
            obtain ⟨y, hy, hty⟩ := translateElems_getElem pf xs ys ht i x hx
            obtain ⟨v1, hv1, htv1⟩ := ih x y hty hp
            exact ⟨v1, by simp [Any.follow, hy, hv1], htv1⟩
      | key k => simp [Any.follow] at hp
    | map m =>
      cases s with
      | idx i => simp [Any.follow] at hp
      | key k =>
        simp only [Any.follow] at hp
        cases hx : GoMap.get m k with
        | none => simp [hx] at hp
        | some x =>
          simp only [hx] at hp
          simp only [translateObject] at h
          cases ht : translateEntries pf m with
          | error e => simp [ht] at h
          | ok m1 =>
            simp only [ht, Except.ok.injEq] at h
            subst h
            obtain ⟨y, hy, hty⟩ := translateEntries_get pf m m1 ht k x hx
            obtain ⟨v1, hv1, htv1⟩ := ih x y hty hp
            exact ⟨v1, by simp [Any.follow, hy, hv1], htv1⟩
    | null => simp [Any.follow] at hp
    | bool b => simp [Any.follow] at hp
    | int i => simp [Any.follow] at hp
    | float f => simp [Any.follow] at hp
    | nonFinite => simp [Any.follow] at hp
    | number lit => simp [Any.follow] at hp
    | str s' => simp [Any.follow] at hp
    | rawStr bytes written => simp [Any.follow] at hp
    | nilSeq => simp [Any.follow] at hp
    | nilMap => simp [Any.follow] at hp

mutual
/-- Helper: translation succeeds when every number literal translates. -/
theorem translateObject_total (pf : String → Option Float64) :
    (d : Any) → NumbersOK pf d = true → ∃ v, translateObject pf d = .ok v
  | .null, _ => ⟨.null, rfl⟩
  | .bool b, _ => ⟨.bool b, rfl⟩
  | .int i, _ => ⟨.int i, rfl⟩
  | .float f, _ => ⟨.float f, rfl⟩
  | .nonFinite, _ => ⟨.nonFinite, rfl⟩
  | .str s, _ => ⟨.str s, rfl⟩
  | .rawStr bytes written, _ => ⟨.rawStr bytes written, rfl⟩
  | .nilSeq, _ => ⟨.nilSeq, rfl⟩
  | .nilMap, _ => ⟨.nilMap, rfl⟩
  | .number lit, h => by
    simp only [NumbersOK] at h
    simp only [translateObject, translateNumber]
    cases hi : parseInt64 lit with
    | some i => exact ⟨.int i, rfl⟩
    | none =>
      cases hf : pf lit with
      | some f => exact ⟨.float f, rfl⟩
      | none => simp [hi, hf] at h
  | .seq xs, h => by
    simp only [NumbersOK] at h
    obtain ⟨ys, hys⟩ := translateElems_total pf xs h
    exact ⟨.seq ys, by simp [translateObject, hys]⟩
  | .map m, h => by
    simp only [NumbersOK] at h
    obtain ⟨m1, hm1⟩ := translateEntries_total pf m h
    exact ⟨.map m1, by simp [translateObject, hm1]⟩
/-- Helper: the sequence loop succeeds when every number literal translates. -/
theorem translateElems_total (pf : String → Option Float64) :
    (xs : List Any) → NumbersOKElems pf xs = true → ∃ ys, translateElems pf xs = .ok ys
  | [], _ => ⟨[], rfl⟩
  | x :: xs, h => by
    simp only [NumbersOKElems, Bool.and_eq_true] at h
    obtain ⟨y, hy⟩ := translateObject_total pf x h.1
    obtain ⟨ys, hys⟩ := translateElems_total pf xs h.2
    exact ⟨y :: ys, by simp [translateElems, hy, hys]⟩
/-- Helper: the mapping loop succeeds when every number literal translates. -/
theorem translateEntries_total (pf : String → Option Float64) :
    (m : List (String × Any)) → NumbersOKEntries pf m = true →
      ∃ m1, translateEntries pf m = .ok m1
  | [], _ => ⟨[], rfl⟩
  | (k, x) :: rest, h => by
    simp only [NumbersOKEntries, Bool.and_eq_true] at h
    obtain ⟨y, hy⟩ := translateObject_total pf x h.1
    obtain ⟨m1, hm1⟩ := translateEntries_total pf rest h.2
    exact ⟨(k, y) :: m1, by simp [translateEntries, hy, hm1]⟩
end

mutual
/-- Helper: a stable value is encoded to a JSON value that decodes to it. -/
theorem marshal_translate (pf : String → Option Float64) :
    (v : Any) → Stable pf v = true →
      ∃ r, marshalValue v = .ok r ∧ translateObject pf r = .ok v
  | .null, _ => ⟨.null, rfl, rfl⟩
  | .bool b, _ => ⟨.bool b, rfl, rfl⟩
  | .str s, _ => ⟨.str s, rfl, rfl⟩
  | .int i, h => by
    simp only [Stable, decide_eq_true_eq] at h
    refine ⟨.number (toString i), rfl, ?_⟩
    simp [translateObject, translateNumber, parseInt64_toString i h.1 h.2]
  | .float f, h => by
    simp only [Stable, decide_eq_true_eq] at h
    refine ⟨.number f.text, rfl, ?_⟩
    simp [translateObject, translateNumber, h.1, h.2]
  | .number lit, h => by
    simp [Stable] at h
  | .nonFinite, h => by
    simp [Stable] at h
  | .rawStr bytes written, h => by
    simp [Stable] at h
  | .nilSeq, h => by
    simp [Stable] at h
  | .nilMap, h => by
    simp [Stable] at h
  | .seq xs, h => by
    simp only [Stable] at h
    obtain ⟨ys, h1, h2⟩ := marshalElems_translate pf xs h
    exact ⟨.seq ys, by simp [marshalValue, h1], by simp [translateObject, h2]⟩
  | .map m, h => by
    simp only [Stable] at h
    obtain ⟨m1, h1, h2⟩ := marshalEntries_translate pf m h
    exact ⟨.map m1, by simp [marshalValue, h1], by simp [translateObject, h2]⟩
/-- Helper: the round trip for the elements of a sequence. -/
theorem marshalElems_translate (pf : String → Option Float64) :
    (xs : List Any) → StableElems pf xs = true →
      ∃ ys, marshalElems xs = .ok ys ∧ translateElems pf ys = .ok xs
  | [], _ => ⟨[], rfl, rfl⟩
  | x :: xs, h => by
    simp only [StableElems, Bool.and_eq_true] at h
    obtain ⟨r, h1, h2⟩ := marshal_translate pf x h.1
    obtain ⟨rs, h3, h4⟩ := marshalElems_translate pf xs h.2
    exact ⟨r :: rs, by simp [marshalElems, h1, h3], by simp [translateElems, h2, h4]⟩
/-- Helper: the round trip for the entries of a mapping. -/
theorem marshalEntries_translate (pf : String → Option Float64) :
    (m : List (String × Any)) → StableEntries pf m = true →
      ∃ m1, marshalEntries m = .ok m1 ∧ translateEntries pf m1 = .ok m ∧ m1.length = m.length
  | [], _ => ⟨[], rfl, rfl, rfl⟩
  | (k, x) :: rest, h => by
    simp only [StableEntries, Bool.and_eq_true] at h
    obtain ⟨r, h1, h2⟩ := marshal_translate pf x h.1
    obtain ⟨rs, h3, h4, h5⟩ := marshalEntries_translate pf rest h.2
    exact ⟨(k, r) :: rs, by simp [marshalEntries, h1, h3], by simp [translateEntries, h2, h4],
      by simp [h5]⟩
end

/-- Helper: the encoder writes a sequence element by element. -/
theorem marshalElems_getElem (xs ys : List Any) (h : marshalElems xs = .ok ys) (i : Nat)
    (x : Any) (hx : xs[i]? = some x) : ∃ y, ys[i]? = some y ∧ marshalValue x = .ok y := by
  induction xs generalizing ys i with
  | nil => simp at hx
  | cons x0 rest ih =>
    simp only [marshalElems] at h
    cases h0 : marshalValue x0 with
    | error e => simp [h0] at h
    | ok y0 =>
      cases h1 : marshalElems rest with
      | error e => simp [h0, h1] at h
      | ok rest1 =>
        simp only [h0, h1, Except.ok.injEq] at h
        subst h
        cases i with
        | zero =>
          simp only [List.getElem?_cons_zero, Option.some.injEq] at hx
          subst hx
          exact ⟨y0, by simp, h0⟩
        | succ j =>
          simp only [List.getElem?_cons_succ] at hx
          obtain ⟨y, hy, hty⟩ := ih rest1 h1 j hx
          exact ⟨y, by simpa using hy, hty⟩

/-- Helper: the encoder writes a mapping value by value and keeps the keys. -/
theorem marshalEntries_get (m m1 : List (String × Any)) (h : marshalEntries m = .ok m1)
    (k : String) (x : Any) (hx : GoMap.get m k = some x) :
    ∃ y, GoMap.get m1 k = some y ∧ marshalValue x = .ok y := by
  induction m generalizing m1 with
  | nil => simp [GoMap.get] at hx
  | cons e rest ih =>
    obtain ⟨k0, x0⟩ := e
    simp only [marshalEntries] at h
    cases h0 : marshalValue x0 with
    | error e => simp [h0] at h
    | ok y0 =>
      cases h1 : marshalEntries rest with
      | error e => simp [h0, h1] at h
      | ok rest1 =>
        simp only [h0, h1, Except.ok.injEq] at h
        subst h
        by_cases hk : k0 = k
        · simp only [GoMap.get, hk, if_true, Option.some.injEq] at hx
          subst hx
          exact ⟨y0, by simp [GoMap.get, hk], h0⟩
        · simp only [GoMap.get, hk, if_false] at hx
          obtain ⟨y, hy, hty⟩ := ih rest1 h1 hx
          exact ⟨y, by simpa [GoMap.get, hk] using hy, hty⟩

/-- Helper: encoding commutes with following a path: what sits at a path of the
value is encoded to what sits at the same path of the encoding. -/
theorem marshalValue_follow (p : List Step) (d r x : Any) (h : marshalValue d = .ok r)
    (hp : d.follow p = some x) : ∃ r1, r.follow p = some r1 ∧ marshalValue x = .ok r1 := by
  induction p generalizing d r with
  | nil =>
    simp only [Any.follow, Option.some.injEq] at hp
    subst hp
    exact ⟨r, by simp [Any.follow], h⟩
  | cons s p ih =>
    cases d with
    | seq xs =>
      cases s with
      | idx i =>
        simp only [Any.follow] at hp
        cases hx : xs[i]? with
        | none => simp [hx] at hp
        | some x0 =>
          simp only [hx] at hp
          simp only [marshalValue] at h
          cases ht : marshalElems xs with
          | error e => simp [ht] at h
          | ok ys =>
            simp only [ht, Except.ok.injEq] at h
            subst h
            obtain ⟨y, hy, hty⟩ := marshalElems_getElem xs ys ht i x0 hx
            obtain ⟨r1, hr1, htr1⟩ := ih x0 y hty hp
            exact ⟨r1, by simp [Any.follow, hy, hr1], htr1⟩
      | key k => simp [Any.follow] at hp
    | map m =>
      cases s with
      | idx i => simp [Any.follow] at hp
      | key k =>
        simp only [Any.follow] at hp
        cases hx : GoMap.get m k with
        | none => simp [hx] at hp
        | some x0 =>
          simp only [hx] at hp
          simp only [marshalValue] at h
          cases ht : marshalEntries m with
          | error e => simp [ht] at h
          | ok m1 =>
            simp only [ht, Except.ok.injEq] at h
            subst h
            obtain ⟨y, hy, hty⟩ := marshalEntries_get m m1 ht k x0 hx
            obtain ⟨r1, hr1, htr1⟩ := ih x0 y hty hp
            exact ⟨r1, by simp [Any.follow, hy, hr1], htr1⟩
    | null => simp [Any.follow] at hp
    | bool b => simp [Any.follow] at hp
    | int i => simp [Any.follow] at hp
    | float f => simp [Any.follow] at hp
    | nonFinite => simp [Any.follow] at hp
    | number lit => simp [Any.follow] at hp
    | str s' => simp [Any.follow] at hp
    | rawStr bytes written => simp [Any.follow] at hp
    | nilSeq => simp [Any.follow] at hp
    | nilMap => simp [Any.follow] at hp

mutual
/-- Helper: a value that encoding and decoding return unchanged is stable. -/
theorem stable_of_roundtrip (pf : String → Option Float64) :
    (v r : Any) → marshalValue v = .ok r → translateObject pf r = .ok v → Stable pf v = true
  | .null, _, _, _ => rfl
  | .bool _, _, _, _ => rfl
  | .str _, _, _, _ => rfl
  | .int i, r, h1, h2 => by
    simp only [marshalValue, Except.ok.injEq] at h1
    subst h1
    simp only [translateObject, translateNumber] at h2
    cases hi : parseInt64 (toString i) with
    | some n =>
      simp only [hi, Except.ok.injEq, Any.int.injEq] at h2
      subst h2
      simpa [Stable] using (parseInt64_some _ _ hi).1
    | none =>
      simp only [hi] at h2
      cases hf : pf (toString i) with
      | some f => simp [hf] at h2
      | none => simp [hf] at h2
  | .float f, r, h1, h2 => by
    simp only [marshalValue, Except.ok.injEq] at h1
    subst h1
    simp only [translateObject, translateNumber] at h2
    cases hi : parseInt64 f.text with
    | some n => simp [hi] at h2
    | none =>
      simp only [hi] at h2
      cases hf : pf f.text with
      | some f1 =>
        simp only [hf, Except.ok.injEq, Any.float.injEq] at h2
        subst h2
        simp [Stable, hi, hf]
      | none => simp [hf] at h2
  | .nonFinite, r, h1, _ => by
    simp [marshalValue] at h1
  | .number lit, r, h1, h2 => by
    have key : ∀ s, translateObject pf (.number s) ≠ .ok (.number lit) := by
      intro s hh
      simp only [translateObject, translateNumber] at hh
      cases hi : parseInt64 s with
      | some n => simp [hi] at hh
      | none =>
        simp only [hi] at hh
        cases hf : pf s with
        | some f1 => simp [hf] at hh
        | none => simp [hf] at hh
    simp only [marshalValue] at h1
    by_cases hv : isValidNumber (if lit = "" then "0" else lit) = true
    · rw [if_pos hv] at h1
      simp only [Except.ok.injEq] at h1
      subst h1
      exact absurd h2 (key _)
    · rw [if_neg hv] at h1
      cases h1
  | .rawStr _ _, r, h1, h2 => by
    simp only [marshalValue, Except.ok.injEq] at h1
    subst h1
    simp [translateObject] at h2
  | .nilSeq, r, h1, h2 => by
    simp only [marshalValue, Except.ok.injEq] at h1
    subst h1
    simp [translateObject] at h2
  | .nilMap, r, h1, h2 => by
    simp only [marshalValue, Except.ok.injEq] at h1
    subst h1
    simp [translateObject] at h2
  | .seq xs, r, h1, h2 => by
    simp only [marshalValue] at h1
    cases hm : marshalElems xs with
    | error e => simp [hm] at h1
    | ok ys =>
      simp only [hm, Except.ok.injEq] at h1
      subst h1
      simp only [translateObject] at h2
      cases ht : translateElems pf ys with
      | error e => simp [ht] at h2
      | ok zs =>
        simp only [ht, Except.ok.injEq, Any.seq.injEq] at h2
        rw [h2] at ht
        simpa [Stable] using stableElems_of_roundtrip pf xs ys hm ht
  | .map m, r, h1, h2 => by
    simp only [marshalValue] at h1
    cases hm : marshalEntries m with
    | error e => simp [hm] at h1
    | ok m1 =>
      simp only [hm, Except.ok.injEq] at h1
      subst h1
      simp only [translateObject] at h2
      cases ht : translateEntries pf m1 with
      | error e => simp [ht] at h2
      | ok m2 =>
        simp only [ht, Except.ok.injEq, Any.map.injEq] at h2
        rw [h2] at ht
        simpa [Stable] using stableEntries_of_roundtrip pf m m1 hm ht
/-- Helper: the converse of the round trip for the elements of a sequence. -/
theorem stableElems_of_roundtrip (pf : String → Option Float64) :
    (xs ys : List Any) → marshalElems xs = .ok ys → translateElems pf ys = .ok xs →
      StableElems pf xs = true
  | [], _, _, _ => rfl
  | x :: xs, ys, h1, h2 => by
    simp only [marshalElems] at h1
    cases h0 : marshalValue x with
    | error e => simp [h0] at h1
    | ok y0 =>
      cases h3 : marshalElems xs with
      | error e => simp [h0, h3] at h1
      | ok rest1 =>
        simp only [h0, h3, Except.ok.injEq] at h1
        subst h1
        simp only [translateElems] at h2
        cases h4 : translateObject pf y0 with
        | error e => simp [h4] at h2
        | ok z0 =>
          cases h5 : translateElems pf rest1 with
          | error e => simp [h4, h5] at h2
          | ok zs =>
            simp only [h4, h5, Except.ok.injEq, List.cons.injEq] at h2
            rw [h2.1] at h4
            rw [h2.2] at h5
            simp only [StableElems, Bool.and_eq_true]
            exact ⟨stable_of_roundtrip pf x y0 h0 h4, stableElems_of_roundtrip pf xs rest1 h3 h5⟩
/-- Helper: the converse of the round trip for the entries of a mapping. -/
theorem stableEntries_of_roundtrip (pf : String → Option Float64) :
    (m m1 : List (String × Any)) → marshalEntries m = .ok m1 → translateEntries pf m1 = .ok m →
      StableEntries pf m = true
  | [], _, _, _ => rfl
  | (k, x) :: rest, m1, h1, h2 => by
    simp only [marshalEntries] at h1
    cases h0 : marshalValue x with
    | error e => simp [h0] at h1
    | ok y0 =>
      cases h3 : marshalEntries rest with
      | error e => simp [h0, h3] at h1
      | ok rest1 =>
        simp only [h0, h3, Except.ok.injEq] at h1
        subst h1
        simp only [translateEntries] at h2
        cases h4 : translateObject pf y0 with
        | error e => simp [h4] at h2
        | ok z0 =>
          cases h5 : translateEntries pf rest1 with
          | error e => simp [h4, h5] at h2
          | ok zs =>
            simp only [h4, h5, Except.ok.injEq, List.cons.injEq, Prod.mk.injEq, true_and] at h2
            rw [h2.1] at h4
            rw [h2.2] at h5
            simp only [StableEntries, Bool.and_eq_true]
            exact ⟨stable_of_roundtrip pf x y0 h0 h4,
              stableEntries_of_roundtrip pf rest rest1 h3 h5⟩
end

/-- Helper: `Mapify` on a non-nil mapping, step by step: encode the entries,
translate the numbers of the encoding, keep the result when it has an entry. -/
theorem Mapify_some (pf : String → Option Float64) (m : List (String × Any)) :
    Mapify pf (some m) =
      match marshalEntries m with
      | .error e => .error e
      | .ok m1 =>
        match translateEntries pf m1 with
        | .error e => .error ("*v1.GenericMap: Failed to translate object: " ++ e)
        | .ok d1 => if d1.length > 0 then .ok { Data := some d1 } else .ok { Data := none } := by
  simp only [Mapify, MarshalJSON, marshalValue]
  cases h1 : marshalEntries m with
  | error e => rfl
  | ok m1 =>
    simp only [UnmarshalJSON, Except.bind, decodeIntoMap, translateObject]
    cases h2 : translateEntries pf m1 with
    | error e => rfl
    | ok d1 => rfl

/-- Helper: what `Mapify` returns for a mapping the encoder accepts and whose
encoding has readable numbers: under every path of the value sits, in the
result, the translation of the encoding of what sat there. -/
theorem Mapify_follow (pf : String → Option Float64) (m m1 : List (String × Any))
    (hm : marshalEntries m = .ok m1) (hn : NumbersOKEntries pf m1 = true) :
    ∃ g1, Mapify pf (some m) = .ok g1 ∧
      ∀ p x, (Any.map m).follow p = some x →
        ∃ r y, marshalValue x = .ok r ∧ translateObject pf r = .ok y ∧
          (Any.map (g1.Data.getD [])).follow p = some y := by
  obtain ⟨d1, hd1⟩ := translateEntries_total pf m1 hn
  have hmv : marshalValue (.map m) = .ok (.map m1) := by simp [marshalValue, hm]
  have htv : translateObject pf (.map m1) = .ok (.map d1) := by simp [translateObject, hd1]
  refine ⟨if d1.length > 0 then { Data := some d1 } else { Data := none }, ?_, ?_⟩
  · rw [Mapify_some, hm]
    simp only [hd1]
    split_ifs <;> rfl
  · intro p x hx
    obtain ⟨r, hr, hxr⟩ := marshalValue_follow p (.map m) (.map m1) x hmv hx
    obtain ⟨y, hy, hry⟩ := translateObject_follow pf p (.map m1) (.map d1) r htv hr
    refine ⟨r, y, hxr, hry, ?_⟩
    have hdata : (if d1.length > 0 then GenericMap.mk (some d1)
        else GenericMap.mk none).Data.getD [] = d1 := by
      split_ifs with hlen
      · rfl
      · cases d1 with
        | nil => rfl
        | cons e rest => simp at hlen
    rw [hdata]
    exact hy

/-! ### Claims on `GenericMap` -/

/-- C4 (witness): with layers `A` and `B` that both bind the container `web`,
the aggregate of `[A, B]` has the entry of `B` and the aggregate of `[B, A]`
has the entry of `A`. -/
theorem imagesData_layer_override_witness :
    GoMap.get ((imagesData ⟨[], [layerA, layerB], true, none, []⟩).mapping .containers) "web"
        = some ⟨"b", ""⟩ ∧
      GoMap.get ((imagesData ⟨[], [layerB, layerA], true, none, []⟩).mapping .containers) "web"
        = some ⟨"a", ""⟩ := by
  have hA : layerA.WF := by decide
  have hB : layerB.WF := by decide
  refine ⟨?_, ?_⟩
  · refine ((imagesData_layer_override ⟨[], [layerA, layerB], true, none, []⟩ ?_
      .containers "web").1).trans (by decide)
    intro l hl
    simp only [List.mem_cons, List.mem_singleton, List.not_mem_nil, or_false] at hl
    rcases hl with rfl | rfl
    · exact hA
    · exact hB
  · refine ((imagesData_layer_override ⟨[], [layerB, layerA], true, none, []⟩ ?_
      .containers "web").1).trans (by decide)
    intro l hl
    simp only [List.mem_cons, List.mem_singleton, List.not_mem_nil, or_false] at hl
    rcases hl with rfl | rfl
    · exact hB
    · exact hA

/-- C7 (witness): merging the struct at address 1 into the struct at address 0
of the example store reads `a` from the incoming map, and leaves the base
struct as it was. -/
theorem Merge_right_biased_union_witness :
    GoMap.get ((dataOf (Merge exampleStore (some 0) (some 1)).1
        (Merge exampleStore (some 0) (some 1)).2).getD []) "a" =
      (GoMap.get ((dataOf exampleStore (some 1)).getD []) "a").or
        (GoMap.get ((dataOf exampleStore (some 0)).getD []) "a") ∧
    (Merge exampleStore (some 0) (some 1)).1[0]? = exampleStore[0]? := by
  have hwf : ∀ p d, dataOf exampleStore p = some d → (GoMap.keys d).Nodup := by
    intro p d h
    match p with
    | none => simp [dataOf] at h
    | some 0 =>
      simp only [dataOf, exampleStore, Option.bind, List.getElem?_cons_zero,
        Option.some.injEq] at h
      subst h
      decide
    | some 1 =>
      simp only [dataOf, exampleStore, Option.bind, List.getElem?_cons_succ,
        List.getElem?_cons_zero, Option.some.injEq] at h
      subst h
      decide
    | some (n + 2) => simp [dataOf, exampleStore] at h
  exact ⟨(Merge_right_biased_union exampleStore (some 0) (some 1) hwf).1 "a",
    (Merge_right_biased_union exampleStore (some 0) (some 1) hwf).2.2.2 0 (by decide)⟩

/-- C8 (counterexample): the literals `9223372036854775808` and `1.0` denote
exact integers, yet `UnmarshalJSON` stores both as floats: `ParseInt` rejects
them. -/
theorem UnmarshalJSON_numbers_counterexample :
    UnmarshalJSON exampleParseFloat (some ⟨none⟩)
        (.ok (.map [("n", .number "9223372036854775808"), ("m", .number "1.0")])) =
      .ok ⟨some [("n", .float ⟨"9223372036854775808"⟩), ("m", .float ⟨"1"⟩)]⟩ ∧
    parseInt64 "9223372036854775808" = none ∧ parseInt64 "1.0" = none := by
  refine ⟨by rfl, by decide, by decide⟩

/-- C8 (amended): decoding an object succeeds when every number literal in it
is a 64-bit integer literal or is accepted by the float parser; after a
successful decoding, wherever the document has a number literal, at any depth,
the decoded data has the integer `ParseInt` reads from it, if it reads one, and
else the float the float parser reads from it; `ParseInt` reads every integer
of the signed 64-bit range from its decimal text, and reads only such integers
and only from texts made of a sign and digits. -/
theorem UnmarshalJSON_numbers (pf : String → Option Float64) (g0 : GenericMap)
    (m : GoMap Any) :
    (NumbersOK pf (.map m) = true →
      ∃ g1, UnmarshalJSON pf (some g0) (.ok (.map m)) = .ok g1) ∧
    (∀ (g1 : GenericMap) (p : List Step) (lit : String),
      UnmarshalJSON pf (some g0) (.ok (.map m)) = .ok g1 →
      (Any.map m).follow p = some (.number lit) →
        (∀ n, parseInt64 lit = some n →
          (Any.map (g1.Data.getD [])).follow p = some (.int n)) ∧
        (parseInt64 lit = none →
          ∃ f, pf lit = some f ∧ (Any.map (g1.Data.getD [])).follow p = some (.float f))) ∧
    (∀ n : Int, -2 ^ 63 ≤ n → n < 2 ^ 63 → parseInt64 (toString n) = some n) ∧
    (∀ (s : String) (n : Int), parseInt64 s = some n →
      (-2 ^ 63 ≤ n ∧ n < 2 ^ 63) ∧
        ∀ c ∈ s.toList, c = '+' ∨ c = '-' ∨ ('0' ≤ c ∧ c ≤ '9')) := by
  refine ⟨?_, ?_, parseInt64_toString, parseInt64_some⟩
  · intro hok
    obtain ⟨v, hv⟩ := translateObject_total pf (.map m) hok
    simp only [UnmarshalJSON, Except.bind, decodeIntoMap, hv]
    simp only [translateObject] at hv
    cases ht : translateEntries pf m with
    | error e => simp [ht] at hv
    | ok m1 =>
      simp only [ht, Except.ok.injEq] at hv
      subst hv
      simp only []
      split_ifs <;> exact ⟨_, rfl⟩
  · intro g1 p lit h hlit
    simp only [UnmarshalJSON, Except.bind, decodeIntoMap] at h
    cases ht : translateObject pf (.map m) with
    | error e => simp [ht] at h
    | ok v =>
      obtain ⟨w, hw, htw⟩ := translateObject_follow pf p (.map m) v (.number lit) ht hlit
      have hv := ht
      simp only [translateObject] at hv
      cases hte : translateEntries pf m with
      | error e => simp [hte] at hv
      | ok m1 =>
        simp only [hte, Except.ok.injEq] at hv
        subst hv
        simp only [ht] at h
        -- the path is not empty, so the decoded map has an entry
        have hne : m1.length > 0 := by
          cases p with
          | nil => simp [Any.follow] at hlit
          | cons s p' =>
            cases m1 with
            | nil =>
              cases s <;> simp [Any.follow, GoMap.get] at hw
            | cons e rest => simp
        simp only [hne, if_true, Except.ok.injEq] at h
        subst h
        simp only [Option.getD_some]
        simp only [translateObject, translateNumber] at htw
        refine ⟨?_, ?_⟩
        · intro n hn
          simp only [hn, Except.ok.injEq] at htw
          rw [hw, htw]
        · intro hn
          simp only [hn] at htw
          cases hf : pf lit with
          | none => simp [hf] at htw
          | some f =>
            simp only [hf, Except.ok.injEq] at htw
            exact ⟨f, rfl, by rw [hw, htw]⟩

/-- C8 (witness): in a document with `42`, `3.14` and, two levels down,
`9223372036854775808`, the first is stored as the integer 42 and the last as a
float. -/
theorem UnmarshalJSON_numbers_witness :
    (Any.map [("count", .int 42), ("ratio", .float ⟨"3.14"⟩),
        ("deep", .seq [.map [("big", .float ⟨"9223372036854775808"⟩)]])]).follow
          [.key "count"] = some (.int 42) ∧
    ∃ f, exampleParseFloat "9223372036854775808" = some f ∧
      (Any.map [("count", .int 42), ("ratio", .float ⟨"3.14"⟩),
        ("deep", .seq [.map [("big", .float ⟨"9223372036854775808"⟩)]])]).follow
          [.key "deep", .idx 0, .key "big"] = some (.float f) :=
  ⟨((UnmarshalJSON_numbers exampleParseFloat ⟨none⟩
      [("count", .number "42"), ("ratio", .number "3.14"),
        ("deep", .seq [.map [("big", .number "9223372036854775808")]])]).2.1
      ⟨some [("count", .int 42), ("ratio", .float ⟨"3.14"⟩),
        ("deep", .seq [.map [("big", .float ⟨"9223372036854775808"⟩)]])]⟩
      [.key "count"] "42" (by rfl) (by rfl)).1 42 (by decide),
   ((UnmarshalJSON_numbers exampleParseFloat ⟨none⟩
      [("count", .number "42"), ("ratio", .number "3.14"),
        ("deep", .seq [.map [("big", .number "9223372036854775808")]])]).2.1
      ⟨some [("count", .int 42), ("ratio", .float ⟨"3.14"⟩),
        ("deep", .seq [.map [("big", .float ⟨"9223372036854775808"⟩)]])]⟩
      [.key "deep", .idx 0, .key "big"] "9223372036854775808" (by rfl) (by rfl)).2 (by decide)⟩

/-- C9 (counterexample): the mapping with the float one under `x` is a
representable value, yet encoding and decoding it returns the integer one
under `x`, whatever the float parser. -/
theorem Mapify_roundtrip_counterexample :
    (∀ pf, Mapify pf (some [("x", .float ⟨"1"⟩)]) = .ok ⟨some [("x", .int 1)]⟩) ∧
      GenericMap.mk (some [("x", Any.int 1)]) ≠ GenericMap.mk (some [("x", Any.float ⟨"1"⟩)]) := by
  refine ⟨fun pf => rfl, ?_⟩
  intro h
  simp at h

/-- C9 (amended): decoding the encoding of a value returns the value itself
(the absent value, nil `Data`, when its mapping is nil or empty) exactly when
the value is made, at every depth, of nulls, booleans, strings of valid UTF-8,
64-bit integers, finite floats whose printed text is not a 64-bit integer
literal and parses back to the same float, and non-nil sequences and mappings.
When the encoder accepts the value and the numbers of the encoding are
readable, `Mapify` returns a value, in which under every path a float whose
printed text is the 64-bit integer literal of `n` has become the integer `n`,
a nil slice or nil map has become null, a string that is not valid UTF-8 has
become the text written for it, and every value of the first kind is
unchanged.  A non-finite float anywhere makes `Mapify` fail. -/
theorem Mapify_roundtrip (pf : String → Option Float64) (v : GenericMap) :
    (Mapify pf v.Data = .ok (if (v.Data.getD []).length > 0 then v else { Data := none }) ↔
        StableEntries pf (v.Data.getD []) = true) ∧
      (∀ r, MarshalJSON v.Data = .ok r → NumbersOK pf r = true →
        ∃ g1, Mapify pf v.Data = .ok g1 ∧
          ∀ p x, (Any.map (v.Data.getD [])).follow p = some x →
            ∃ y, (Any.map (g1.Data.getD [])).follow p = some y ∧
              (∀ f n, x = .float f → parseInt64 f.text = some n → y = .int n) ∧
              (x = .nilSeq → y = .null) ∧ (x = .nilMap → y = .null) ∧
              (∀ bytes written, x = .rawStr bytes written → y = .str written) ∧
              (Stable pf x = true → y = x)) ∧
      (∀ p, (Any.map (v.Data.getD [])).follow p = some .nonFinite →
        ∃ e, Mapify pf v.Data = .error e) := by
  obtain ⟨data⟩ := v
  cases data with
  | none =>
    refine ⟨⟨fun _ => rfl, fun _ => rfl⟩, ?_, ?_⟩
    · intro r _ _
      refine ⟨{ Data := none }, rfl, ?_⟩
      intro p x hx
      cases p with
      | nil =>
        simp only [Option.getD_none, Any.follow, Option.some.injEq] at hx
        subst hx
        exact ⟨.map [], rfl, by simp, by simp, by simp, by simp, fun _ => rfl⟩
      | cons s p => cases s <;> simp [Any.follow, GoMap.get] at hx
    · intro p hx
      cases p with
      | nil => simp [Any.follow] at hx
      | cons s p => cases s <;> simp [Any.follow, GoMap.get] at hx
  | some m =>
    simp only [Option.getD_some]
    refine ⟨⟨?_, ?_⟩, ?_, ?_⟩
    · intro h
      rw [Mapify_some] at h
      cases h1 : marshalEntries m with
      | error e => simp [h1] at h
      | ok m1 =>
        simp only [h1] at h
        cases h2 : translateEntries pf m1 with
        | error e => simp [h2] at h
        | ok d1 =>
          simp only [h2] at h
          cases m with
          | nil => rfl
          | cons e rest =>
            have hd : d1 = e :: rest := by
              rw [if_pos (show (e :: rest).length > 0 by simp)] at h
              split_ifs at h with hlen
              · simpa using h
              · simp at h
            rw [hd] at h2
            exact stableEntries_of_roundtrip pf (e :: rest) m1 h1 h2
    · intro hs
      obtain ⟨m1, h1, h2, h3⟩ := marshalEntries_translate pf m hs
      rw [Mapify_some, h1]
      simp only [h2]
      split_ifs <;> rfl
    · intro r hr hn
      simp only [MarshalJSON, marshalValue] at hr
      cases h1 : marshalEntries m with
      | error e => simp [h1] at hr
      | ok m1 =>
        simp only [h1, Except.ok.injEq] at hr
        subst hr
        simp only [NumbersOK] at hn
        obtain ⟨g1, hg1, hfollow⟩ := Mapify_follow pf m m1 h1 hn
        refine ⟨g1, hg1, ?_⟩
        intro p x hx
        obtain ⟨r, y, hxr, hry, hy⟩ := hfollow p x hx
        refine ⟨y, hy, ?_, ?_, ?_, ?_, ?_⟩
        · intro f n hf hparse
          subst hf
          simp only [marshalValue, Except.ok.injEq] at hxr
          subst hxr
          simpa [translateObject, translateNumber, hparse] using hry.symm
        · intro hf
          subst hf
          simp only [marshalValue, Except.ok.injEq] at hxr
          subst hxr
          simpa [translateObject] using hry.symm
        · intro hf
          subst hf
          simp only [marshalValue, Except.ok.injEq] at hxr
          subst hxr
          simpa [translateObject] using hry.symm
        · intro bytes written hf
          subst hf
          simp only [marshalValue, Except.ok.injEq] at hxr
          subst hxr
          simpa [translateObject] using hry.symm
        · intro hst
          obtain ⟨r1, hr1, hr2⟩ := marshal_translate pf x hst
          rw [hxr, Except.ok.injEq] at hr1
          subst hr1
          rw [hry, Except.ok.injEq] at hr2
          exact hr2
    · intro p hx
      rw [Mapify_some]
      cases h1 : marshalEntries m with
      | error e => exact ⟨e, rfl⟩
      | ok m1 =>
        have hmv : marshalValue (.map m) = .ok (.map m1) := by simp [marshalValue, h1]
        obtain ⟨r1, _, hr1⟩ := marshalValue_follow p (.map m) (.map m1) .nonFinite hmv hx
        simp [marshalValue] at hr1

/-- C9 (witness): a mapping with an integer, a float, a sequence and an empty
nested mapping is returned as it is; in a mapping with the float two, a nil
slice and a string that is not valid UTF-8, the float comes back as the
integer two. -/
theorem Mapify_roundtrip_witness :
    Mapify exampleParseFloat (some [("count", .int 42), ("ratio", .float ⟨"3.14"⟩),
        ("tags", .seq [.str "a", .null, .bool true]), ("nested", .map [])]) =
      .ok ⟨some [("count", .int 42), ("ratio", .float ⟨"3.14"⟩),
        ("tags", .seq [.str "a", .null, .bool true]), ("nested", .map [])]⟩ ∧
    ∃ g1, Mapify exampleParseFloat (some [("n", .float ⟨"2"⟩), ("s", .nilSeq),
        ("t", .seq [.rawStr [255] "�"])]) = .ok g1 ∧
      ∃ y, (Any.map (g1.Data.getD [])).follow [.key "n"] = some y ∧ y = .int 2 :=
  ⟨(Mapify_roundtrip exampleParseFloat
      ⟨some [("count", .int 42), ("ratio", .float ⟨"3.14"⟩),
        ("tags", .seq [.str "a", .null, .bool true]), ("nested", .map [])]⟩).1.2 (by decide),
   let ⟨g1, h1, h2⟩ := (Mapify_roundtrip exampleParseFloat
      ⟨some [("n", .float ⟨"2"⟩), ("s", .nilSeq), ("t", .seq [.rawStr [255] "�"])]⟩).2.1
      _ rfl (by decide)
   let ⟨y, hy, hf, _⟩ := h2 [.key "n"] (.float ⟨"2"⟩) rfl
   ⟨g1, h1, y, hy, hf ⟨"2"⟩ 2 rfl (by decide)⟩⟩

/-! ### `getFragment` -/

/-- Helper: the inner loop returns the fragment of the first matching entry. -/
theorem getFragmentIn_eq_find (imageID : String) (l : List (String × ContainerData)) :
    getFragmentIn imageID l = (l.find? (fragmentMatch imageID)).map (·.2.AcornfileFragment) := by
  induction l with
  | nil => rfl
  | cons e rest ih =>
    obtain ⟨k, d⟩ := e
    by_cases h : d.Image = imageID ∧ d.AcornfileFragment ≠ ""
    · simp [getFragmentIn, List.find?_cons, fragmentMatch, h]
    · simp only [getFragmentIn, h, if_false, ih, List.find?_cons, fragmentMatch, decide_False]

/-- Helper: the inner loop returns nothing exactly when no entry matches. -/
theorem getFragmentIn_eq_none (imageID : String) (l : List (String × ContainerData)) :
    getFragmentIn imageID l = none ↔ ∀ e ∈ l, fragmentMatch imageID e = false := by
  rw [getFragmentIn_eq_find]
  simp [List.find?_eq_none]

/-- Helper: a fragment the inner loop returns is that of a matching entry. -/
theorem getFragmentIn_eq_some (imageID : String) (l : List (String × ContainerData))
    (f : String) (h : getFragmentIn imageID l = some f) :
    ∃ e ∈ l, fragmentMatch imageID e = true ∧ e.2.AcornfileFragment = f := by
  rw [getFragmentIn_eq_find] at h
  cases hfind : l.find? (fragmentMatch imageID) with
  | none => simp [hfind] at h
  | some e =>
    simp only [hfind, Option.map_some', Option.some.injEq] at h
    exact ⟨e, List.mem_of_find?_eq_some hfind, List.find?_some hfind, h⟩

/-- Helper: when the matching entries of a mapping agree on the fragment, the
inner loop returns the same for every iteration order. -/
theorem getFragmentIn_perm (imageID : String) (l1 l2 : List (String × ContainerData))
    (hp : l1.Perm l2)
    (hagree : ∀ e1 ∈ l1, ∀ e2 ∈ l1, fragmentMatch imageID e1 = true →
      fragmentMatch imageID e2 = true → e1.2.AcornfileFragment = e2.2.AcornfileFragment) :
    getFragmentIn imageID l2 = getFragmentIn imageID l1 := by
  cases h1 : getFragmentIn imageID l1 with
  | none =>
    rw [getFragmentIn_eq_none] at h1 ⊢
    intro e he
    exact h1 e (hp.mem_iff.mpr he)
  | some f =>
    obtain ⟨e, he, hm, hf⟩ := getFragmentIn_eq_some imageID l1 f h1
    cases h2 : getFragmentIn imageID l2 with
    | none =>
      rw [getFragmentIn_eq_none] at h2
      have := h2 e (hp.mem_iff.mp he)
      simp [hm] at this
    | some f2 =>
      obtain ⟨e2, he2, hm2, hf2⟩ := getFragmentIn_eq_some imageID l2 f2 h2
      have := hagree e he e2 (hp.mem_iff.mpr he2) hm hm2
      rw [← hf, ← hf2, this]

/-- C6 (counterexample): the containers `a` and `b` carry the same image with
the fragments `f1` and `f2`.  When the iteration visits `b` first `getFragment`
returns `f2`, not the `f1` of the ascending scan; when it visits `a` first, on
the same mapping, it returns `f1`. -/
theorem getFragment_order_counterexample :
    getFragment fragmentsBA "img" = "f2" ∧ getFragmentAscending fragmentsBA "img" = "f1" ∧
      getFragment fragmentsAB "img" = "f1" ∧
      fragmentsBA.Containers.Perm fragmentsAB.Containers := by
  refine ⟨by decide, by decide, by decide, ?_⟩
  exact List.Perm.swap _ _ _

/-- C6 (amended): `getFragment` returns the fragment of the first entry whose
image is the image ID and whose fragment is not empty, in the sequence of the
containers, then the functions, then the jobs, each as the map iteration visits
them, and the empty string when there is none; when in each of the three
mappings the matching entries agree on the fragment, the result is the same for
every iteration order, and is that of the scan in ascending name order. -/
theorem getFragment_first_match (d d1 : ImagesData) (imageID : String) :
    getFragment d imageID =
      (((d.Containers ++ d.Functions ++ d.Jobs).find? (fragmentMatch imageID)).map
        (·.2.AcornfileFragment)).getD "" ∧
    ((∀ m ∈ [d.Containers, d.Functions, d.Jobs], ∀ e1 ∈ m, ∀ e2 ∈ m,
        fragmentMatch imageID e1 = true → fragmentMatch imageID e2 = true →
          e1.2.AcornfileFragment = e2.2.AcornfileFragment) →
      (d.Containers.Perm d1.Containers → d.Functions.Perm d1.Functions →
        d.Jobs.Perm d1.Jobs → getFragment d1 imageID = getFragment d imageID) ∧
      getFragmentAscending d imageID = getFragment d imageID) := by
  refine ⟨?_, ?_⟩
  · simp only [getFragment, getFragmentOver, getFragmentIn_eq_find, List.find?_append]
    cases List.find? (fragmentMatch imageID) d.Containers <;>
      cases List.find? (fragmentMatch imageID) d.Functions <;>
      cases List.find? (fragmentMatch imageID) d.Jobs <;> rfl
  · intro hagree
    have hC := hagree d.Containers (by simp)
    have hF := hagree d.Functions (by simp)
    have hJ := hagree d.Jobs (by simp)
    refine ⟨?_, ?_⟩
    · intro pC pF pJ
      simp only [getFragment, getFragmentOver, getFragmentIn_perm imageID _ _ pC hC,
        getFragmentIn_perm imageID _ _ pF hF, getFragmentIn_perm imageID _ _ pJ hJ]
    · have eC := getFragmentIn_perm imageID _ _
        (List.perm_insertionSort (fun x y => strLE x.1 y.1) d.Containers).symm hC
      have eF := getFragmentIn_perm imageID _ _
        (List.perm_insertionSort (fun x y => strLE x.1 y.1) d.Functions).symm hF
      have eJ := getFragmentIn_perm imageID _ _
        (List.perm_insertionSort (fun x y => strLE x.1 y.1) d.Jobs).symm hJ
      simp only [getFragmentAscending, getFragment, getFragmentOver]
      rw [eC, eF, eJ]

/-- C6 (witness): in `fragmentsAgree` both entries with the image `img` carry
the fragment `f`, and the scan of the sorted record returns what the scan of
the record returns. -/
theorem getFragment_first_match_witness :
    getFragment fragmentsAgreeSorted "img" = getFragment fragmentsAgree "img" ∧
      getFragmentAscending fragmentsAgree "img" = getFragment fragmentsAgree "img" := by
  have hagree : ∀ m ∈ [fragmentsAgree.Containers, fragmentsAgree.Functions, fragmentsAgree.Jobs],
      ∀ e1 ∈ m, ∀ e2 ∈ m, fragmentMatch "img" e1 = true → fragmentMatch "img" e2 = true →
        e1.2.AcornfileFragment = e2.2.AcornfileFragment := by
    decide
  exact ⟨((getFragment_first_match fragmentsAgree fragmentsAgreeSorted "img").2 hagree).1
      (List.Perm.swap _ _ _) (List.Perm.refl _) (List.Perm.refl _),
    ((getFragment_first_match fragmentsAgree fragmentsAgreeSorted "img").2 hagree).2⟩

/-! ### `AppSpec`: the loops stop at a missing binding -/

/-- Helper: the assignment of image and build keeps the sidecars. -/
theorem setImageBuild_Sidecars (con : Container) (image : String)
    (build : AcornRuntime.Build) :
    (con.setImageBuild image build).Sidecars = con.Sidecars := by
  cases con
  rfl

/-- Helper: a workload loop writes only its own collection. -/
theorem resolveWorkloads_frame (c : Collaborators) (imagesData : ImagesData) (kind : Kind)
    (l : List (String × Container)) (spec spec1 : AppSpec)
    (h : resolveWorkloads c imagesData kind l spec = .ok spec1) :
    (∀ k, k ≠ kind → k.collection spec1 = k.collection spec) ∧
      spec1.Images = spec.Images ∧ spec1.Acorns = spec.Acorns ∧
      spec1.Services = spec.Services := by
  induction l generalizing spec with
  | nil =>
    simp only [resolveWorkloads, Except.ok.injEq] at h
    subst h
    exact ⟨fun _ _ => rfl, rfl, rfl, rfl⟩
  | cons x rest ih =>
    obtain ⟨containerName, conSpec⟩ := x
    simp only [resolveWorkloads] at h
    cases hl : c.lookup containerName spec imagesData with
    | none => simp [hl] at h
    | some image =>
      simp only [hl] at h
      cases ho : overlayFragment c conSpec imagesData image containerName with
      | error err => simp [ho] at h
      | ok con1 =>
        simp only [ho] at h
        cases hs : resolveSidecars c imagesData kind containerName spec
            (con1.setImageBuild (assignImage con1.Image con1.Build image).1
              (assignImage con1.Image con1.Build image).2).Sidecars
            (con1.setImageBuild (assignImage con1.Image con1.Build image).1
              (assignImage con1.Image con1.Build image).2) with
        | error err => simp [hs] at h
        | ok con2 =>
          simp only [hs] at h
          obtain ⟨h1, h2, h3, h4⟩ := ih _ h
          refine ⟨?_, ?_, ?_, ?_⟩
          · intro k hk
            rw [h1 k hk]
            cases kind <;> cases k <;> first | rfl | exact absurd rfl hk
          · rw [h2]; cases kind <;> rfl
          · rw [h3]; cases kind <;> rfl
          · rw [h4]; cases kind <;> rfl

/-- Helper: the image loop writes only the image definitions. -/
theorem resolveImages_frame (c : Collaborators) (imagesData : ImagesData)
    (l : List (String × Image)) (spec spec1 : AppSpec)
    (h : resolveImages c imagesData l spec = .ok spec1) :
    spec1.Acorns = spec.Acorns ∧ spec1.Services = spec.Services := by
  induction l generalizing spec with
  | nil =>
    simp only [resolveImages, Except.ok.injEq] at h
    subst h
    exact ⟨rfl, rfl⟩
  | cons x rest ih =>
    obtain ⟨imageName, imgSpec⟩ := x
    simp only [resolveImages] at h
    cases hl : c.lookup imageName spec imagesData with
    | none => simp [hl] at h
    | some image =>
      simp only [hl] at h
      obtain ⟨h1, h2⟩ := ih _ h
      exact ⟨h1, h2⟩

/-- Helper: the acorn loop leaves the services. -/
theorem resolveAcorns_frame (c : Collaborators) (imagesData : ImagesData)
    (l : List (String × Acorn)) (spec spec1 : AppSpec)
    (h : resolveAcorns c imagesData l spec = .ok spec1) :
    spec1.Services = spec.Services := by
  induction l generalizing spec with
  | nil =>
    simp only [resolveAcorns, Except.ok.injEq] at h
    subst h
    rfl
  | cons x rest ih =>
    obtain ⟨acornName, acornSpec⟩ := x
    simp only [resolveAcorns] at h
    cases hl : c.lookup acornName spec imagesData with
    | none => simp [hl] at h
    | some image =>
      simp only [hl] at h
      have h1 := ih _ h
      exact h1

/-! ### `AppSpec`: the visit, entry by entry -/

/-- Helper: the visits of two lists of entries, one after the other. -/
theorem resolveEntries_append (c : Collaborators) (imagesData : ImagesData)
    (l1 l2 : List Entry) (spec : AppSpec) :
    resolveEntries c imagesData (l1 ++ l2) spec =
      match resolveEntries c imagesData l1 spec with
      | .error err => .error err
      | .ok spec1 => resolveEntries c imagesData l2 spec1 := by
  induction l1 generalizing spec with
  | nil => rfl
  | cons x rest ih =>
    simp only [List.cons_append, resolveEntries]
    cases hx : resolveEntry c imagesData x spec with
    | error err => rfl
    | ok spec1 => exact ih spec1

/-- Helper: a workload loop visits its first entry, then the others. -/
theorem resolveWorkloads_cons (c : Collaborators) (imagesData : ImagesData) (kind : Kind)
    (name : String) (con : Container) (rest : List (String × Container)) (spec : AppSpec) :
    resolveWorkloads c imagesData kind ((name, con) :: rest) spec =
      match resolveWorkloads c imagesData kind [(name, con)] spec with
      | .error err => .error err
      | .ok spec1 => resolveWorkloads c imagesData kind rest spec1 := by
  simp only [resolveWorkloads]
  cases hl : c.lookup name spec imagesData with
  | none => rfl
  | some image =>
    simp only []
    cases ho : overlayFragment c con imagesData image name with
    | error err => rfl
    | ok con1 =>
      simp only []
      cases hs : resolveSidecars c imagesData kind name spec
          (con1.setImageBuild (assignImage con1.Image con1.Build image).1
            (assignImage con1.Image con1.Build image).2).Sidecars
          (con1.setImageBuild (assignImage con1.Image con1.Build image).1
            (assignImage con1.Image con1.Build image).2) with
      | error err => rfl
      | ok con2 => rfl

/-- Helper: the image loop visits its first entry, then the others. -/
theorem resolveImages_cons (c : Collaborators) (imagesData : ImagesData)
    (name : String) (img : Image) (rest : List (String × Image)) (spec : AppSpec) :
    resolveImages c imagesData ((name, img) :: rest) spec =
      match resolveImages c imagesData [(name, img)] spec with
      | .error err => .error err
      | .ok spec1 => resolveImages c imagesData rest spec1 := by
  simp only [resolveImages]
  cases hl : c.lookup name spec imagesData with
  | none => rfl
  | some image => rfl

/-- Helper: the loop of the nested applications visits its first entry, then
the others. -/
theorem resolveAcorns_cons (c : Collaborators) (imagesData : ImagesData)
    (name : String) (acorn : Acorn) (rest : List (String × Acorn)) (spec : AppSpec) :
    resolveAcorns c imagesData ((name, acorn) :: rest) spec =
      match resolveAcorns c imagesData [(name, acorn)] spec with
      | .error err => .error err
      | .ok spec1 => resolveAcorns c imagesData rest spec1 := by
  simp only [resolveAcorns]
  cases hl : c.lookup name spec imagesData with
  | none => rfl
  | some image => rfl

/-- Helper: the service loop visits its first entry, then the others. -/
theorem resolveServices_cons (c : Collaborators) (imagesData : ImagesData)
    (name : String) (svc : Service) (rest : List (String × Service)) (spec : AppSpec) :
    resolveServices c imagesData ((name, svc) :: rest) spec =
      match resolveServices c imagesData [(name, svc)] spec with
      | .error err => .error err
      | .ok spec1 => resolveServices c imagesData rest spec1 := by
  simp only [resolveServices]
  by_cases hd : svc.Image = "" ∧ svc.Build = none
  · simp only [hd, and_self, if_true]
  · simp only [hd, if_false]
    cases hl : c.lookup name spec imagesData with
    | none => rfl
    | some image => rfl

/-- Helper: a workload loop is the visit of its entries one after the other. -/
theorem resolveEntries_workloads (c : Collaborators) (imagesData : ImagesData) (kind : Kind)
    (l : List (String × Container)) (spec : AppSpec) :
    resolveEntries c imagesData (l.map (fun e => Entry.workload kind e.1 e.2)) spec =
      resolveWorkloads c imagesData kind l spec := by
  induction l generalizing spec with
  | nil => rfl
  | cons x rest ih =>
    obtain ⟨name, con⟩ := x
    rw [resolveWorkloads_cons]
    simp only [List.map_cons, resolveEntries, resolveEntry]
    cases h : resolveWorkloads c imagesData kind [(name, con)] spec with
    | error err => rfl
    | ok spec1 => exact ih spec1

/-- Helper: the image loop is the visit of its entries one after the other. -/
theorem resolveEntries_images (c : Collaborators) (imagesData : ImagesData)
    (l : List (String × Image)) (spec : AppSpec) :
    resolveEntries c imagesData (l.map (fun e => Entry.image e.1 e.2)) spec =
      resolveImages c imagesData l spec := by
  induction l generalizing spec with
  | nil => rfl
  | cons x rest ih =>
    obtain ⟨name, img⟩ := x
    rw [resolveImages_cons]
    simp only [List.map_cons, resolveEntries, resolveEntry]
    cases h : resolveImages c imagesData [(name, img)] spec with
    | error err => rfl
    | ok spec1 => exact ih spec1

/-- Helper: the loop of the nested applications is the visit of its entries one
after the other. -/
theorem resolveEntries_acorns (c : Collaborators) (imagesData : ImagesData)
    (l : List (String × Acorn)) (spec : AppSpec) :
    resolveEntries c imagesData (l.map (fun e => Entry.acorn e.1 e.2)) spec =
      resolveAcorns c imagesData l spec := by
  induction l generalizing spec with
  | nil => rfl
  | cons x rest ih =>
    obtain ⟨name, acorn⟩ := x
    rw [resolveAcorns_cons]
    simp only [List.map_cons, resolveEntries, resolveEntry]
    cases h : resolveAcorns c imagesData [(name, acorn)] spec with
    | error err => rfl
    | ok spec1 => exact ih spec1

/-- Helper: the service loop is the visit of its entries one after the other. -/
theorem resolveEntries_services (c : Collaborators) (imagesData : ImagesData)
    (l : List (String × Service)) (spec : AppSpec) :
    resolveEntries c imagesData (l.map (fun e => Entry.service e.1 e.2)) spec =
      resolveServices c imagesData l spec := by
  induction l generalizing spec with
  | nil => rfl
  | cons x rest ih =>
    obtain ⟨name, svc⟩ := x
    rw [resolveServices_cons]
    simp only [List.map_cons, resolveEntries, resolveEntry]
    cases h : resolveServices c imagesData [(name, svc)] spec with
    | error err => rfl
    | ok spec1 => exact ih spec1

/-- Helper: the six loops of `AppSpec()` are the visit, one after the other, of
the entries the decoded specification declares: no loop changes the collection
of a later loop. -/
theorem resolveAll_eq_resolveEntries (c : Collaborators) (imagesData : ImagesData)
    (spec : AppSpec) :
    resolveAll c imagesData spec = resolveEntries c imagesData (entries spec) spec := by
  simp only [entries, resolveEntries_append, resolveEntries_workloads, resolveEntries_images,
    resolveEntries_acorns, resolveEntries_services, resolveAll]
  cases h1 : resolveWorkloads c imagesData .container spec.Containers spec with
  | error err => rfl
  | ok s1 =>
    obtain ⟨f1, i1, a1, v1⟩ := resolveWorkloads_frame _ _ _ _ _ _ h1
    have hf1 : s1.Functions = spec.Functions := f1 .function (by decide)
    have hj1 : s1.Jobs = spec.Jobs := f1 .job (by decide)
    simp only [hf1]
    cases h2 : resolveWorkloads c imagesData .function spec.Functions s1 with
    | error err => rfl
    | ok s2 =>
      obtain ⟨f2, i2, a2, v2⟩ := resolveWorkloads_frame _ _ _ _ _ _ h2
      have hj2 : s2.Jobs = spec.Jobs := (f2 .job (by decide)).trans hj1
      simp only [hj2]
      cases h3 : resolveWorkloads c imagesData .job spec.Jobs s2 with
      | error err => rfl
      | ok s3 =>
        obtain ⟨f3, i3, a3, v3⟩ := resolveWorkloads_frame _ _ _ _ _ _ h3
        have hi3 : s3.Images = spec.Images := i3.trans (i2.trans i1)
        simp only [hi3]
        cases h4 : resolveImages c imagesData spec.Images s3 with
        | error err => rfl
        | ok s4 =>
          obtain ⟨a4, v4⟩ := resolveImages_frame _ _ _ _ _ h4
          have ha4 : s4.Acorns = spec.Acorns := a4.trans (a3.trans (a2.trans a1))
          simp only [ha4]
          cases h5 : resolveAcorns c imagesData spec.Acorns s4 with
          | error err => rfl
          | ok s5 =>
            have v5 := resolveAcorns_frame _ _ _ _ _ h5
            have hv5 : s5.Services = spec.Services :=
              v5.trans (v4.trans (v3.trans (v2.trans v1)))
            simp only [hv5]

/-- Helper: the visits of a list of entries fail exactly when the visit of one
entry fails after the visits before it succeeded. -/
theorem resolveEntries_error_iff (c : Collaborators) (imagesData : ImagesData)
    (l : List Entry) (spec : AppSpec) (e : Err) :
    resolveEntries c imagesData l spec = .error e ↔
      ∃ before x after s, l = before ++ x :: after ∧
        resolveEntries c imagesData before spec = .ok s ∧
        resolveEntry c imagesData x s = .error e := by
  constructor
  · intro h
    induction l generalizing spec with
    | nil => simp [resolveEntries] at h
    | cons x rest ih =>
      simp only [resolveEntries] at h
      cases hx : resolveEntry c imagesData x spec with
      | error err =>
        simp only [hx, Except.error.injEq] at h
        subst h
        exact ⟨[], x, rest, spec, rfl, rfl, hx⟩
      | ok spec1 =>
        simp only [hx] at h
        obtain ⟨before, y, after, s, hl, hb, hy⟩ := ih spec1 h
        refine ⟨x :: before, y, after, s, by simp [hl], ?_, hy⟩
        simp only [resolveEntries, hx]
        exact hb
  · rintro ⟨before, x, after, s, rfl, hb, hx⟩
    rw [resolveEntries_append, hb]
    simp only [resolveEntries, hx]

/-- Helper: the sidecar loop fails exactly at the first sidecar whose lookup
returns none, with the missing-binding message of that sidecar. -/
theorem resolveSidecars_error_iff (c : Collaborators) (imagesData : ImagesData) (kind : Kind)
    (containerName : String) (spec : AppSpec) (l : List (String × Container))
    (conSpec : Container) (e : Err) :
    resolveSidecars c imagesData kind containerName spec l conSpec = .error e ↔
      ∃ before sidecar sidecarSpec after, l = before ++ (sidecar, sidecarSpec) :: after ∧
        (∀ x ∈ GoMap.keys before,
          c.lookup (containerName ++ "." ++ x) spec imagesData ≠ none) ∧
        c.lookup (containerName ++ "." ++ sidecar) spec imagesData = none ∧
        e = "failed to find image for sidecar [" ++ sidecar ++ "] in " ++ kind.word ++ " ["
          ++ containerName ++ "] in Acornfile" ++ messageSuffix := by
  induction l generalizing conSpec with
  | nil => simp [resolveSidecars]
  | cons x rest ih =>
    obtain ⟨sidecarName, sidecarSpec⟩ := x
    simp only [resolveSidecars]
    cases hl : c.lookup (containerName ++ "." ++ sidecarName) spec imagesData with
    | none =>
      simp only [Except.error.injEq]
      constructor
      · intro h
        exact ⟨[], sidecarName, sidecarSpec, rest, rfl, by simp [GoMap.keys], hl, h.symm⟩
      · rintro ⟨before, sidecar, sc, after, hcons, hb, hn, he⟩
        cases before with
        | nil =>
          simp only [List.nil_append, List.cons.injEq, Prod.mk.injEq] at hcons
          obtain ⟨⟨rfl, rfl⟩, rfl⟩ := hcons
          exact he.symm
        | cons y before1 =>
          simp only [List.cons_append, List.cons.injEq] at hcons
          obtain ⟨rfl, rfl⟩ := hcons
          exact absurd hl (hb sidecarName (by simp [GoMap.keys]))
    | some image =>
      simp only []
      rw [ih]
      constructor
      · rintro ⟨before, sidecar, sc, after, rfl, hb, hn, he⟩
        refine ⟨(sidecarName, sidecarSpec) :: before, sidecar, sc, after, rfl, ?_, hn, he⟩
        intro x hx
        simp only [GoMap.keys, List.map_cons, List.mem_cons] at hx
        rcases hx with rfl | hx
        · rw [hl]
          simp
        · exact hb x hx
      · rintro ⟨before, sidecar, sc, after, hcons, hb, hn, he⟩
        cases before with
        | nil =>
          simp only [List.nil_append, List.cons.injEq, Prod.mk.injEq] at hcons
          obtain ⟨⟨rfl, rfl⟩, rfl⟩ := hcons
          rw [hl] at hn
          cases hn
        | cons y before1 =>
          simp only [List.cons_append, List.cons.injEq] at hcons
          obtain ⟨rfl, rfl⟩ := hcons
          refine ⟨before1, sidecar, sc, after, rfl, ?_, hn, he⟩
          intro x hx
          exact hb x (by simp only [GoMap.keys, List.map_cons, List.mem_cons]; exact Or.inr hx)

/-- Helper: the visit of an entry returns an error exactly when it fails in one
of the ways `EntryFails` lists, with that error. -/
theorem resolveEntry_error_iff (c : Collaborators) (imagesData : ImagesData) (x : Entry)
    (s : AppSpec) (e : Err) :
    resolveEntry c imagesData x s = .error e ↔ EntryFails c imagesData s x e := by
  cases x with
  | workload kind name con =>
    simp only [resolveEntry, resolveWorkloads]
    cases hl : c.lookup name s imagesData with
    | none =>
      simp only [Except.error.injEq]
      constructor
      · intro h
        subst h
        exact EntryFails.workload kind name con hl
      · intro h
        cases h with
        | workload _ _ _ h1 => rfl
        | overlay _ _ _ image _ h1 ho => rw [hl] at h1; cases h1
        | sidecar _ _ _ image con1 before sidecar sc after h1 ho hs hb hn =>
          rw [hl] at h1
          cases h1
    | some image =>
      simp only []
      cases ho : overlayFragment c con imagesData image name with
      | error err =>
        simp only [Except.error.injEq]
        constructor
        · intro h
          subst h
          exact EntryFails.overlay kind name con image err hl ho
        · intro h
          cases h with
          | workload _ _ _ h1 => rw [hl] at h1; cases h1
          | overlay _ _ _ image1 _ h1 ho1 =>
            rw [hl, Option.some.injEq] at h1
            subst h1
            rw [ho, Except.error.injEq] at ho1
            exact ho1
          | sidecar _ _ _ image1 con1 before sidecar sc after h1 ho1 hs hb hn =>
            rw [hl, Option.some.injEq] at h1
            subst h1
            rw [ho] at ho1
            cases ho1
      | ok con1 =>
        simp only []
        have hside := resolveSidecars_error_iff c imagesData kind name s
          (con1.setImageBuild (assignImage con1.Image con1.Build image).1
            (assignImage con1.Image con1.Build image).2).Sidecars
          (con1.setImageBuild (assignImage con1.Image con1.Build image).1
            (assignImage con1.Image con1.Build image).2) e
        rw [setImageBuild_Sidecars] at hside
        cases hs : resolveSidecars c imagesData kind name s
            (con1.setImageBuild (assignImage con1.Image con1.Build image).1
              (assignImage con1.Image con1.Build image).2).Sidecars
            (con1.setImageBuild (assignImage con1.Image con1.Build image).1
              (assignImage con1.Image con1.Build image).2) with
        | error err =>
          rw [setImageBuild_Sidecars] at hs
          rw [hs] at hside
          simp only [Except.error.injEq] at hside ⊢
          constructor
          · intro h
            obtain ⟨before, sidecar, sc, after, hcons, hb, hn, he⟩ := hside.mp h
            rw [he]
            exact EntryFails.sidecar kind name con image con1 before sidecar sc after hl ho
              hcons hb hn
          · intro h
            cases h with
            | workload _ _ _ h1 => rw [hl] at h1; cases h1
            | overlay _ _ _ image1 _ h1 ho1 =>
              rw [hl, Option.some.injEq] at h1
              subst h1
              rw [ho] at ho1
              cases ho1
            | sidecar _ _ _ image1 con2 before sidecar sc after h1 ho1 hs1 hb hn =>
              rw [hl, Option.some.injEq] at h1
              subst h1
              rw [ho, Except.ok.injEq] at ho1
              subst ho1
              exact hside.mpr ⟨before, sidecar, sc, after, hs1, hb, hn, rfl⟩
        | ok con2 =>
          rw [setImageBuild_Sidecars] at hs
          rw [hs] at hside
          simp only [resolveWorkloads]
          constructor
          · intro h
            cases h
          · intro h
            cases h with
            | workload _ _ _ h1 => rw [hl] at h1; cases h1
            | overlay _ _ _ image1 _ h1 ho1 =>
              rw [hl, Option.some.injEq] at h1
              subst h1
              rw [ho] at ho1
              cases ho1
            | sidecar _ _ _ image1 con3 before sidecar sc after h1 ho1 hs1 hb hn =>
              rw [hl, Option.some.injEq] at h1
              subst h1
              rw [ho, Except.ok.injEq] at ho1
              subst ho1
              have := hside.mpr ⟨before, sidecar, sc, after, hs1, hb, hn, rfl⟩
              cases this
  | image name img =>
    simp only [resolveEntry, resolveImages]
    cases hl : c.lookup name s imagesData with
    | none =>
      simp only [Except.error.injEq]
      constructor
      · intro h
        subst h
        exact EntryFails.image name img hl
      · intro h
        cases h
        rfl
    | some image =>
      simp only []
      constructor
      · intro h
        cases h
      · intro h
        cases h with
        | image _ _ h1 => rw [hl] at h1; cases h1
  | acorn name acorn =>
    simp only [resolveEntry, resolveAcorns]
    cases hl : c.lookup name s imagesData with
    | none =>
      simp only [Except.error.injEq]
      constructor
      · intro h
        subst h
        exact EntryFails.acorn name acorn hl
      · intro h
        cases h
        rfl
    | some image =>
      simp only []
      constructor
      · intro h
        cases h
      · intro h
        cases h with
        | acorn _ _ h1 => rw [hl] at h1; cases h1
  | service name svc =>
    simp only [resolveEntry, resolveServices]
    by_cases hd : svc.Image = "" ∧ svc.Build = none
    · simp only [hd, and_self, if_true]
      constructor
      · intro h
        cases h
      · intro h
        cases h with
        | service _ _ hdecl h1 =>
          rcases hdecl with h2 | h2
          · exact absurd hd.1 h2
          · exact absurd hd.2 h2
    · simp only [hd, if_false]
      have hdecl : svc.Image ≠ "" ∨ svc.Build ≠ none := by
        by_contra hcon
        apply hd
        constructor
        · by_contra h1
          exact hcon (Or.inl h1)
        · by_contra h1
          exact hcon (Or.inr h1)
      cases hl : c.lookup name s imagesData with
      | none =>
        simp only [Except.error.injEq]
        constructor
        · intro h
          subst h
          exact EntryFails.service name svc hdecl hl
        · intro h
          cases h
          rfl
      | some image =>
        simp only []
        constructor
        · intro h
          cases h
        · intro h
          cases h with
          | service _ _ _ h1 => rw [hl] at h1; cases h1

/-- Helper: an entry whose lookup returns none fails when it is visited. -/
theorem Unbound.fails (c : Collaborators) (imagesData : ImagesData) (s : AppSpec) (x : Entry)
    (h : Unbound c imagesData s x) : ∃ e, EntryFails c imagesData s x e := by
  cases h with
  | workload kind name con h => exact ⟨_, EntryFails.workload kind name con h⟩
  | image name img h => exact ⟨_, EntryFails.image name img h⟩
  | acorn name acorn h => exact ⟨_, EntryFails.acorn name acorn h⟩
  | service name svc hdecl h => exact ⟨_, EntryFails.service name svc hdecl h⟩
  | sidecar kind name con sidecar hkeep hl =>
    cases hp : c.lookup name s imagesData with
    | none => exact ⟨_, EntryFails.workload kind name con hp⟩
    | some image =>
      cases ho : overlayFragment c con imagesData image name with
      | error err => exact ⟨_, EntryFails.overlay kind name con image err hp ho⟩
      | ok con1 =>
        have hmem := hkeep image con1 hp ho
        have hside : ∃ e, resolveSidecars c imagesData kind name s con1.Sidecars con1 =
            .error e := by
          generalize con1.Sidecars = l at hmem
          generalize con1 = acc
          induction l generalizing acc with
          | nil => simp [GoMap.keys] at hmem
          | cons y rest ih =>
            obtain ⟨sn, sc⟩ := y
            simp only [resolveSidecars]
            cases hy : c.lookup (name ++ "." ++ sn) s imagesData with
            | none => exact ⟨_, rfl⟩
            | some simage =>
              simp only []
              simp only [GoMap.keys, List.map_cons, List.mem_cons] at hmem
              rcases hmem with rfl | hmem
              · rw [hl] at hy
                cases hy
              · exact ih hmem _
        obtain ⟨e, he⟩ := hside
        obtain ⟨before, sn, sc, after, hcons, hb, hn, hmsg⟩ :=
          (resolveSidecars_error_iff c imagesData kind name s con1.Sidecars con1 e).mp he
        exact ⟨_, EntryFails.sidecar kind name con image con1 before sn sc after hp ho hcons
          hb hn⟩

/-- Helper: the six loops return an error exactly when the resolution stops
with that error at an entry the specification declares. -/
theorem resolveAll_error_iff (c : Collaborators) (imagesData : ImagesData) (spec : AppSpec)
    (e : Err) :
    resolveAll c imagesData spec = .error e ↔
      ∃ before x, StopsAt c imagesData spec before x e := by
  rw [resolveAll_eq_resolveEntries, resolveEntries_error_iff]
  constructor
  · rintro ⟨before, x, after, s, hl, hb, hx⟩
    exact ⟨before, x, after, s, hl, hb, (resolveEntry_error_iff c imagesData x s e).mp hx⟩
  · rintro ⟨before, x, after, s, hl, hb, hx⟩
    exact ⟨before, x, after, s, hl, hb, (resolveEntry_error_iff c imagesData x s e).mpr hx⟩

/-- Helper: when an entry has no binding at the specification the visits before
it leave, the resolution stops at that entry or at one visited before it. -/
theorem resolveEntries_unbound (c : Collaborators) (imagesData : ImagesData) (spec : AppSpec)
    (before : List Entry) (x : Entry) (after : List Entry)
    (hl : entries spec = before ++ x :: after)
    (hun : ∀ s, resolveEntries c imagesData before spec = .ok s → Unbound c imagesData s x) :
    ∃ e before1 x1, StopsAt c imagesData spec before1 x1 e ∧
      ((before1 = before ∧ x1 = x) ∨ ∃ mid, before = before1 ++ x1 :: mid) := by
  cases hb : resolveEntries c imagesData before spec with
  | ok s =>
    obtain ⟨e, he⟩ := Unbound.fails c imagesData s x (hun s hb)
    exact ⟨e, before, x, ⟨after, s, hl, hb, he⟩, Or.inl ⟨rfl, rfl⟩⟩
  | error e =>
    obtain ⟨before1, x1, mid, s1, hcons, hb1, hx1⟩ :=
      (resolveEntries_error_iff c imagesData before spec e).mp hb
    refine ⟨e, before1, x1, ⟨mid ++ x :: after, s1, ?_, hb1,
      (resolveEntry_error_iff c imagesData x1 s1 e).mp hx1⟩, Or.inr ⟨mid, hcons⟩⟩
    rw [hl, hcons]
    simp

/-! ### Claims on `AppSpec` and `WatchFiles` -/

/-- C5 (counterexample): the containers `a` and `b` are declared and only `a`
has a binding, so the lookup for `b` returns none; the loop visits `a` first,
the overlay of the fragment of `a` fails, and the error `AppSpec` returns is
that of the overlay, not a missing-binding message. -/
theorem AppSpec_resolution_failure_counterexample :
    "b" ∈ GoMap.keys specAB.Containers ∧
    exampleCollaborators.lookup "b" specAB (imagesData definitionOnlyA) = none ∧
    definitionOnlyA.AppSpec exampleCollaborators =
      (none, some "aml: cannot evaluate the fragment") ∧
    ¬ MissingBinding exampleCollaborators (imagesData definitionOnlyA)
      "aml: cannot evaluate the fragment" := by
  refine ⟨by decide, by rfl, by rfl, ?_⟩
  intro h
  generalize he : ("aml: cannot evaluate the fragment" : Err) = e at h
  cases h with
  | workload word name spec hword hl =>
    have := congrArg (fun s : String => s.data.head?) he
    simp [String.data_append] at this
  | sidecar kind parent sidecar spec hl =>
    have := congrArg (fun s : String => s.data.head?) he
    simp [String.data_append] at this

/-- C5 (amended): when the source decodes and image data is present, `AppSpec`
returns no specification and the error `e` exactly when the resolution stops
with `e` at an entry the decoded specification declares: the entries visited
before it all resolve, and at the specification they leave either the lookup
made for the entry (for a service, one that declares an image or a build)
returns none and `e` is the missing-binding message with the kind and the name
of that entry, or the overlay of the fragment of that entry fails with `e`, or
`e` is the missing-binding message of the first sidecar of that entry whose
lookup under the compound name returns none.  A specification is returned only
when every declared entry resolves.  So when the lookup made for a declared
entry, or for a sidecar on the overlaid record of a declared entry, returns
none at the specification the entries visited before it leave, `AppSpec`
returns an error and no specification, and the resolution stops at that entry
or at one visited before it. -/
theorem AppSpec_resolution_failure_total (c : Collaborators) (a : AppDefinition)
    (spec : AppSpec) (hdec : c.decode a = .ok spec) (hdata : a.hasImageData = true) :
    (∀ e, a.AppSpec c = (none, some e) ↔
        ∃ before x, StopsAt c (imagesData a) spec before x e) ∧
      (∀ r, (a.AppSpec c).1 = some r →
        ∃ s, resolveEntries c (imagesData a) (entries spec) spec = .ok s ∧
          r = (c.addImplied s).1) ∧
      (∀ before x after, entries spec = before ++ x :: after →
        (∀ s, resolveEntries c (imagesData a) before spec = .ok s →
          Unbound c (imagesData a) s x) →
        ∃ e before1 x1, a.AppSpec c = (none, some e) ∧
          StopsAt c (imagesData a) spec before1 x1 e ∧
          ((before1 = before ∧ x1 = x) ∨ ∃ mid, before = before1 ++ x1 :: mid)) := by
  have happ : a.AppSpec c =
      match resolveAll c (imagesData a) spec with
      | .error err => (none, some err)
      | .ok s => (some (c.addImplied s).1, (c.addImplied s).2) := by
    simp [AppDefinition.AppSpec, hdec, hdata]
  have hfail : ∀ e, a.AppSpec c = (none, some e) ↔
      ∃ before x, StopsAt c (imagesData a) spec before x e := by
    intro e
    rw [← resolveAll_error_iff, happ]
    cases hr : resolveAll c (imagesData a) spec with
    | error err => simp
    | ok s => simp
  refine ⟨hfail, ?_, ?_⟩
  · intro r hr
    rw [happ] at hr
    rw [← resolveAll_eq_resolveEntries]
    cases hall : resolveAll c (imagesData a) spec with
    | error err => simp [hall] at hr
    | ok s =>
      simp only [hall, Option.some.injEq] at hr
      exact ⟨s, rfl, hr.symm⟩
  · intro before x after hl hun
    obtain ⟨e, before1, x1, hstop, hpos⟩ :=
      resolveEntries_unbound c (imagesData a) spec before x after hl hun
    exact ⟨e, before1, x1, (hfail e).mpr ⟨before1, x1, hstop⟩, hstop, hpos⟩

/-- C5 (witness): with the containers `a` and `b` declared and only `a` bound,
`AppSpec` returns no specification and the missing-binding message of the
container `b`; the resolution stops at `b` or before it. -/
theorem AppSpec_resolution_failure_total_witness :
    definitionPlainA.AppSpec exampleCollaborators =
      (none, some ("failed to find image for container [b] in Acornfile" ++ messageSuffix)) ∧
    ∃ e before1 x1, definitionPlainA.AppSpec exampleCollaborators = (none, some e) ∧
      StopsAt exampleCollaborators (imagesData definitionPlainA) specAB before1 x1 e ∧
      ((before1 = [Entry.workload .container "a" (.mk "nginx" none [])] ∧
          x1 = Entry.workload .container "b" (.mk "redis" none [])) ∨
        ∃ mid, [Entry.workload .container "a" (.mk "nginx" none [])] = before1 ++ x1 :: mid) :=
  ⟨((AppSpec_resolution_failure_total exampleCollaborators definitionPlainA specAB rfl rfl).1
      _).mpr
      ⟨[Entry.workload .container "a" (.mk "nginx" none [])],
        Entry.workload .container "b" (.mk "redis" none []), [], _, rfl, rfl,
        EntryFails.workload .container "b" (.mk "redis" none []) rfl⟩,
   (AppSpec_resolution_failure_total exampleCollaborators definitionPlainA specAB rfl rfl).2.2
      [Entry.workload .container "a" (.mk "nginx" none [])]
      (Entry.workload .container "b" (.mk "redis" none [])) [] rfl
      (fun _ _ => Unbound.workload .container "b" (.mk "redis" none []) rfl)⟩

/-- C10 (the code at the failing input): the document declares the nested
applications `broken`, whose source cannot be read, and `good`, whose source is
readable and valid.  When the iteration visits `broken` first, `WatchFiles`
returns no path at all, without an error; when it visits `good` first, it
returns the path of the source of `good`.  In general `addAcorns` returns at
the first entry whose source cannot be read, whatever entries follow. -/
theorem WatchFiles_broken_sibling :
    documentBrokenFirst.WatchFiles exampleCollaborators 2 "/app" = some (.ok []) ∧
    documentGoodFirst.WatchFiles exampleCollaborators 2 "/app" =
      some (.ok ["/app/good/Acornfile"]) ∧
    builderBrokenFirst.Acorns.Perm builderGoodFirst.Acorns ∧
    (∀ (c : Collaborators) (watch : AppDefinition → String → Option (Except Err (List String)))
      (cwd : String) (fileSet : GoMap Bool) (name : String) (b : AcornBuild) (err : Err)
      (rest : List (String × AcornBuilderSpec)),
      c.readFile (c.join [cwd, b.Acornfile]) = .error err →
        addAcorns c watch cwd fileSet ((name, ⟨some b⟩) :: rest) = some fileSet) := by
  refine ⟨by rfl, by rfl, List.Perm.swap _ _ _, ?_⟩
  intro c watch cwd fileSet name b err rest h
  simp [addAcorns, h]

/-! ### The builder methods -/

/-- Helper: a write at the slot after the first `n` leaves the first `n`. -/
theorem take_set_same {α : Type} (l : List α) (n : Nat) (x : α) :
    (l.set n x).take n = l.take n := by
  induction l generalizing n with
  | nil => simp
  | cons y ys ih =>
    cases n with
    | zero => simp
    | succ m => simp [ih]

/-- Helper: a write at slot `n` makes the first `n + 1` slots the first `n`
followed by the written value. -/
theorem take_succ_set {α : Type} (l : List α) (n : Nat) (x : α) (h : n < l.length) :
    (l.set n x).take (n + 1) = l.take n ++ [x] := by
  induction l generalizing n with
  | nil => simp at h
  | cons y ys ih =>
    cases n with
    | zero => simp
    | succ m =>
      simp only [List.length_cons, Nat.add_lt_add_iff_right] at h
      simp [ih m h]

/-- Helper: `append` returns the elements followed by the new one and leaves
the elements of the slice it was given. -/
theorem appendSlice_elems (spare : Nat → Nat) (mem : Arrays) (s : Slice) (x : ImagesData)
    (hwf : s.WF mem) :
    (appendSlice spare mem s x).2.elems (appendSlice spare mem s x).1 = s.elems mem ++ [x] ∧
      s.elems (appendSlice spare mem s x).1 = s.elems mem := by
  obtain ⟨array, len, cap⟩ := s
  cases array with
  | none =>
    simp only [Slice.WF] at hwf
    obtain ⟨h1, h2⟩ := hwf
    have h0 : len = 0 := h1
    subst h0
    simp [appendSlice, Slice.elems]
  | some addr =>
    simp only [Slice.WF] at hwf
    obtain ⟨h1, h2, h3⟩ := hwf
    have harr : mem[addr]? = some mem[addr] := List.getElem?_eq_getElem h3
    simp only [harr, Option.getD_some] at h2
    by_cases hcap : len < cap
    · have hlen : len < mem[addr].length := by omega
      simp only [appendSlice, hcap, if_true, Slice.elems, harr, Option.getD_some,
        List.getElem?_set_self h3, take_succ_set _ _ _ hlen, take_set_same, and_self]
    · have hlen : len ≤ mem[addr].length := by omega
      have hne : mem.length ≠ addr := by omega
      simp only [appendSlice, hcap, if_false, Slice.elems, harr, Option.getD_some,
        List.getElem?_append_left h3, and_true]
      simp only [List.getElem?_concat_length, Option.getD_some]
      rw [List.append_assoc, List.take_append_eq_append_take]
      simp [List.length_take, Nat.min_eq_left hlen]

/-- C12: `WithImageData` returns a definition whose layer list is the
receiver's followed by the new layer, whose `hasImageData` is true and whose
source bytes, args and profiles are the receiver's; in memory, where `append`
may write into the backing array the receiver shares, the returned struct
stands for that definition and the receiver stands after the call for the same
layers, flag, bytes, args and profiles as before. -/
theorem WithImageData_functional_update (a : AppDefinition) (l : ImagesData)
    (spare : Nat → Nat) (mem : Arrays) (m : AppDefinitionMem) :
    ((a.WithImageData l).imageDatas = a.imageDatas ++ [l] ∧
      (a.WithImageData l).hasImageData = true ∧
      (a.WithImageData l).data = a.data ∧
      (a.WithImageData l).args = a.args ∧
      (a.WithImageData l).profiles = a.profiles) ∧
    (m.imageDatas.WF mem →
      (m.WithImageData spare mem l).2.view (m.WithImageData spare mem l).1 =
          (m.view mem).WithImageData l ∧
        m.view (m.WithImageData spare mem l).1 = m.view mem) := by
  refine ⟨⟨rfl, rfl, rfl, rfl, rfl⟩, ?_⟩
  intro hwf
  obtain ⟨h1, h2⟩ := appendSlice_elems spare mem m.imageDatas l hwf
  refine ⟨?_, ?_⟩
  · simp only [AppDefinitionMem.WithImageData, AppDefinitionMem.clone, AppDefinitionMem.view,
      AppDefinition.WithImageData, AppDefinition.clone, h1]
  · simp only [AppDefinitionMem.WithImageData, AppDefinitionMem.clone, AppDefinitionMem.view, h2]

/-- C12 (witness): the receiver holds the layer `layerA` in a backing array
with a spare slot; `WithImageData` writes `layerB` into that slot, the result
has the layers `layerA, layerB` and the receiver still has the layer `layerA`. -/
theorem WithImageData_functional_update_witness :
    ((AppDefinitionMem.mk [] ⟨some 0, 1, 2⟩ true none []).WithImageData (fun _ => 0)
        [[layerA, ImagesData.zero]] layerB).2.view
      ((AppDefinitionMem.mk [] ⟨some 0, 1, 2⟩ true none []).WithImageData (fun _ => 0)
        [[layerA, ImagesData.zero]] layerB).1 =
      ((AppDefinitionMem.mk [] ⟨some 0, 1, 2⟩ true none []).view
        [[layerA, ImagesData.zero]]).WithImageData layerB ∧
    (AppDefinitionMem.mk [] ⟨some 0, 1, 2⟩ true none []).view
      ((AppDefinitionMem.mk [] ⟨some 0, 1, 2⟩ true none []).WithImageData (fun _ => 0)
        [[layerA, ImagesData.zero]] layerB).1 =
      (AppDefinitionMem.mk [] ⟨some 0, 1, 2⟩ true none []).view [[layerA, ImagesData.zero]] :=
  (WithImageData_functional_update (AppDefinition.mk [] [] false none []) layerB (fun _ => 0)
    [[layerA, ImagesData.zero]] (AppDefinitionMem.mk [] ⟨some 0, 1, 2⟩ true none [])).2
    (by decide)

/-- C17: along every sequence of `WithImageData`, `WithArgs` and
`ClearImageData` from a freshly created definition, `hasImageData` is true
exactly when the layer list is not empty; so `ClearImageData` returns the
aggregate exactly when there are layers, and the definition it returns has no
layers, `hasImageData` false, and the source bytes, args and profiles of the
receiver. -/
theorem Reachable_hasImageData (a : AppDefinition) (h : Reachable a) :
    (a.hasImageData = true ↔ a.imageDatas ≠ []) ∧
    a.ClearImageData.2 = (if a.imageDatas ≠ [] then some (imagesData a) else none) ∧
    a.ClearImageData.1 =
      { data := a.data, imageDatas := [], hasImageData := false, args := a.args,
        profiles := a.profiles } := by
  have hinv : a.hasImageData = true ↔ a.imageDatas ≠ [] := by
    induction h with
    | fresh data => simp
    | withImageData a l _ _ => simp [AppDefinition.WithImageData, AppDefinition.clone]
    | withArgs a args profiles _ ih =>
      simpa [AppDefinition.WithArgs, AppDefinition.clone] using ih
    | clearImageData a _ _ => simp [AppDefinition.ClearImageData, AppDefinition.clone]
  refine ⟨hinv, ?_, rfl⟩
  simp only [AppDefinition.ClearImageData]
  by_cases hl : a.imageDatas = []
  · have hf : a.hasImageData = false := by
      cases hb : a.hasImageData with
      | false => rfl
      | true => exact absurd hl (hinv.mp hb)
    simp [hl, hf]
  · simp [hl, hinv.mpr hl]

/-- C17 (witness): a fresh definition given the layers `layerA` and `layerB`
and then arguments has `hasImageData` true and a non-empty layer list. -/
theorem Reachable_hasImageData_witness :
    ((((AppDefinition.mk [] [] false none []).WithImageData layerA).WithImageData
        layerB).WithArgs none ["dev"]).hasImageData = true ↔
      ((((AppDefinition.mk [] [] false none []).WithImageData layerA).WithImageData
        layerB).WithArgs none ["dev"]).imageDatas ≠ [] :=
  (Reachable_hasImageData _
    (Reachable.withArgs _ none ["dev"]
      (Reachable.withImageData _ layerB
        (Reachable.withImageData _ layerA (Reachable.fresh []))))).1

/-! ### `AppSpec`: what the loops store -/

/-- Helper: the fields of a record after a sidecar is written. -/
theorem setSidecar_fields (con : Container) (name : String) (sidecar : Container) :
    (con.setSidecar name sidecar).Image = con.Image ∧
      (con.setSidecar name sidecar).Build = con.Build ∧
      (con.setSidecar name sidecar).Sidecars = GoMap.set con.Sidecars name sidecar := by
  cases con
  exact ⟨rfl, rfl, rfl⟩

/-- Helper: the sidecar loop keeps image and build of the parent and the
sidecars it does not visit, and stores for every sidecar it visits the result
of `assignImage` on that sidecar's own image and build. -/
theorem resolveSidecars_ok (c : Collaborators) (imagesData : ImagesData) (kind : Kind)
    (containerName : String) (spec : AppSpec) (l : List (String × Container))
    (conSpec con2 : Container)
    (h : resolveSidecars c imagesData kind containerName spec l conSpec = .ok con2) :
    con2.Image = conSpec.Image ∧ con2.Build = conSpec.Build ∧
    (∀ s, s ∉ GoMap.keys l → GoMap.get con2.Sidecars s = GoMap.get conSpec.Sidecars s) ∧
    ((GoMap.keys l).Nodup → ∀ s sc, (s, sc) ∈ l →
      ∃ image, c.lookup (containerName ++ "." ++ s) spec imagesData = some image ∧
        GoMap.get con2.Sidecars s =
          some (sc.setImageBuild (assignImage sc.Image sc.Build image).1
            (assignImage sc.Image sc.Build image).2)) := by
  induction l generalizing conSpec with
  | nil =>
    simp only [resolveSidecars, Except.ok.injEq] at h
    subst h
    exact ⟨rfl, rfl, fun _ _ => rfl, fun _ s sc hm => by simp at hm⟩
  | cons x rest ih =>
    obtain ⟨sidecarName, sidecarSpec⟩ := x
    simp only [resolveSidecars] at h
    cases hl : c.lookup (containerName ++ "." ++ sidecarName) spec imagesData with
    | none => simp [hl] at h
    | some image =>
      simp only [hl] at h
      obtain ⟨h1, h2, h3, h4⟩ := ih _ h
      obtain ⟨f1, f2, f3⟩ := setSidecar_fields conSpec sidecarName
        (sidecarSpec.setImageBuild (assignImage sidecarSpec.Image sidecarSpec.Build image).1
          (assignImage sidecarSpec.Image sidecarSpec.Build image).2)
      refine ⟨h1.trans f1, h2.trans f2, ?_, ?_⟩
      · intro s hs
        simp only [GoMap.keys, List.map_cons, List.mem_cons, not_or] at hs
        rw [h3 s hs.2, f3, GoMap.get_set]
        simp [Ne.symm hs.1]
      · intro hnd s sc hm
        simp only [GoMap.keys, List.map_cons, List.nodup_cons] at hnd
        rcases List.mem_cons.mp hm with heq | hm
        · simp only [Prod.mk.injEq] at heq
          obtain ⟨rfl, rfl⟩ := heq
          refine ⟨image, hl, ?_⟩
          rw [h3 s hnd.1, f3, GoMap.get_set]
          simp
        · exact h4 hnd.2 s sc hm

/-- Helper: the sidecar loop returns when every sidecar it visits has a
binding. -/
theorem resolveSidecars_returns (c : Collaborators) (imagesData : ImagesData) (kind : Kind)
    (containerName : String) (spec : AppSpec) (l : List (String × Container))
    (conSpec : Container)
    (hall : ∀ s ∈ GoMap.keys l,
      (c.lookup (containerName ++ "." ++ s) spec imagesData).isSome = true) :
    ∃ con2, resolveSidecars c imagesData kind containerName spec l conSpec = .ok con2 := by
  induction l generalizing conSpec with
  | nil => exact ⟨conSpec, rfl⟩
  | cons x rest ih =>
    obtain ⟨sidecarName, sidecarSpec⟩ := x
    simp only [resolveSidecars]
    have h0 := hall sidecarName (by simp [GoMap.keys])
    cases hl : c.lookup (containerName ++ "." ++ sidecarName) spec imagesData with
    | none => simp [hl] at h0
    | some image =>
      simp only []
      exact ih _ (fun s hs => hall s (by
        simp only [GoMap.keys, List.map_cons, List.mem_cons]
        exact Or.inr hs))

/-- Helper: the collection of a kind after a store. -/
theorem Kind.collection_store (spec : AppSpec) (kind : Kind) (name : String)
    (conSpec : Container) :
    kind.collection (kind.store spec name conSpec) =
      GoMap.set (kind.collection spec) name conSpec := by
  cases kind <;> rfl

/-- Helper: a workload loop leaves the entries of its collection that it does
not visit. -/
theorem resolveWorkloads_other (c : Collaborators) (imagesData : ImagesData) (kind : Kind)
    (l : List (String × Container)) (spec spec1 : AppSpec)
    (h : resolveWorkloads c imagesData kind l spec = .ok spec1) (p : String)
    (hp : p ∉ GoMap.keys l) :
    GoMap.get (kind.collection spec1) p = GoMap.get (kind.collection spec) p := by
  induction l generalizing spec with
  | nil =>
    simp only [resolveWorkloads, Except.ok.injEq] at h
    subst h
    rfl
  | cons x rest ih =>
    obtain ⟨containerName, conSpec⟩ := x
    simp only [GoMap.keys, List.map_cons, List.mem_cons, not_or] at hp
    simp only [resolveWorkloads] at h
    cases hl : c.lookup containerName spec imagesData with
    | none => simp [hl] at h
    | some image =>
      simp only [hl] at h
      cases ho : overlayFragment c conSpec imagesData image containerName with
      | error err => simp [ho] at h
      | ok con1 =>
        simp only [ho] at h
        cases hs : resolveSidecars c imagesData kind containerName spec
            (con1.setImageBuild (assignImage con1.Image con1.Build image).1
              (assignImage con1.Image con1.Build image).2).Sidecars
            (con1.setImageBuild (assignImage con1.Image con1.Build image).1
              (assignImage con1.Image con1.Build image).2) with
        | error err => simp [hs] at h
        | ok con2 =>
          simp only [hs] at h
          rw [ih _ h hp.2, Kind.collection_store, GoMap.get_set]
          simp [Ne.symm hp.1]

/-- Helper: for every entry a workload loop visits it stores the record that
the lookup, the overlay of the workload's own fragment, `assignImage` and the
sidecar loop make of it. -/
theorem resolveWorkloads_entry (c : Collaborators) (imagesData : ImagesData) (kind : Kind)
    (l : List (String × Container)) (spec spec1 : AppSpec)
    (h : resolveWorkloads c imagesData kind l spec = .ok spec1)
    (hnd : (GoMap.keys l).Nodup) (p : String) (con : Container) (hmem : (p, con) ∈ l) :
    ∃ s image con1 con2, c.lookup p s imagesData = some image ∧
      overlayFragment c con imagesData image p = .ok con1 ∧
      resolveSidecars c imagesData kind p s con1.Sidecars
        (con1.setImageBuild (assignImage con1.Image con1.Build image).1
          (assignImage con1.Image con1.Build image).2) = .ok con2 ∧
      GoMap.get (kind.collection spec1) p = some con2 := by
  induction l generalizing spec with
  | nil => simp at hmem
  | cons x rest ih =>
    obtain ⟨containerName, conSpec⟩ := x
    simp only [GoMap.keys, List.map_cons, List.nodup_cons] at hnd
    simp only [resolveWorkloads] at h
    cases hl : c.lookup containerName spec imagesData with
    | none => simp [hl] at h
    | some image =>
      simp only [hl] at h
      cases ho : overlayFragment c conSpec imagesData image containerName with
      | error err => simp [ho] at h
      | ok con1 =>
        simp only [ho] at h
        cases hs : resolveSidecars c imagesData kind containerName spec
            (con1.setImageBuild (assignImage con1.Image con1.Build image).1
              (assignImage con1.Image con1.Build image).2).Sidecars
            (con1.setImageBuild (assignImage con1.Image con1.Build image).1
              (assignImage con1.Image con1.Build image).2) with
        | error err => simp [hs] at h
        | ok con2 =>
          simp only [hs] at h
          rcases List.mem_cons.mp hmem with heq | hmem
          · simp only [Prod.mk.injEq] at heq
            obtain ⟨rfl, rfl⟩ := heq
            rw [setImageBuild_Sidecars] at hs
            refine ⟨spec, image, con1, con2, hl, ho, hs, ?_⟩
            rw [resolveWorkloads_other c imagesData kind rest _ spec1 h p hnd.1,
              Kind.collection_store, GoMap.get_set]
            simp
          · exact ih _ h hnd.2 hmem

/-- Helper: the image loop leaves the container-style collections. -/
theorem resolveImages_frame_kinds (c : Collaborators) (imagesData : ImagesData)
    (l : List (String × Image)) (spec spec1 : AppSpec)
    (h : resolveImages c imagesData l spec = .ok spec1) (k : Kind) :
    k.collection spec1 = k.collection spec := by
  induction l generalizing spec with
  | nil =>
    simp only [resolveImages, Except.ok.injEq] at h
    subst h
    rfl
  | cons x rest ih =>
    obtain ⟨imageName, imgSpec⟩ := x
    simp only [resolveImages] at h
    cases hl : c.lookup imageName spec imagesData with
    | none => simp [hl] at h
    | some image =>
      simp only [hl] at h
      have h1 := ih _ h
      rw [h1]
      cases k <;> rfl

/-- Helper: the acorn loop leaves the container-style collections. -/
theorem resolveAcorns_frame_kinds (c : Collaborators) (imagesData : ImagesData)
    (l : List (String × Acorn)) (spec spec1 : AppSpec)
    (h : resolveAcorns c imagesData l spec = .ok spec1) (k : Kind) :
    k.collection spec1 = k.collection spec := by
  induction l generalizing spec with
  | nil =>
    simp only [resolveAcorns, Except.ok.injEq] at h
    subst h
    rfl
  | cons x rest ih =>
    obtain ⟨acornName, acornSpec⟩ := x
    simp only [resolveAcorns] at h
    cases hl : c.lookup acornName spec imagesData with
    | none => simp [hl] at h
    | some image =>
      simp only [hl] at h
      have h1 := ih _ h
      rw [h1]
      cases k <;> rfl

/-- Helper: the service loop leaves the container-style collections. -/
theorem resolveServices_frame_kinds (c : Collaborators) (imagesData : ImagesData)
    (l : List (String × Service)) (spec spec1 : AppSpec)
    (h : resolveServices c imagesData l spec = .ok spec1) (k : Kind) :
    k.collection spec1 = k.collection spec := by
  induction l generalizing spec with
  | nil =>
    simp only [resolveServices, Except.ok.injEq] at h
    subst h
    rfl
  | cons x rest ih =>
    obtain ⟨serviceName, serviceSpec⟩ := x
    simp only [resolveServices] at h
    split_ifs at h with hskip
    · exact ih _ h
    · cases hl : c.lookup serviceName spec imagesData with
      | none => simp [hl] at h
      | some image =>
        simp only [hl] at h
        have h1 := ih _ h
        rw [h1]
        cases k <;> rfl

/-- Helper: image and build of a record after the assignment. -/
theorem setImageBuild_fields (con : Container) (image : String) (build : AcornRuntime.Build) :
    (con.setImageBuild image build).Image = image ∧
      (con.setImageBuild image build).Build = some build := by
  cases con
  exact ⟨rfl, rfl⟩

/-- Helper: what the six loops leave in a container-style collection for an
entry of the decoded specification. -/
theorem resolveAll_entry (c : Collaborators) (imagesData : ImagesData) (spec spec1 : AppSpec)
    (h : resolveAll c imagesData spec = .ok spec1) (kind : Kind)
    (hnd : (GoMap.keys (kind.collection spec)).Nodup) (p : String) (con : Container)
    (hmem : (p, con) ∈ kind.collection spec) :
    ∃ s image con1 con2, c.lookup p s imagesData = some image ∧
      overlayFragment c con imagesData image p = .ok con1 ∧
      resolveSidecars c imagesData kind p s con1.Sidecars
        (con1.setImageBuild (assignImage con1.Image con1.Build image).1
          (assignImage con1.Image con1.Build image).2) = .ok con2 ∧
      GoMap.get (kind.collection spec1) p = some con2 := by
  unfold resolveAll at h
  cases h1 : resolveWorkloads c imagesData .container spec.Containers spec with
  | error e1 => simp [h1] at h
  | ok s1 =>
    simp only [h1] at h
    cases h2 : resolveWorkloads c imagesData .function s1.Functions s1 with
    | error e2 => simp [h2] at h
    | ok s2 =>
      simp only [h2] at h
      cases h3 : resolveWorkloads c imagesData .job s2.Jobs s2 with
      | error e3 => simp [h3] at h
      | ok s3 =>
        simp only [h3] at h
        cases h4 : resolveImages c imagesData s3.Images s3 with
        | error e4 => simp [h4] at h
        | ok s4 =>
          simp only [h4] at h
          cases h5 : resolveAcorns c imagesData s4.Acorns s4 with
          | error e5 => simp [h5] at h
          | ok s5 =>
            simp only [h5] at h
            have f1 := (resolveWorkloads_frame _ _ _ _ _ _ h1).1
            have f2 := (resolveWorkloads_frame _ _ _ _ _ _ h2).1
            have f3 := (resolveWorkloads_frame _ _ _ _ _ _ h3).1
            have f4 := resolveImages_frame_kinds _ _ _ _ _ h4
            have f5 := resolveAcorns_frame_kinds _ _ _ _ _ h5
            have f6 := resolveServices_frame_kinds _ _ _ _ _ h
            cases kind with
            | container =>
              obtain ⟨s, image, con1, con2, e1, e2, e3, e4⟩ :=
                resolveWorkloads_entry c imagesData .container spec.Containers spec s1 h1
                  hnd p con hmem
              refine ⟨s, image, con1, con2, e1, e2, e3, ?_⟩
              rw [f6, f5, f4, f3 .container (by decide), f2 .container (by decide)]
              exact e4
            | function =>
              have e0 : s1.Functions = spec.Functions := f1 .function (by decide)
              obtain ⟨s, image, con1, con2, e1, e2, e3, e4⟩ :=
                resolveWorkloads_entry c imagesData .function s1.Functions s1 s2 h2
                  (by rw [e0]; exact hnd) p con (by rw [e0]; exact hmem)
              refine ⟨s, image, con1, con2, e1, e2, e3, ?_⟩
              rw [f6, f5, f4, f3 .function (by decide)]
              exact e4
            | job =>
              have e0 : s2.Jobs = spec.Jobs :=
                (f2 .job (by decide)).trans (f1 .job (by decide))
              obtain ⟨s, image, con1, con2, e1, e2, e3, e4⟩ :=
                resolveWorkloads_entry c imagesData .job s2.Jobs s2 s3 h3
                  (by rw [e0]; exact hnd) p con (by rw [e0]; exact hmem)
              refine ⟨s, image, con1, con2, e1, e2, e3, ?_⟩
              rw [f6, f5, f4]
              exact e4

/-- C16 (counterexample): the sidecar `s` of the container `p` is bound to an
image that carries the fragment `from-fragment`, and the overlay of that
fragment onto the sidecar record would replace its image, so that `assignImage`
would record `from-fragment` as base image; `AppSpec` stores the sidecar with
the base image `busybox` it declared: the fragment is not overlaid. -/
theorem AppSpec_sidecar_counterexample :
    definitionSidecar.AppSpec sidecarCollaborators =
      (some { Containers :=
                [("p", .mk "sha-p" (some ⟨".", "Dockerfile", "nginx"⟩)
                  [("s", .mk "sha-s" (some ⟨".", "Dockerfile", "busybox"⟩) [])])]
              Functions := [], Jobs := [], Images := [], Acorns := [], Services := [] },
        none) ∧
    getFragment (imagesData definitionSidecar) "sha-s" = "from-fragment" ∧
    overlayFragment sidecarCollaborators (.mk "busybox" none []) (imagesData definitionSidecar)
      "sha-s" "p.s" = .ok (.mk "from-fragment" none []) ∧
    (assignImage "from-fragment" none "sha-s").2 = ⟨".", "Dockerfile", "from-fragment"⟩ := by
  refine ⟨by rfl, by decide, by rfl, by decide⟩

/-- C16 (amended): when the six loops of `AppSpec` come back, every container,
function or job `p` of the decoded specification is stored as the record that
the lookup for `p`, the overlay of the fragment of `p`'s own image and
`assignImage` make of it, and for every sidecar `s` of that record the lookup
for the compound name `p.s` returned an image and the sidecar stored under `s`
is the sidecar with the result of `assignImage` on the sidecar's own image and
build: no fragment is overlaid onto a sidecar. -/
theorem AppSpec_sidecar_resolution (c : Collaborators) (imagesData : ImagesData)
    (spec spec1 : AppSpec) (h : resolveAll c imagesData spec = .ok spec1) (kind : Kind)
    (hnd : (GoMap.keys (kind.collection spec)).Nodup) (p : String) (con : Container)
    (hmem : (p, con) ∈ kind.collection spec) :
    ∃ s image con1 con2, c.lookup p s imagesData = some image ∧
      overlayFragment c con imagesData image p = .ok con1 ∧
      GoMap.get (kind.collection spec1) p = some con2 ∧
      con2.Image = image ∧ con2.Build = some (assignImage con1.Image con1.Build image).2 ∧
      ((GoMap.keys con1.Sidecars).Nodup → ∀ sn sc, (sn, sc) ∈ con1.Sidecars →
        ∃ simage, c.lookup (p ++ "." ++ sn) s imagesData = some simage ∧
          GoMap.get con2.Sidecars sn =
            some (sc.setImageBuild (assignImage sc.Image sc.Build simage).1
              (assignImage sc.Image sc.Build simage).2)) := by
  obtain ⟨s, image, con1, con2, e1, e2, e3, e4⟩ :=
    resolveAll_entry c imagesData spec spec1 h kind hnd p con hmem
  obtain ⟨g1, g2, _, g4⟩ := resolveSidecars_ok c imagesData kind p s _ _ con2 e3
  obtain ⟨i1, i2⟩ := setImageBuild_fields con1 (assignImage con1.Image con1.Build image).1
    (assignImage con1.Image con1.Build image).2
  exact ⟨s, image, con1, con2, e1, e2, e4, g1.trans i1, g2.trans i2, g4⟩

/-- C16 (witness): for the container `p` with the sidecar `s`, the stored
record of `p` is found as the theorem says. -/
theorem AppSpec_sidecar_resolution_witness :
    ∃ s image con1 con2, sidecarCollaborators.lookup "p" s (imagesData definitionSidecar)
        = some image ∧
      overlayFragment sidecarCollaborators (.mk "nginx" none [("s", .mk "busybox" none [])])
        (imagesData definitionSidecar) image "p" = .ok con1 ∧
      GoMap.get (Kind.container.collection
        { Containers :=
            [("p", .mk "sha-p" (some ⟨".", "Dockerfile", "nginx"⟩)
              [("s", .mk "sha-s" (some ⟨".", "Dockerfile", "busybox"⟩) [])])]
          Functions := [], Jobs := [], Images := [], Acorns := [], Services := [] }) "p"
        = some con2 ∧
      con2.Image = image ∧ con2.Build = some (assignImage con1.Image con1.Build image).2 ∧
      ((GoMap.keys con1.Sidecars).Nodup → ∀ sn sc, (sn, sc) ∈ con1.Sidecars →
        ∃ simage, sidecarCollaborators.lookup ("p" ++ "." ++ sn) s
            (imagesData definitionSidecar) = some simage ∧
          GoMap.get con2.Sidecars sn =
            some (sc.setImageBuild (assignImage sc.Image sc.Build simage).1
              (assignImage sc.Image sc.Build simage).2)) :=
  AppSpec_sidecar_resolution sidecarCollaborators (imagesData definitionSidecar) specSidecar
    _ (by rfl) .container (by decide) "p" (.mk "nginx" none [("s", .mk "busybox" none [])])
    (by simp [Kind.collection, specSidecar])

/-- C11 (counterexample): `web` declares the image `nginx` and no build, the
image data binds it to `registry/app:v1` without a fragment; `AppSpec` gives
it the image `registry/app:v1` and a build whose base image is `nginx`, not
`registry/app:v1`. -/
theorem AppSpec_end_to_end_counterexample :
    definitionWeb.AppSpec webCollaborators =
      (some { Containers :=
                [("web", .mk "registry/app:v1" (some ⟨".", "Dockerfile", "nginx"⟩) [])]
              Functions := [], Jobs := [], Images := [], Acorns := [], Services := [] },
        none) ∧
    webCollaborators.lookup "web" specWeb (imagesData definitionWeb) = some "registry/app:v1" ∧
    GoMap.get (imagesData definitionWeb).Containers "web" = some ⟨"registry/app:v1", ""⟩ ∧
    Build.mk "." "Dockerfile" "nginx" ≠ Build.mk "." "Dockerfile" "registry/app:v1" := by
  refine ⟨by rfl, by rfl, by decide, by decide⟩

/-- C11 (amended): for a specification whose one container `web` declares the
image `declared` and no build, image data that attaches no fragment to
`registry/app:v1`, and a lookup that returns `registry/app:v1` for `web`,
whenever the container loop of `AppSpec` comes back, `web` has the image
`registry/app:v1` and the build with context `.`, dockerfile `Dockerfile` and
base image `declared`; the loop comes back when `web` has no sidecars, and
then, with no other workloads declared, `AppSpec` returns that specification
as `AddImpliedResources` leaves it. -/
theorem AppSpec_end_to_end (c : Collaborators) (a : AppDefinition) (spec : AppSpec)
    (declared : String) (sidecars : GoMap Container)
    (hweb : spec.Containers = [("web", .mk declared none sidecars)])
    (hfrag : getFragment (imagesData a) "registry/app:v1" = "")
    (hlook : c.lookup "web" spec (imagesData a) = some "registry/app:v1") :
    (∀ spec1, resolveWorkloads c (imagesData a) .container spec.Containers spec = .ok spec1 →
      ∃ con, spec1.Containers = [("web", con)] ∧ con.Image = "registry/app:v1" ∧
        con.Build = some ⟨".", "Dockerfile", declared⟩) ∧
    (sidecars = [] →
      resolveWorkloads c (imagesData a) .container spec.Containers spec =
        .ok { spec with
              Containers :=
                [("web", .mk "registry/app:v1" (some ⟨".", "Dockerfile", declared⟩) [])] }) ∧
    (sidecars = [] → c.decode a = .ok spec → a.hasImageData = true →
      spec.Functions = [] → spec.Jobs = [] → spec.Images = [] → spec.Acorns = [] →
      spec.Services = [] →
      a.AppSpec c =
        (some (c.addImplied
          { spec with
            Containers :=
              [("web", .mk "registry/app:v1" (some ⟨".", "Dockerfile", declared⟩) [])] }).1,
         (c.addImplied
          { spec with
            Containers :=
              [("web", .mk "registry/app:v1" (some ⟨".", "Dockerfile", declared⟩) [])] }).2)) := by
  have hov : overlayFragment c (.mk declared none sidecars) (imagesData a) "registry/app:v1"
      "web" = .ok (.mk declared none sidecars) := by
    simp [overlayFragment, hfrag]
  have hassign : assignImage declared none "registry/app:v1" =
      ("registry/app:v1", ⟨".", "Dockerfile", declared⟩) := by
    simp [assignImage]
  have hloop : resolveWorkloads c (imagesData a) .container spec.Containers spec =
      match resolveSidecars c (imagesData a) .container "web" spec sidecars
          (.mk "registry/app:v1" (some ⟨".", "Dockerfile", declared⟩) sidecars) with
      | .error err => .error err
      | .ok conSpec => .ok { spec with Containers := [("web", conSpec)] } := by
    rw [hweb]
    simp only [resolveWorkloads, hlook, hov, Container.Image, Container.Build, hassign,
      Container.setImageBuild, Container.Sidecars]
    cases resolveSidecars c (imagesData a) .container "web" spec sidecars
        (.mk "registry/app:v1" (some ⟨".", "Dockerfile", declared⟩) sidecars) with
    | error err => rfl
    | ok conSpec => simp [Kind.store, hweb, GoMap.set]
  have hplain : sidecars = [] →
      resolveWorkloads c (imagesData a) .container spec.Containers spec =
        .ok { spec with
              Containers :=
                [("web", .mk "registry/app:v1" (some ⟨".", "Dockerfile", declared⟩) [])] } := by
    intro hs
    subst hs
    rw [hloop]
    simp [resolveSidecars]
  refine ⟨?_, hplain, ?_⟩
  · intro spec1 h
    rw [hloop] at h
    cases hs : resolveSidecars c (imagesData a) .container "web" spec sidecars
        (.mk "registry/app:v1" (some ⟨".", "Dockerfile", declared⟩) sidecars) with
    | error err => simp [hs] at h
    | ok conSpec =>
      simp only [hs, Except.ok.injEq] at h
      subst h
      obtain ⟨g1, g2, _, _⟩ := resolveSidecars_ok _ _ _ _ _ _ _ _ hs
      exact ⟨conSpec, rfl, g1, g2⟩
  · intro hs hdec hdata hF hJ hI hA hS
    simp only [AppDefinition.AppSpec, hdec, hdata, resolveAll, hplain hs, hF, hJ, hI, hA, hS,
      resolveWorkloads, resolveImages, resolveAcorns, resolveServices]
    rfl

/-- C11 (witness): the scenario with `web` declaring the image `nginx`. -/
theorem AppSpec_end_to_end_witness :
    resolveWorkloads webCollaborators (imagesData definitionWeb) .container specWeb.Containers
        specWeb =
      .ok { specWeb with
            Containers :=
              [("web", .mk "registry/app:v1" (some ⟨".", "Dockerfile", "nginx"⟩) [])] } :=
  (AppSpec_end_to_end webCollaborators definitionWeb specWeb "nginx" [] rfl (by decide)
    (by rfl)).2.1 rfl

/-! ### The watch rules -/

/-- Helper: the keys after a write are the keys before it and the written
key. -/
theorem GoMap.mem_keys_set {V : Type} (m : GoMap V) (k : String) (v : V) (p : String) :
    p ∈ GoMap.keys (GoMap.set m k v) ↔ p ∈ GoMap.keys m ∨ p = k := by
  rw [GoMap.keys_set]
  split_ifs with hk
  · constructor
    · exact Or.inl
    · rintro (h | rfl)
      · exact h
      · exact hk
  · simp

/-- Helper: no workload is nested in the empty mapping. -/
theorem Nested_nil (w : ContainerImageBuilderSpec) : ¬ Nested [] w := by
  intro h
  generalize hb : ([] : List (String × ContainerImageBuilderSpec)) = builds at h
  cases h with
  | here _ name _ hm =>
    subst hb
    simp at hm
  | inside _ name w0 _ hm _ =>
    subst hb
    simp at hm

/-- Helper: the workloads nested in a mapping with a first entry. -/
theorem Nested_cons (name : String) (w : ContainerImageBuilderSpec)
    (rest : List (String × ContainerImageBuilderSpec)) (w1 : ContainerImageBuilderSpec) :
    Nested ((name, w) :: rest) w1 ↔ w1 = w ∨ Nested w.Sidecars w1 ∨ Nested rest w1 := by
  constructor
  · intro h
    generalize hb : (name, w) :: rest = builds at h
    cases h with
    | here _ n _ hm =>
      subst hb
      rcases List.mem_cons.mp hm with heq | hm
      · simp only [Prod.mk.injEq] at heq
        exact Or.inl heq.2
      · exact Or.inr (Or.inr (Nested.here rest n w1 hm))
    | inside _ n w0 _ hm hin =>
      subst hb
      rcases List.mem_cons.mp hm with heq | hm
      · simp only [Prod.mk.injEq] at heq
        obtain ⟨_, rfl⟩ := heq
        exact Or.inr (Or.inl hin)
      · exact Or.inr (Or.inr (Nested.inside rest n w0 w1 hm hin))
  · rintro (rfl | h | h)
    · exact Nested.here _ name w1 (List.mem_cons_self _ _)
    · exact Nested.inside _ name w w1 (List.mem_cons_self _ _) h
    · generalize hb : rest = builds at h
      cases h with
      | here _ n _ hm =>
        subst hb
        exact Nested.here _ n w1 (List.mem_cons_of_mem _ hm)
      | inside _ n w0 _ hm hin =>
        subst hb
        exact Nested.inside _ n w0 w1 (List.mem_cons_of_mem _ hm) hin

/-- Helper: the container rule on a mapping with a first entry. -/
theorem ContainerRulePath_cons (c : Collaborators) (cwd name : String)
    (w : ContainerImageBuilderSpec) (rest : List (String × ContainerImageBuilderSpec))
    (p : String) :
    ContainerRulePath c cwd ((name, w) :: rest) p ↔
      (∃ b, w.Build = some b ∧ b.BaseImage = "" ∧
        (p = c.join [cwd, b.Dockerfile] ∨
          p = c.join [c.dir (c.join [cwd, b.Dockerfile]), ".dockerignore"])) ∨
      ContainerRulePath c cwd w.Sidecars p ∨ ContainerRulePath c cwd rest p := by
  unfold ContainerRulePath
  constructor
  · rintro ⟨w1, b, hn, hb, hbase, hp⟩
    rcases (Nested_cons name w rest w1).mp hn with rfl | h | h
    · exact Or.inl ⟨b, hb, hbase, hp⟩
    · exact Or.inr (Or.inl ⟨w1, b, h, hb, hbase, hp⟩)
    · exact Or.inr (Or.inr ⟨w1, b, h, hb, hbase, hp⟩)
  · rintro (⟨b, hb, hbase, hp⟩ | ⟨w1, b, h, hb, hbase, hp⟩ | ⟨w1, b, h, hb, hbase, hp⟩)
    · exact ⟨w, b, (Nested_cons name w rest w).mpr (Or.inl rfl), hb, hbase, hp⟩
    · exact ⟨w1, b, (Nested_cons name w rest w1).mpr (Or.inr (Or.inl h)), hb, hbase, hp⟩
    · exact ⟨w1, b, (Nested_cons name w rest w1).mpr (Or.inr (Or.inr h)), hb, hbase, hp⟩

/-- Helper: the container rule on the empty mapping gives no path. -/
theorem ContainerRulePath_nil (c : Collaborators) (cwd p : String) :
    ¬ ContainerRulePath c cwd [] p := by
  rintro ⟨w, _, hn, _⟩
  exact Nested_nil w hn

mutual
/-- Helper: the keys after `addContainerFiles` are the keys before it and the
paths of the container rule. -/
theorem addContainerFiles_keys (c : Collaborators) (cwd p : String) :
    (builds : List (String × ContainerImageBuilderSpec)) → (fileSet : GoMap Bool) →
      (p ∈ GoMap.keys (addContainerFiles c cwd fileSet builds) ↔
        p ∈ GoMap.keys fileSet ∨ ContainerRulePath c cwd builds p)
  | [], fileSet => by
    simp [addContainerFiles, ContainerRulePath_nil]
  | (name, w) :: rest, fileSet => by
    rw [addContainerFiles, addContainerFiles_keys c cwd p rest,
      addContainerFilesBody_keys c cwd p w fileSet, ContainerRulePath_cons]
    simp only [or_assoc]
/-- Helper: the keys after the loop body for one workload. -/
theorem addContainerFilesBody_keys (c : Collaborators) (cwd p : String) :
    (w : ContainerImageBuilderSpec) → (fileSet : GoMap Bool) →
      (p ∈ GoMap.keys (addContainerFilesBody c cwd fileSet w) ↔
        p ∈ GoMap.keys fileSet ∨
          (∃ b, w.Build = some b ∧ b.BaseImage = "" ∧
            (p = c.join [cwd, b.Dockerfile] ∨
              p = c.join [c.dir (c.join [cwd, b.Dockerfile]), ".dockerignore"])) ∨
          ContainerRulePath c cwd w.Sidecars p)
  | .mk build src sidecars, fileSet => by
    have ih := addContainerFiles_keys c cwd p sidecars fileSet
    cases build with
    | none =>
      simp only [addContainerFilesBody, ih, ContainerImageBuilderSpec.Build,
        ContainerImageBuilderSpec.Sidecars]
      simp
    | some b =>
      by_cases hb : b.BaseImage = ""
      · simp only [addContainerFilesBody, hb, ne_eq, not_true_eq_false, if_false,
          GoMap.mem_keys_set, ih, ContainerImageBuilderSpec.Build,
          ContainerImageBuilderSpec.Sidecars, Option.some.injEq]
        constructor
        · rintro ((h | h) | h)
          · tauto
          · exact Or.inr (Or.inl ⟨b, rfl, hb, Or.inl h⟩)
          · exact Or.inr (Or.inl ⟨b, rfl, hb, Or.inr h⟩)
        · rintro (h | ⟨b1, rfl, _, h | h⟩ | h)
          · exact Or.inl (Or.inl (Or.inl h))
          · exact Or.inl (Or.inr h)
          · exact Or.inr h
          · exact Or.inl (Or.inl (Or.inr h))
      · simp only [addContainerFilesBody, hb, ne_eq, not_false_eq_true, if_true, ih,
          ContainerImageBuilderSpec.Build, ContainerImageBuilderSpec.Sidecars,
          Option.some.injEq]
        constructor
        · rintro (h | h)
          · exact Or.inl h
          · exact Or.inr (Or.inr h)
        · rintro (h | ⟨b1, rfl, hb1, _⟩ | h)
          · exact Or.inl h
          · exact absurd hb1 hb
          · exact Or.inr h
end

/-- Helper: the keys after `addFunctionFiles` are the keys before it and the
paths of the function rule. -/
theorem addFunctionFiles_keys (c : Collaborators) (cwd p : String)
    (builds : List (String × ContainerImageBuilderSpec)) (fileSet : GoMap Bool) :
    p ∈ GoMap.keys (addFunctionFiles c cwd fileSet builds) ↔
      p ∈ GoMap.keys fileSet ∨ FunctionRulePath c cwd builds p := by
  induction builds generalizing fileSet with
  | nil => simp [addFunctionFiles, FunctionRulePath]
  | cons x rest ih =>
    obtain ⟨key, w⟩ := x
    simp only [addFunctionFiles, ih, GoMap.mem_keys_set, addContainerFiles_keys]
    unfold FunctionRulePath
    constructor
    · rintro ((((h | h) | h) | h) | ⟨k1, w1, hm, h⟩)
      · exact Or.inl h
      · exact Or.inr ⟨key, w, List.mem_cons_self _ _, Or.inr (Or.inr h)⟩
      · exact Or.inr ⟨key, w, List.mem_cons_self _ _, Or.inl h⟩
      · exact Or.inr ⟨key, w, List.mem_cons_self _ _, Or.inr (Or.inl h)⟩
      · exact Or.inr ⟨k1, w1, List.mem_cons_of_mem _ hm, h⟩
    · rintro (h | ⟨k1, w1, hm, h⟩)
      · exact Or.inl (Or.inl (Or.inl (Or.inl h)))
      · rcases List.mem_cons.mp hm with heq | hm
        · simp only [Prod.mk.injEq] at heq
          obtain ⟨rfl, rfl⟩ := heq
          rcases h with h | h | h
          · exact Or.inl (Or.inl (Or.inr h))
          · exact Or.inl (Or.inr h)
          · exact Or.inl (Or.inl (Or.inl (Or.inr h)))
        · exact Or.inr ⟨k1, w1, hm, h⟩

/-- Helper: the keys after `addFiles` are the keys before it and the paths of
the image rule. -/
theorem addFiles_keys (c : Collaborators) (cwd p : String)
    (builds : List (String × ImageBuilderSpec)) (fileSet : GoMap Bool) :
    p ∈ GoMap.keys (addFiles c cwd fileSet builds) ↔
      p ∈ GoMap.keys fileSet ∨ ImageRulePath c cwd builds p := by
  induction builds generalizing fileSet with
  | nil => simp [addFiles, ImageRulePath]
  | cons x rest ih =>
    obtain ⟨key, build⟩ := x
    unfold ImageRulePath at ih ⊢
    simp only [addFiles]
    cases hc : build.ContainerBuild with
    | some b =>
      simp only [ih, GoMap.mem_keys_set]
      constructor
      · rintro ((h | h) | ⟨k1, b1, hm, h⟩)
        · exact Or.inl h
        · exact Or.inr ⟨key, build, List.mem_cons_self _ _, Or.inl ⟨b, hc, h⟩⟩
        · exact Or.inr ⟨k1, b1, List.mem_cons_of_mem _ hm, h⟩
      · rintro (h | ⟨k1, b1, hm, h⟩)
        · exact Or.inl (Or.inl h)
        · rcases List.mem_cons.mp hm with heq | hm
          · simp only [Prod.mk.injEq] at heq
            obtain ⟨rfl, rfl⟩ := heq
            rcases h with ⟨b2, hb2, h⟩ | ⟨hn, _⟩
            · rw [hc] at hb2
              cases hb2
              exact Or.inl (Or.inr h)
            · rw [hc] at hn
              cases hn
          · exact Or.inr ⟨k1, b1, hm, h⟩
    | none =>
      cases ha : build.AcornBuild with
      | some ab =>
        simp only [ih, GoMap.mem_keys_set]
        constructor
        · rintro ((h | h) | ⟨k1, b1, hm, h⟩)
          · exact Or.inl h
          · exact Or.inr ⟨key, build, List.mem_cons_self _ _, Or.inr ⟨hc, ab, ha, h⟩⟩
          · exact Or.inr ⟨k1, b1, List.mem_cons_of_mem _ hm, h⟩
        · rintro (h | ⟨k1, b1, hm, h⟩)
          · exact Or.inl (Or.inl h)
          · rcases List.mem_cons.mp hm with heq | hm
            · simp only [Prod.mk.injEq] at heq
              obtain ⟨rfl, rfl⟩ := heq
              rcases h with ⟨b2, hb2, _⟩ | ⟨_, ab2, hab2, h⟩
              · rw [hc] at hb2
                cases hb2
              · rw [ha] at hab2
                cases hab2
                exact Or.inl (Or.inr h)
            · exact Or.inr ⟨k1, b1, hm, h⟩
      | none =>
        simp only [ih]
        constructor
        · rintro (h | ⟨k1, b1, hm, h⟩)
          · exact Or.inl h
          · exact Or.inr ⟨k1, b1, List.mem_cons_of_mem _ hm, h⟩
        · rintro (h | ⟨k1, b1, hm, h⟩)
          · exact Or.inl h
          · rcases List.mem_cons.mp hm with heq | hm
            · simp only [Prod.mk.injEq] at heq
              obtain ⟨rfl, rfl⟩ := heq
              rcases h with ⟨b2, hb2, _⟩ | ⟨_, ab2, hab2, _⟩
              · rw [hc] at hb2
                cases hb2
              · rw [ha] at hab2
                cases hab2
            · exact Or.inr ⟨k1, b1, hm, h⟩

/-- Helper: the paths collected before the services and acorns are those of
the container, function, job and image rules. -/
theorem watchedBuildFiles_keys (c : Collaborators) (cwd p : String) (spec : BuilderSpec) :
    p ∈ GoMap.keys (watchedBuildFiles c cwd spec) ↔
      ContainerRulePath c cwd spec.Containers p ∨ FunctionRulePath c cwd spec.Functions p ∨
        ContainerRulePath c cwd spec.Jobs p ∨ ImageRulePath c cwd spec.Images p := by
  rw [watchedBuildFiles, addFiles_keys, addContainerFiles_keys, addFunctionFiles_keys,
    addContainerFiles_keys]
  simp only [GoMap.keys, List.map_nil, List.not_mem_nil, false_or, or_assoc]

/-- Helper: writing a list of paths keeps the keys that were there. -/
theorem foldl_set_keys_mono (files : List String) (fileSet : GoMap Bool) (p : String)
    (h : p ∈ GoMap.keys fileSet) :
    p ∈ GoMap.keys (files.foldl (fun fs f => GoMap.set fs f true) fileSet) := by
  induction files generalizing fileSet with
  | nil => exact h
  | cons f rest ih => exact ih _ ((GoMap.mem_keys_set fileSet f true p).mpr (Or.inl h))

/-- Helper: writing a list of paths keeps the keys unique. -/
theorem foldl_set_keys_nodup (files : List String) (fileSet : GoMap Bool)
    (h : (GoMap.keys fileSet).Nodup) :
    (GoMap.keys (files.foldl (fun fs f => GoMap.set fs f true) fileSet)).Nodup := by
  induction files generalizing fileSet with
  | nil => exact h
  | cons f rest ih => exact ih _ (GoMap.nodup_set fileSet f true h)

/-- Helper: `addAcorns` keeps the paths of the file set and the uniqueness of
its keys. -/
theorem addAcorns_mono (c : Collaborators)
    (watch : AppDefinition → String → Option (Except Err (List String))) (cwd : String)
    (builds : List (String × AcornBuilderSpec)) (fileSet fs1 : GoMap Bool)
    (h : addAcorns c watch cwd fileSet builds = some fs1) :
    (∀ p, p ∈ GoMap.keys fileSet → p ∈ GoMap.keys fs1) ∧
      ((GoMap.keys fileSet).Nodup → (GoMap.keys fs1).Nodup) := by
  induction builds generalizing fileSet with
  | nil =>
    simp only [addAcorns, Option.some.injEq] at h
    subst h
    exact ⟨fun _ hp => hp, fun hn => hn⟩
  | cons x rest ih =>
    obtain ⟨name, build⟩ := x
    simp only [addAcorns] at h
    cases hb : build.Build with
    | none =>
      simp only [hb] at h
      exact ih _ h
    | some b =>
      simp only [hb] at h
      cases hr : c.readFile (c.join [cwd, b.Acornfile]) with
      | error e =>
        simp only [hr, Option.some.injEq] at h
        subst h
        exact ⟨fun _ hp => hp, fun hn => hn⟩
      | ok data =>
        simp only [hr] at h
        have hstep : ∀ p, p ∈ GoMap.keys fileSet →
            p ∈ GoMap.keys (GoMap.set fileSet (c.join [cwd, b.Acornfile]) true) :=
          fun p hp => (GoMap.mem_keys_set _ _ _ p).mpr (Or.inl hp)
        cases hd : NewAppDefinition c data with
        | error e =>
          simp only [hd, Option.some.injEq] at h
          subst h
          exact ⟨hstep, fun hn => GoMap.nodup_set _ _ _ hn⟩
        | ok appDef =>
          simp only [hd] at h
          cases hw : watch appDef (c.join [cwd, b.Context]) with
          | none => simp [hw] at h
          | some r =>
            cases r with
            | error e =>
              simp only [hw, Option.some.injEq] at h
              subst h
              exact ⟨hstep, fun hn => GoMap.nodup_set _ _ _ hn⟩
            | ok files =>
              simp only [hw] at h
              obtain ⟨i1, i2⟩ := ih _ h
              exact ⟨fun p hp => i1 p (foldl_set_keys_mono files _ p (hstep p hp)),
                fun hn => i2 (foldl_set_keys_nodup files _ (GoMap.nodup_set _ _ _ hn))⟩

/-- Helper: `addAcorns` returns the file set it was given when no entry has a
build. -/
theorem addAcorns_no_builds (c : Collaborators)
    (watch : AppDefinition → String → Option (Except Err (List String))) (cwd : String)
    (builds : List (String × AcornBuilderSpec)) (fileSet : GoMap Bool)
    (h : ∀ e ∈ builds, e.2.Build = none) :
    addAcorns c watch cwd fileSet builds = some fileSet := by
  induction builds with
  | nil => rfl
  | cons x rest ih =>
    obtain ⟨name, build⟩ := x
    have h0 : build.Build = none := h (name, build) (List.mem_cons_self _ _)
    simp only [addAcorns, h0]
    exact ih (fun e he => h e (List.mem_cons_of_mem _ he))

mutual
/-- Helper: `addContainerFiles` keeps the keys unique. -/
theorem addContainerFiles_nodup (c : Collaborators) (cwd : String) :
    (builds : List (String × ContainerImageBuilderSpec)) → (fileSet : GoMap Bool) →
      (GoMap.keys fileSet).Nodup → (GoMap.keys (addContainerFiles c cwd fileSet builds)).Nodup
  | [], fileSet, h => by simpa [addContainerFiles] using h
  | (name, w) :: rest, fileSet, h => by
    rw [addContainerFiles]
    exact addContainerFiles_nodup c cwd rest _ (addContainerFilesBody_nodup c cwd w fileSet h)
/-- Helper: the loop body keeps the keys unique. -/
theorem addContainerFilesBody_nodup (c : Collaborators) (cwd : String) :
    (w : ContainerImageBuilderSpec) → (fileSet : GoMap Bool) →
      (GoMap.keys fileSet).Nodup → (GoMap.keys (addContainerFilesBody c cwd fileSet w)).Nodup
  | .mk build src sidecars, fileSet, h => by
    have ih := addContainerFiles_nodup c cwd sidecars fileSet h
    cases build with
    | none => simpa [addContainerFilesBody] using ih
    | some b =>
      simp only [addContainerFilesBody]
      split_ifs
      · exact ih
      · exact GoMap.nodup_set _ _ _ (GoMap.nodup_set _ _ _ ih)
end

/-- Helper: `addFunctionFiles` keeps the keys unique. -/
theorem addFunctionFiles_nodup (c : Collaborators) (cwd : String)
    (builds : List (String × ContainerImageBuilderSpec)) (fileSet : GoMap Bool)
    (h : (GoMap.keys fileSet).Nodup) :
    (GoMap.keys (addFunctionFiles c cwd fileSet builds)).Nodup := by
  induction builds generalizing fileSet with
  | nil => exact h
  | cons x rest ih =>
    obtain ⟨key, w⟩ := x
    simp only [addFunctionFiles]
    exact ih _ (GoMap.nodup_set _ _ _ (GoMap.nodup_set _ _ _
      (addContainerFiles_nodup c cwd _ _ h)))

/-- Helper: `addFiles` keeps the keys unique. -/
theorem addFiles_nodup (c : Collaborators) (cwd : String)
    (builds : List (String × ImageBuilderSpec)) (fileSet : GoMap Bool)
    (h : (GoMap.keys fileSet).Nodup) : (GoMap.keys (addFiles c cwd fileSet builds)).Nodup := by
  induction builds generalizing fileSet with
  | nil => exact h
  | cons x rest ih =>
    obtain ⟨key, build⟩ := x
    simp only [addFiles]
    cases build.ContainerBuild with
    | some b => exact ih _ (GoMap.nodup_set _ _ _ h)
    | none =>
      cases build.AcornBuild with
      | some ab => exact ih _ (GoMap.nodup_set _ _ _ h)
      | none => exact ih _ h

/-- Helper: the file set collected before the services and acorns has unique
keys. -/
theorem watchedBuildFiles_nodup (c : Collaborators) (cwd : String) (spec : BuilderSpec) :
    (GoMap.keys (watchedBuildFiles c cwd spec)).Nodup := by
  unfold watchedBuildFiles
  exact addFiles_nodup _ _ _ _ (addContainerFiles_nodup _ _ _ _
    (addFunctionFiles_nodup _ _ _ _ (addContainerFiles_nodup _ _ _ _ List.nodup_nil)))

/-- Helper: `sort.Strings` of a list without repetition is strictly
ascending and has the same elements. -/
theorem sortStrings_spec (l : List String) (h : l.Nodup) :
    List.Sorted (fun a b : String => a < b) (sortStrings l) ∧
      ∀ p, p ∈ sortStrings l ↔ p ∈ l := by
  haveI : IsTotal String strLE := ⟨fun a b => le_total a.toList b.toList⟩
  haveI : IsTrans String strLE := ⟨fun a b c hab hbc => le_trans (α := List Char) hab hbc⟩
  have hs : List.Sorted strLE (sortStrings l) := List.sorted_insertionSort strLE l
  have hp : (sortStrings l).Perm l := List.perm_insertionSort strLE l
  have hn : (sortStrings l).Nodup := hp.nodup_iff.mpr h
  refine ⟨?_, fun p => hp.mem_iff⟩
  have hboth := List.Pairwise.and hs hn
  refine List.Pairwise.imp ?_ hboth
  intro a b hab
  obtain ⟨hle, hne⟩ := hab
  have hne1 : a.toList ≠ b.toList := fun heq => hne (String.ext heq)
  exact String.lt_iff_toList_lt.mpr (lt_of_le_of_ne hle hne1)

/-- Helper: one level of `WatchFiles`. -/
theorem WatchFiles_succ (c : Collaborators) (fuel : Nat) (a : AppDefinition) (cwd : String) :
    a.WatchFiles c (fuel + 1) cwd =
      match a.BuilderSpec c with
      | .error err => some (.error err)
      | .ok spec =>
        match addAcorns c (AppDefinition.WatchFiles c fuel) cwd (watchedBuildFiles c cwd spec)
            spec.Services with
        | none => none
        | some fileSet =>
          match addAcorns c (AppDefinition.WatchFiles c fuel) cwd fileSet spec.Acorns with
          | none => none
          | some fileSet => some (.ok (sortStrings (GoMap.keys fileSet))) := by
  rfl

/-- Helper: a list `WatchFiles` returns is strictly ascending and has exactly
the keys of the file set that the rules have filled. -/
theorem WatchFiles_result (c : Collaborators) (fuel : Nat) (a : AppDefinition) (cwd : String)
    (result : List String) (h : a.WatchFiles c (fuel + 1) cwd = some (.ok result)) :
    List.Sorted (fun x y : String => x < y) result ∧
      ∃ spec fs5 fs6, a.BuilderSpec c = .ok spec ∧
        addAcorns c (AppDefinition.WatchFiles c fuel) cwd (watchedBuildFiles c cwd spec)
          spec.Services = some fs5 ∧
        addAcorns c (AppDefinition.WatchFiles c fuel) cwd fs5 spec.Acorns = some fs6 ∧
        (∀ p, p ∈ result ↔ p ∈ GoMap.keys fs6) ∧
        (∀ p, p ∈ GoMap.keys (watchedBuildFiles c cwd spec) → p ∈ GoMap.keys fs6) := by
  rw [WatchFiles_succ] at h
  cases hb : a.BuilderSpec c with
  | error err => simp [hb] at h
  | ok spec =>
    simp only [hb] at h
    cases h5 : addAcorns c (AppDefinition.WatchFiles c fuel) cwd (watchedBuildFiles c cwd spec)
        spec.Services with
    | none => simp [h5] at h
    | some fs5 =>
      simp only [h5] at h
      cases h6 : addAcorns c (AppDefinition.WatchFiles c fuel) cwd fs5 spec.Acorns with
      | none => simp [h6] at h
      | some fs6 =>
        simp only [h6, Option.some.injEq, Except.ok.injEq] at h
        subst h
        obtain ⟨m5, n5⟩ := addAcorns_mono _ _ _ _ _ _ h5
        obtain ⟨m6, n6⟩ := addAcorns_mono _ _ _ _ _ _ h6
        have hn : (GoMap.keys fs6).Nodup := n6 (n5 (watchedBuildFiles_nodup c cwd spec))
        obtain ⟨s1, s2⟩ := sortStrings_spec (GoMap.keys fs6) hn
        exact ⟨s1, spec, fs5, fs6, rfl, h5, h6, s2, fun p hp => m6 p (m5 p hp)⟩

/-- Helper: `WatchFiles` returns a list when no service and no acorn has a
build. -/
theorem WatchFiles_returns (c : Collaborators) (fuel : Nat) (a : AppDefinition) (cwd : String)
    (spec : BuilderSpec) (hspec : a.BuilderSpec c = .ok spec)
    (hS : ∀ e ∈ spec.Services, e.2.Build = none) (hA : ∀ e ∈ spec.Acorns, e.2.Build = none) :
    a.WatchFiles c (fuel + 1) cwd =
      some (.ok (sortStrings (GoMap.keys (watchedBuildFiles c cwd spec)))) := by
  rw [WatchFiles_succ]
  simp only [hspec, addAcorns_no_builds _ _ _ _ _ hS, addAcorns_no_builds _ _ _ _ _ hA]

/-- C14: the keys of the file set after `addContainerFiles` are the keys it had
before and, for every workload and recursively every sidecar that has a build
record with an empty base image, the dockerfile path and the ignore file in the
directory of the dockerfile; a workload without sidecars that has no build
record, or a base image, leaves the file set as it is. -/
theorem addContainerFiles_rule (c : Collaborators) (cwd : String) (fileSet : GoMap Bool)
    (builds : List (String × ContainerImageBuilderSpec)) :
    (∀ p, p ∈ GoMap.keys (addContainerFiles c cwd fileSet builds) ↔
      p ∈ GoMap.keys fileSet ∨
        ∃ w b, Nested builds w ∧ w.Build = some b ∧ b.BaseImage = "" ∧
          (p = c.join [cwd, b.Dockerfile] ∨
            p = c.join [c.dir (c.join [cwd, b.Dockerfile]), ".dockerignore"])) ∧
    (∀ name src, addContainerFiles c cwd fileSet [(name, .mk none src [])] = fileSet) ∧
    (∀ name src b, b.BaseImage ≠ "" →
      addContainerFiles c cwd fileSet [(name, .mk (some b) src [])] = fileSet) := by
  refine ⟨fun p => addContainerFiles_keys c cwd p builds fileSet, ?_, ?_⟩
  · intro name src
    simp [addContainerFiles, addContainerFilesBody]
  · intro name src b hb
    simp [addContainerFiles, addContainerFilesBody, hb]

/-- C14 (witness): `web` has a build without base image and a sidecar `log`
that has one too; the dockerfile of the sidecar is in the file set, and `db`,
whose build has the base image `postgres`, leaves the file set as it is. -/
theorem addContainerFiles_rule_witness :
    "/app/log/Dockerfile" ∈
        GoMap.keys (addContainerFiles rulesCollaborators "/app" [] builderRules.Containers) ∧
      addContainerFiles rulesCollaborators "/app" []
        [("db", .mk (some ⟨".", "db/Dockerfile", "postgres"⟩) "" [])] = [] :=
  ⟨((addContainerFiles_rule rulesCollaborators "/app" [] builderRules.Containers).1
      "/app/log/Dockerfile").mpr
      (Or.inr ⟨.mk (some ⟨".", "log/Dockerfile", ""⟩) "" [], ⟨".", "log/Dockerfile", ""⟩,
        Nested.inside _ "web"
          (.mk (some ⟨".", "web/Dockerfile", ""⟩) ""
            [("log", .mk (some ⟨".", "log/Dockerfile", ""⟩) "" [])]) _
          (List.mem_cons_self _ _) (Nested.here _ "log" _ (List.mem_cons_self _ _)),
        rfl, rfl, Or.inl (by decide)⟩),
   (addContainerFiles_rule rulesCollaborators "/app" []
      builderRules.Containers).2.2 "db" "" ⟨".", "db/Dockerfile", "postgres"⟩ (by decide)⟩

/-- C15: for a function `f` of the builder specification, every list
`WatchFiles` returns contains the build manifest `build.acorn` and the ignore
file in the context of `f` (its declared source directory or, when that is
empty, `f` itself), and the paths the container rule gives for the sidecars of
`f`; and `WatchFiles` returns a list when no service and no acorn has a
build. -/
theorem WatchFiles_function_rule (c : Collaborators) (a : AppDefinition) (cwd : String)
    (spec : BuilderSpec) (f : String) (w : ContainerImageBuilderSpec)
    (hspec : a.BuilderSpec c = .ok spec) (hmem : (f, w) ∈ spec.Functions) :
    (∀ fuel result, a.WatchFiles c fuel cwd = some (.ok result) →
      c.join [cwd, if w.Src = "" then f else w.Src, "build.acorn"] ∈ result ∧
      c.join [cwd, if w.Src = "" then f else w.Src, ".dockerignore"] ∈ result ∧
      ∀ p, ContainerRulePath c cwd w.Sidecars p → p ∈ result) ∧
    ((∀ e ∈ spec.Services, e.2.Build = none) → (∀ e ∈ spec.Acorns, e.2.Build = none) →
      ∀ fuel, ∃ result, a.WatchFiles c (fuel + 1) cwd = some (.ok result)) := by
  refine ⟨?_, ?_⟩
  · intro fuel result h
    cases fuel with
    | zero => simp [AppDefinition.WatchFiles] at h
    | succ n =>
      obtain ⟨_, spec1, fs5, fs6, e1, _, _, e4, e5⟩ := WatchFiles_result c n a cwd result h
      rw [hspec] at e1
      cases e1
      have hrule : ∀ p, FunctionRulePath c cwd spec.Functions p → p ∈ result :=
        fun p hp => (e4 p).mpr
          (e5 p ((watchedBuildFiles_keys c cwd p spec).mpr (Or.inr (Or.inl hp))))
      exact ⟨hrule _ ⟨f, w, hmem, Or.inl rfl⟩, hrule _ ⟨f, w, hmem, Or.inr (Or.inl rfl)⟩,
        fun p hp => hrule p ⟨f, w, hmem, Or.inr (Or.inr hp)⟩⟩
  · intro hS hA fuel
    exact ⟨_, WatchFiles_returns c fuel a cwd spec hspec hS hA⟩

/-- C15 (witness): the function `bye` declares the source directory `src/bye`;
the list `WatchFiles` returns for the example document contains its build
manifest and its ignore file. -/
theorem WatchFiles_function_rule_witness :
    "/app/src/bye/build.acorn" ∈
        ["/app/hello/.dockerignore", "/app/hello/build.acorn", "/app/log/.dockerignore",
          "/app/log/Dockerfile", "/app/src/bye/.dockerignore", "/app/src/bye/build.acorn",
          "/app/web/.dockerignore", "/app/web/Dockerfile"] ∧
      "/app/src/bye/.dockerignore" ∈
        ["/app/hello/.dockerignore", "/app/hello/build.acorn", "/app/log/.dockerignore",
          "/app/log/Dockerfile", "/app/src/bye/.dockerignore", "/app/src/bye/build.acorn",
          "/app/web/.dockerignore", "/app/web/Dockerfile"] :=
  ⟨((WatchFiles_function_rule rulesCollaborators documentRules "/app" builderRules "bye"
      (.mk none "src/bye" []) rfl (by simp [builderRules])).1 1 _ (by rfl)).1,
   ((WatchFiles_function_rule rulesCollaborators documentRules "/app" builderRules "bye"
      (.mk none "src/bye" []) rfl (by simp [builderRules])).1 1 _ (by rfl)).2.1⟩

/-- Helper: nesting depends only on which entries the mapping has. -/
theorem Nested_of_subset (l l1 : List (String × ContainerImageBuilderSpec))
    (h : ∀ e, e ∈ l → e ∈ l1) (w : ContainerImageBuilderSpec) (hn : Nested l w) :
    Nested l1 w := by
  generalize hb : l = builds at hn
  cases hn with
  | here _ name _ hm =>
    subst hb
    exact Nested.here l1 name w (h _ hm)
  | inside _ name w0 _ hm hin =>
    subst hb
    exact Nested.inside l1 name w0 w (h _ hm) hin

/-- Helper: without builds of services and acorns, two builder specifications
with the same entries in their container, function, job and image mappings,
in whatever order, give the same list. -/
theorem WatchFiles_same_entries (c : Collaborators) (a a1 : AppDefinition) (cwd : String)
    (spec spec1 : BuilderSpec) (fuel : Nat)
    (hs : a.BuilderSpec c = .ok spec) (hs1 : a1.BuilderSpec c = .ok spec1)
    (hC : ∀ e, e ∈ spec.Containers ↔ e ∈ spec1.Containers)
    (hF : ∀ e, e ∈ spec.Functions ↔ e ∈ spec1.Functions)
    (hJ : ∀ e, e ∈ spec.Jobs ↔ e ∈ spec1.Jobs)
    (hI : ∀ e, e ∈ spec.Images ↔ e ∈ spec1.Images)
    (hS : ∀ e ∈ spec.Services, e.2.Build = none) (hA : ∀ e ∈ spec.Acorns, e.2.Build = none)
    (hS1 : ∀ e ∈ spec1.Services, e.2.Build = none)
    (hA1 : ∀ e ∈ spec1.Acorns, e.2.Build = none) :
    a.WatchFiles c (fuel + 1) cwd = a1.WatchFiles c (fuel + 1) cwd := by
  rw [WatchFiles_returns c fuel a cwd spec hs hS hA,
    WatchFiles_returns c fuel a1 cwd spec1 hs1 hS1 hA1]
  have hcr : ∀ (l l1 : List (String × ContainerImageBuilderSpec)),
      (∀ e, e ∈ l ↔ e ∈ l1) → ∀ p, ContainerRulePath c cwd l p ↔ ContainerRulePath c cwd l1 p := by
    intro l l1 h p
    constructor
    · rintro ⟨w, b, hn, hr⟩
      exact ⟨w, b, Nested_of_subset l l1 (fun e he => (h e).mp he) w hn, hr⟩
    · rintro ⟨w, b, hn, hr⟩
      exact ⟨w, b, Nested_of_subset l1 l (fun e he => (h e).mpr he) w hn, hr⟩
  have hfr : ∀ p, FunctionRulePath c cwd spec.Functions p ↔
      FunctionRulePath c cwd spec1.Functions p := by
    intro p
    constructor
    · rintro ⟨k, w, hm, hr⟩
      exact ⟨k, w, (hF _).mp hm, hr⟩
    · rintro ⟨k, w, hm, hr⟩
      exact ⟨k, w, (hF _).mpr hm, hr⟩
  have hir : ∀ p, ImageRulePath c cwd spec.Images p ↔ ImageRulePath c cwd spec1.Images p := by
    intro p
    constructor
    · rintro ⟨k, w, hm, hr⟩
      exact ⟨k, w, (hI _).mp hm, hr⟩
    · rintro ⟨k, w, hm, hr⟩
      exact ⟨k, w, (hI _).mpr hm, hr⟩
  have hmem : ∀ p, p ∈ GoMap.keys (watchedBuildFiles c cwd spec) ↔
      p ∈ GoMap.keys (watchedBuildFiles c cwd spec1) := by
    intro p
    rw [watchedBuildFiles_keys, watchedBuildFiles_keys, hcr _ _ hC p, hfr p, hcr _ _ hJ p, hir p]
  obtain ⟨s1, m1⟩ := sortStrings_spec _ (watchedBuildFiles_nodup c cwd spec)
  obtain ⟨s2, m2⟩ := sortStrings_spec _ (watchedBuildFiles_nodup c cwd spec1)
  have hperm : (sortStrings (GoMap.keys (watchedBuildFiles c cwd spec))).Perm
      (sortStrings (GoMap.keys (watchedBuildFiles c cwd spec1))) := by
    refine (List.perm_ext_iff_of_nodup ?_ ?_).mpr ?_
    · exact ((List.perm_insertionSort strLE _).nodup_iff).mpr (watchedBuildFiles_nodup c cwd spec)
    · exact ((List.perm_insertionSort strLE _).nodup_iff).mpr
        (watchedBuildFiles_nodup c cwd spec1)
    · intro p
      rw [m1, m2, hmem]
  rw [List.eq_of_perm_of_sorted hperm s1 s2]

/-- C13 (the general facts and the code at the failing input): a list that
`WatchFiles` returns is strictly ascending and has exactly the paths of the
file set the rules have filled, among them those of the container, function,
job and image rules; without builds of services and acorns `WatchFiles` returns
such a list, the same for every order of the entries of the mappings.  With
nested applications two runs on the same document need not return the same
list: with `broken` (source unreadable) and `good`, the run whose iteration
visits `broken` first returns no path and the run whose iteration visits `good`
first returns the source path of `good`. -/
theorem WatchFiles_sorted_not_deterministic (c : Collaborators) (a : AppDefinition)
    (cwd : String) (fuel : Nat) :
    (∀ result, a.WatchFiles c (fuel + 1) cwd = some (.ok result) →
      List.Sorted (fun x y : String => x < y) result ∧ result.Nodup ∧
      ∃ spec fs5 fs6, a.BuilderSpec c = .ok spec ∧
        addAcorns c (AppDefinition.WatchFiles c fuel) cwd (watchedBuildFiles c cwd spec)
          spec.Services = some fs5 ∧
        addAcorns c (AppDefinition.WatchFiles c fuel) cwd fs5 spec.Acorns = some fs6 ∧
        (∀ p, p ∈ result ↔ p ∈ GoMap.keys fs6) ∧
        (∀ p, ContainerRulePath c cwd spec.Containers p ∨
            FunctionRulePath c cwd spec.Functions p ∨ ContainerRulePath c cwd spec.Jobs p ∨
            ImageRulePath c cwd spec.Images p → p ∈ result)) ∧
    (∀ spec : BuilderSpec, a.BuilderSpec c = .ok spec →
      (∀ e ∈ spec.Services, e.2.Build = none) → (∀ e ∈ spec.Acorns, e.2.Build = none) →
      a.WatchFiles c (fuel + 1) cwd =
          some (.ok (sortStrings (GoMap.keys (watchedBuildFiles c cwd spec)))) ∧
        ∀ (a1 : AppDefinition) (spec1 : BuilderSpec), a1.BuilderSpec c = .ok spec1 →
          (∀ e, e ∈ spec.Containers ↔ e ∈ spec1.Containers) →
          (∀ e, e ∈ spec.Functions ↔ e ∈ spec1.Functions) →
          (∀ e, e ∈ spec.Jobs ↔ e ∈ spec1.Jobs) →
          (∀ e, e ∈ spec.Images ↔ e ∈ spec1.Images) →
          (∀ e ∈ spec1.Services, e.2.Build = none) →
          (∀ e ∈ spec1.Acorns, e.2.Build = none) →
          a.WatchFiles c (fuel + 1) cwd = a1.WatchFiles c (fuel + 1) cwd) ∧
    (documentBrokenFirst.WatchFiles exampleCollaborators 2 "/app" = some (.ok []) ∧
      documentGoodFirst.WatchFiles exampleCollaborators 2 "/app" =
        some (.ok ["/app/good/Acornfile"]) ∧
      builderBrokenFirst.Acorns.Perm builderGoodFirst.Acorns ∧
      builderBrokenFirst.Containers = builderGoodFirst.Containers ∧
      builderBrokenFirst.Functions = builderGoodFirst.Functions ∧
      builderBrokenFirst.Jobs = builderGoodFirst.Jobs ∧
      builderBrokenFirst.Images = builderGoodFirst.Images ∧
      builderBrokenFirst.Services = builderGoodFirst.Services) := by
  refine ⟨?_, ?_, by rfl, by rfl, List.Perm.swap _ _ _, rfl, rfl, rfl, rfl, rfl⟩
  · intro result h
    obtain ⟨hs, spec, fs5, fs6, e1, e2, e3, e4, e5⟩ := WatchFiles_result c fuel a cwd result h
    have hnd : result.Nodup := by
      have hpw : List.Pairwise (fun x y : String => x ≠ y) result := by
        refine List.Pairwise.imp ?_ hs
        intro x y hlt heq
        subst heq
        exact lt_irrefl x hlt
      exact hpw
    refine ⟨hs, hnd, spec, fs5, fs6, e1, e2, e3, e4, ?_⟩
    intro p hp
    exact (e4 p).mpr (e5 p ((watchedBuildFiles_keys c cwd p spec).mpr hp))
  · intro spec hspec hS hA
    refine ⟨WatchFiles_returns c fuel a cwd spec hspec hS hA, ?_⟩
    intro a1 spec1 hs1 hC hF hJ hI hS1 hA1
    exact WatchFiles_same_entries c a a1 cwd spec spec1 fuel hspec hs1 hC hF hJ hI hS hA hS1 hA1

/-- Note on shared backing arrays: two calls of `WithImageData` on the same
receiver with a spare slot write the same slot, so the layer list of the first
result reads, after the second call, the layer of the second call. -/
theorem WithImageData_shared_slot :
    ((AppDefinitionMem.mk [] ⟨some 0, 1, 2⟩ true none []).WithImageData (fun _ => 0)
        [[layerA, ImagesData.zero]] layerB).2.imageDatas.elems
      ((AppDefinitionMem.mk [] ⟨some 0, 1, 2⟩ true none []).WithImageData (fun _ => 0)
        [[layerA, ImagesData.zero]] layerB).1 = [layerA, layerB] ∧
    ((AppDefinitionMem.mk [] ⟨some 0, 1, 2⟩ true none []).WithImageData (fun _ => 0)
        [[layerA, ImagesData.zero]] layerB).2.imageDatas.elems
      ((AppDefinitionMem.mk [] ⟨some 0, 1, 2⟩ true none []).WithImageData (fun _ => 0)
        ((AppDefinitionMem.mk [] ⟨some 0, 1, 2⟩ true none []).WithImageData (fun _ => 0)
          [[layerA, ImagesData.zero]] layerB).1 layerPlainA).1 = [layerA, layerPlainA] := by
  refine ⟨by decide, by decide⟩

end AcornRuntime
